import Mathlib

/-!
# Comment / uncomment of the gedit code-comment plugin

A shallow embedding of `gedit-code-comment.c` and proofs about it.

## The model

* A `GtkTextBuffer` is its text (a list of characters), the positions of the
  `insert` and `selection_bound` marks, and a log of the calls made on it.  A
  `GtkTextIter` is a character offset into the text.
* The GTK text primitives that the plugin calls are functions on the text.
  They follow the GTK 3 reference manual and `gtktextiter.c`: paragraphs end at
  `\n`, `\r`, `\r\n` and U+2029, iterators are clamped to the buffer, marks
  have right gravity, and the forward search works line by line and gives up
  on a match that ends after the limit.  The line structure is read off the
  text.
* The functions of the plugin keep their names and their control flow.  Each
  `do ... while` loop takes a fuel argument and reports `out_of_fuel` with the
  buffer it has reached when the fuel is used up; a `NULL` string that is
  dereferenced is the fault `null_pointer`.
* The log also holds a ghost entry for every entry into a line mutator, with
  the number of the line it was entered on.

## The statements

A line of a text is given by a splitting `pre ++ L ++ post` (`is_line`).  A
marker (`is_marker`) is a comment string without paragraph delimiter whose byte
length equals its character length.
-/

namespace GeditCodeComment

/-! ## The text buffer -/

/-- Calls that the buffer records, in call order. -/
inductive Event where
  | begin_user_action
  | end_user_action
  | insert_text (pos : Nat) (txt : List Char)
  | delete_range (lo hi : Nat)
  | visit_line (line : Nat)
deriving DecidableEq, Repr

/-- The text buffer: text, the `insert` and `selection_bound` marks, call log. -/
structure GtkTextBuffer where
  text : List Char
  insert_mark : Nat
  selection_bound : Nat
  log : List Event
deriving DecidableEq, Repr

/-- The three comment strings of a language; `none` is a `NULL` pointer. -/
structure Delims where
  block_comment_start : Option (List Char)
  block_comment_end : Option (List Char)
  line_comment_start : Option (List Char)
deriving DecidableEq, Repr

/-- Ways in which a run does not return a buffer. -/
inductive Fault where
  | null_pointer
  | out_of_fuel (reached : GtkTextBuffer)
deriving DecidableEq, Repr

/-- C `strlen` of a UTF-8 string: its length in bytes. -/
def strlen (s : List Char) : Nat := (s.map Char.utf8Size).sum

/-! ## Line structure of a text -/

/-- Paragraph delimiter characters. -/
def is_delimiter (c : Char) : Bool := c == '\n' || c == '\r' || c == '\u2029'

/-- The text `s` starts with a character after which a new paragraph starts
(`\n`, U+2029, or a `\r` that is not the first half of `\r\n`). -/
def starts_with_break : List Char → Bool
  | [] => false
  | c :: rest => c == '\n' || c == '\u2029' || (c == '\r' && rest.head? != some '\n')

/-- A new paragraph starts right after offset `j`. -/
def breaks_after (t : List Char) (j : Nat) : Bool := starts_with_break (t.drop j)

/-- Result of `gtk_text_iter_set_line_offset (iter, 0)`: start of the line of `p`. -/
def line_start (t : List Char) : Nat → Nat
  | 0 => 0
  | p + 1 => if breaks_after t p then p + 1 else line_start t p

/-- Line number of offset `p` (`gtk_text_iter_get_line`). -/
def gtk_text_iter_get_line (t : List Char) : Nat → Nat
  | 0 => 0
  | p + 1 => (if breaks_after t p then 1 else 0) + gtk_text_iter_get_line t p

/-- GTK `gtk_text_iter_ends_line`: the offset is at the paragraph delimiter of its
line (not at the `\n` of a `\r\n`), or is the end of the buffer. -/
def gtk_text_iter_ends_line (t : List Char) (p : Nat) : Bool :=
  match t.drop p with
  | [] => true
  | c :: _ =>
    if c == '\r' || c == '\u2029' then true
    else if c == '\n' then p == 0 || (t.drop (p - 1)).head? != some '\r'
    else false

/-- Number of characters of `s` up to and including its first paragraph break
(all of `s` when it has none). -/
def para_len : List Char → Nat
  | [] => 0
  | c :: rest => if starts_with_break (c :: rest) then 1 else 1 + para_len rest

/-- GTK `gtk_text_iter_forward_line`: start of the next line, or the end of the
buffer from the last line. -/
def gtk_text_iter_forward_line (t : List Char) (p : Nat) : Nat := p + para_len (t.drop p)

/-- GTK `gtk_text_iter_forward_lines`: `count` lines forward, stopping at the end of
the buffer when fewer lines remain. -/
def gtk_text_iter_forward_lines (t : List Char) (p : Nat) : Nat → Nat
  | 0 => p
  | count + 1 => gtk_text_iter_forward_lines t (gtk_text_iter_forward_line t p) count

/-- Offset in `s` of its first paragraph delimiter character (its length when
it has none). -/
def delimiter_offset : List Char → Nat
  | [] => 0
  | c :: rest => if is_delimiter c then 0 else 1 + delimiter_offset rest

/-- GTK `gtk_text_iter_forward_to_line_end`: to the delimiter of the current line,
or, from there on, to the delimiter of the next line. -/
def gtk_text_iter_forward_to_line_end (t : List Char) (p : Nat) : Nat :=
  let ls := line_start t p
  let new_offset := ls + delimiter_offset (t.drop ls)
  if p < new_offset then new_offset
  else
    let n := gtk_text_iter_forward_line t p
    if n < t.length then
      if gtk_text_iter_ends_line t n then n else n + delimiter_offset (t.drop n)
    else n

/-- GTK `gtk_text_iter_forward_chars`, clamped at the end of the buffer. -/
def gtk_text_iter_forward_chars (t : List Char) (p count : Nat) : Nat := min (p + count) t.length

/-- GTK `gtk_text_iter_backward_chars`, clamped at the start of the buffer. -/
def gtk_text_iter_backward_chars (p count : Nat) : Nat := p - count

/-! ## Forward search (`GTK_TEXT_SEARCH_TEXT_ONLY`, with a limit) -/

/-- C `strstr`: offset of the first occurrence of `needle` in `hay`. -/
def strstr : List Char → List Char → Option Nat
  | [], needle => if needle.isPrefixOf [] then some 0 else none
  | c :: hay, needle =>
    if needle.isPrefixOf (c :: hay) then some 0 else (strstr hay needle).map (· + 1)

/-- The search string cut after each `\n`, as gtktextiter.c cuts it. -/
def strbreakup : List Char → List (List Char)
  | [] => []
  | c :: rest =>
    if c == '\n' then [c] :: strbreakup rest
    else
      match strbreakup rest with
      | [] => [[c]]
      | piece :: more => (c :: piece) :: more

/-- Matching of the pieces of the search string against consecutive lines: the
first piece anywhere in the line of `start`, the others at the start of the
next lines.  Returns the end of the match. -/
def lines_match (t : List Char) : List (List Char) → Nat → Bool → Option Nat
  | [], start, _ => some start
  | piece :: more, start, first =>
    let next := gtk_text_iter_forward_line t start
    if start == next then none
    else
      let line_text := (t.drop start).take (next - start)
      let found := if first then strstr line_text piece
        else if piece.isPrefixOf line_text then some 0 else none
      match found with
      | none => none
      | some offset => lines_match t more (start + offset + piece.length) false

/-- Line by line loop of the search; `fuel` bounds the number of lines. -/
def forward_search_loop (t : List Char) (pieces : List (List Char)) (limit : Nat) :
    Nat → Nat → Bool
  | 0, _ => false
  | fuel + 1, search =>
    if limit ≤ search then false
    else
      match lines_match t pieces search true with
      | some match_end => decide (match_end ≤ limit)
      | none =>
        let next := gtk_text_iter_forward_line t search
        if next < t.length then forward_search_loop t pieces limit fuel next else false

/-- GTK `gtk_text_iter_forward_search (iter, str, GTK_TEXT_SEARCH_TEXT_ONLY, NULL,
NULL, limit)`: whether a match was found that ends at or before `limit`. -/
def gtk_text_iter_forward_search (t : List Char) (iter : Nat) (str : List Char)
    (limit : Nat) : Bool :=
  if limit ≤ iter then false
  else if str = [] then
    if iter + 1 < t.length then iter + 1 != limit else false
  else forward_search_loop t (strbreakup str) limit (t.length + 1) iter

/-! ## Buffer edits -/

/-- New position of a mark at `m` after `n` characters were inserted at `p`
(the selection marks have right gravity). -/
def mark_after_insert (p n m : Nat) : Nat := if p ≤ m then m + n else m

/-- New position of a mark at `m` after the range `lo .. hi` was deleted. -/
def mark_after_delete (lo hi m : Nat) : Nat :=
  if m ≤ lo then m else if m ≤ hi then lo else m - (hi - lo)

/-- GTK `gtk_text_buffer_insert (buffer, iter, text, -1)`; the iterator is left at
the end of the inserted text. -/
def gtk_text_buffer_insert (b : GtkTextBuffer) (iter : Nat) (txt : List Char) :
    GtkTextBuffer × Nat :=
  if txt = [] then (b, iter)
  else
    ({ text := b.text.take iter ++ txt ++ b.text.drop iter
       insert_mark := mark_after_insert iter txt.length b.insert_mark
       selection_bound := mark_after_insert iter txt.length b.selection_bound
       log := b.log ++ [Event.insert_text iter txt] },
     iter + txt.length)

/-- GTK `gtk_text_buffer_delete (buffer, start, end)`; both iterators are left at
the place of the deletion. -/
def gtk_text_buffer_delete (b : GtkTextBuffer) (start end_ : Nat) : GtkTextBuffer × Nat :=
  let lo := min start end_
  let hi := max start end_
  if lo = hi then (b, lo)
  else
    ({ text := b.text.take lo ++ b.text.drop hi
       insert_mark := mark_after_delete lo hi b.insert_mark
       selection_bound := mark_after_delete lo hi b.selection_bound
       log := b.log ++ [Event.delete_range lo hi] },
     lo)

/-- GTK `gtk_text_buffer_get_selection_bounds`: whether the selection is non-empty,
and its two bounds in ascending order. -/
def gtk_text_buffer_get_selection_bounds (b : GtkTextBuffer) : Bool × Nat × Nat :=
  (b.insert_mark != b.selection_bound,
   min b.insert_mark b.selection_bound,
   max b.insert_mark b.selection_bound)

/-- GTK `gtk_text_buffer_begin_user_action`. -/
def gtk_text_buffer_begin_user_action (b : GtkTextBuffer) : GtkTextBuffer :=
  { b with log := b.log ++ [Event.begin_user_action] }

/-- GTK `gtk_text_buffer_end_user_action`. -/
def gtk_text_buffer_end_user_action (b : GtkTextBuffer) : GtkTextBuffer :=
  { b with log := b.log ++ [Event.end_user_action] }

/-- Ghost call: the log records that a line mutator was entered on the line of
`itr`.  Text and marks are untouched. -/
def record_visit (b : GtkTextBuffer) (itr : Nat) : GtkTextBuffer :=
  { b with log := b.log ++ [Event.visit_line (gtk_text_iter_get_line b.text itr)] }

/-! ## The plugin -/

/-- Source function `gtk_text_iter_go_to_line_end` (lines 61-68). -/
def gtk_text_iter_go_to_line_end (t : List Char) (itr : Nat) : Nat :=
  if !gtk_text_iter_ends_line t itr then gtk_text_iter_forward_to_line_end t itr else itr

/-- Source function `get_line_length` (lines 70-82). -/
def get_line_length (b : GtkTextBuffer) (iter : Nat) : Nat :=
  let line_start_iter := line_start b.text iter
  let line_end_iter := gtk_text_iter_go_to_line_end b.text line_start_iter
  line_end_iter - line_start_iter

/-- Source function `get_comment_definitions` (lines 84-97): the return code and the three
strings, which stay `NULL` when the buffer has no language. -/
def get_comment_definitions (language : Option Delims) : Int × Delims :=
  match language with
  | some l => (0, l)
  | none => (-1, ⟨none, none, none⟩)

/-- Source function `check_text_between_iters` (lines 99-111). -/
def check_text_between_iters (b : GtkTextBuffer) (start end_ : Nat) (text_len : Nat)
    (text : List Char) : Bool :=
  let line_len := get_line_length b end_
  if line_len ≥ text_len then
    gtk_text_iter_forward_search b.text start text end_
  else false

/-- Source function `remove_comment_if_exists` (lines 113-124): the buffer, the iterator `start`
after the call, and the return code. -/
def remove_comment_if_exists (b : GtkTextBuffer) (start end_ : Nat) (text_len : Nat)
    (text : List Char) : GtkTextBuffer × Nat × Int :=
  let found_line_comment := check_text_between_iters b start end_ text_len text
  if found_line_comment then
    let r := gtk_text_buffer_delete b start end_
    (r.1, r.2, 0)
  else (b, start, 1)

/-- Source function `add_actual_comment_on_line` (lines 126-148).  A `NULL` block
marker handed to `gtk_text_buffer_insert` is the fault `null_pointer`. -/
def add_actual_comment_on_line (b : GtkTextBuffer) (itr : Nat) (d : Delims) :
    Except Fault GtkTextBuffer :=
  let b := record_visit b itr
  let this_itr := line_start b.text itr
  match d.line_comment_start with
  | some line_comment_start =>
    .ok (gtk_text_buffer_insert b this_itr line_comment_start).1
  | none =>
    match d.block_comment_start, d.block_comment_end with
    | some block_comment_start, some block_comment_end =>
      let b := gtk_text_buffer_begin_user_action b
      let r := gtk_text_buffer_insert b this_itr block_comment_start
      let this_itr := gtk_text_iter_go_to_line_end r.1.text r.2
      let r := gtk_text_buffer_insert r.1 this_itr block_comment_end
      .ok (gtk_text_buffer_end_user_action r.1)
    | _, _ => .error Fault.null_pointer

/-- Source function `remove_actual_comment_on_line` (lines 150-200).
`strlen (block_comment_end)` on a `NULL` string is the fault `null_pointer`; a
search for a `NULL` block start string finds nothing. -/
def remove_actual_comment_on_line (b : GtkTextBuffer) (itr : Nat) (d : Delims) :
    Except Fault GtkTextBuffer :=
  let b := record_visit b itr
  let this_itr := line_start b.text itr
  let comment_end_iter := this_itr
  let block_comment_start_len :=
    match d.block_comment_start with
    | some s => strlen s
    | none => 0
  let is_multicomment :=
    match d.line_comment_start, d.block_comment_start with
    | some _, some block_comment_start =>
      let test_end_iter := gtk_text_iter_forward_chars b.text this_itr block_comment_start_len
      check_text_between_iters b this_itr test_end_iter block_comment_start_len
        block_comment_start
    | _, _ => false
  match d.line_comment_start, is_multicomment with
  | some line_comment_start, false =>
    let line_comment_start_len := strlen line_comment_start
    let comment_end_iter :=
      gtk_text_iter_forward_chars b.text comment_end_iter line_comment_start_len
    .ok (remove_comment_if_exists b this_itr comment_end_iter line_comment_start_len
      line_comment_start).1
  | _, _ =>
    match d.block_comment_end with
    | none => .error Fault.null_pointer
    | some block_comment_end =>
      let block_comment_end_len := strlen block_comment_end
      let b := gtk_text_buffer_begin_user_action b
      let comment_end_iter :=
        gtk_text_iter_forward_chars b.text comment_end_iter block_comment_start_len
      let r :=
        match d.block_comment_start with
        | some block_comment_start =>
          remove_comment_if_exists b this_itr comment_end_iter block_comment_start_len
            block_comment_start
        | none => (b, this_itr, 1)
      let this_itr := gtk_text_iter_go_to_line_end r.1.text r.2.1
      let comment_end_iter := this_itr
      let this_itr := gtk_text_iter_backward_chars this_itr (strlen block_comment_end)
      let r := remove_comment_if_exists r.1 this_itr comment_end_iter block_comment_end_len
        block_comment_end
      .ok (gtk_text_buffer_end_user_action r.1)

/-- The `do ... while` loop of `line_comment_code` (lines 215-227); `i` is the
loop counter and `start_iter` the iterator the next visit starts from. -/
def line_comment_loop (d : Delims) : Nat → GtkTextBuffer → Nat → Nat → Except Fault GtkTextBuffer
  | 0, b, _, _ => .error (Fault.out_of_fuel b)
  | fuel + 1, b, start_iter, i =>
    match add_actual_comment_on_line b start_iter d with
    | .error f => .error f
    | .ok b =>
      let bounds := gtk_text_buffer_get_selection_bounds b
      let start_iter := gtk_text_iter_forward_lines b.text bounds.2.1 (i + 1)
      let end_iter := bounds.2.2
      if end_iter ≥ start_iter then line_comment_loop d fuel b start_iter (i + 1)
      else .ok b

/-- Source function `line_comment_code` (lines 202-237); `end_ = none` is the `NULL` end of the
bare-cursor call. -/
def line_comment_code (fuel : Nat) (b : GtkTextBuffer) (start : Nat) (end_ : Option Nat)
    (d : Delims) : Except Fault GtkTextBuffer :=
  match end_ with
  | some _ =>
    let b := gtk_text_buffer_begin_user_action b
    match line_comment_loop d fuel b start 0 with
    | .error f => .error f
    | .ok b => .ok (gtk_text_buffer_end_user_action b)
  | none => add_actual_comment_on_line b start d

/-- The `do ... while` loop of `line_uncomment_code` (lines 308-319). -/
def line_uncomment_loop (d : Delims) :
    Nat → GtkTextBuffer → Nat → Nat → Except Fault GtkTextBuffer
  | 0, b, _, _ => .error (Fault.out_of_fuel b)
  | fuel + 1, b, start_iter, i =>
    match remove_actual_comment_on_line b start_iter d with
    | .error f => .error f
    | .ok b =>
      let bounds := gtk_text_buffer_get_selection_bounds b
      let start_iter := gtk_text_iter_forward_lines b.text bounds.2.1 (i + 1)
      let end_iter := bounds.2.2
      if end_iter ≥ start_iter then line_uncomment_loop d fuel b start_iter (i + 1)
      else .ok b

/-- Source function `line_uncomment_code` (lines 294-329).  The `end_iter` set to column 0
before the loop is overwritten by the first re-read of the selection bounds
and is not used. -/
def line_uncomment_code (fuel : Nat) (b : GtkTextBuffer) (start : Nat) (end_ : Option Nat)
    (d : Delims) : Except Fault GtkTextBuffer :=
  match end_ with
  | some _ =>
    let b := gtk_text_buffer_begin_user_action b
    match line_uncomment_loop d fuel b start 0 with
    | .error f => .error f
    | .ok b => .ok (gtk_text_buffer_end_user_action b)
  | none => remove_actual_comment_on_line b start d

/-- The type of `line_comment_code` and `line_uncomment_code`. -/
abbrev Comment_function :=
  GtkTextBuffer → Nat → Option Nat → Delims → Except Fault GtkTextBuffer

/-- Source function `comment_code` (lines 239-292) on the buffer of the active view, whose
language metadata is `language` (`none`: the buffer has no language). -/
def comment_code (language : Option Delims) (com_funct : Comment_function)
    (buffer : GtkTextBuffer) : Except Fault GtkTextBuffer :=
  let d := (get_comment_definitions language).2
  if d.line_comment_start.isSome ||
      (d.block_comment_start.isSome && d.block_comment_end.isSome) then
    let bounds := gtk_text_buffer_get_selection_bounds buffer
    if bounds.1 then com_funct buffer bounds.2.1 (some bounds.2.2) d
    else com_funct buffer buffer.insert_mark none d
  else .ok buffer

/-- The lines on which a line mutator was entered, in call order. -/
def visits : List Event → List Nat
  | [] => []
  | Event.visit_line n :: rest => n :: visits rest
  | _ :: rest => visits rest

/-- A buffer with the cursor at `cursor`, no selection and an empty log. -/
def buffer_at (t : List Char) (cursor : Nat) : GtkTextBuffer :=
  ⟨t, cursor, cursor, []⟩

/-- A buffer with the selection `lo .. hi` and an empty log. -/
def buffer_sel (t : List Char) (lo hi : Nat) : GtkTextBuffer :=
  ⟨t, hi, lo, []⟩

/-! ## Notions used in the statements and in the proofs -/

/-- No paragraph delimiter character occurs in `l`. -/
def plain (l : List Char) : Bool := l.all (fun c => !is_delimiter c)

/-- The text before a line: empty, or closed by `\n` (also of `\r\n`) or U+2029. -/
def opens_line (pre : List Char) : Bool :=
  match pre.getLast? with
  | none => true
  | some c => c == '\n' || c == '\u2029'

/-- The text after a line: empty, or starting with a delimiter character. -/
def closes_line : List Char → Bool
  | [] => true
  | c :: _ => is_delimiter c

/-- Removal of a marker at the start of a line text, as the specification words
it: the marker is removed when the text starts with it, else nothing changes. -/
def strip_marker_at_start (m L : List Char) : List Char :=
  if m.isPrefixOf L then L.drop m.length else L

/-- Removal of a marker at the end of a line text, as the specification words
it: the marker is removed when the text ends with it, else nothing changes. -/
def strip_marker_at_end (m L : List Char) : List Char :=
  if m.isSuffixOf L then L.take (L.length - m.length) else L

/-- The list `L` is a whole line of the text `pre ++ L ++ post`. -/
def is_line (pre L post : List Char) : Bool :=
  opens_line pre && plain L && closes_line post

/-- A comment marker without paragraph delimiter whose byte length is its
character length. -/
def is_marker (m : List Char) : Bool := plain m && strlen m == m.length

/-- The test on the delimiters that `comment_code` makes before it does anything. -/
def supported (d : Delims) : Bool :=
  d.line_comment_start.isSome || (d.block_comment_start.isSome && d.block_comment_end.isSome)

/-- The line text after insertion, as the specification words it. -/
def commented (d : Delims) (L : List Char) : List Char :=
  match d.line_comment_start, d.block_comment_start, d.block_comment_end with
  | some p, _, _ => p ++ L
  | none, some S, some E => S ++ L ++ E
  | none, _, _ => L

/-- Text left by `remove_actual_comment_on_line` at `j` run on the buffer left by
`add_actual_comment_on_line` at `i`. -/
def uncomment_after_comment (b : GtkTextBuffer) (i j : Nat) (d : Delims) :
    Except Fault (List Char) :=
  match add_actual_comment_on_line b i d with
  | .error f => .error f
  | .ok b1 =>
    match remove_actual_comment_on_line b1 j d with
    | .error f => .error f
    | .ok b2 => .ok b2.text

/-- The three strings are all absent, or the line prefix and one of the block
markers are. -/
def unsupported (language : Option Delims) : Bool :=
  match language with
  | none => true
  | some d => d.line_comment_start.isNone &&
      (d.block_comment_start.isNone || d.block_comment_end.isNone)

/-- A paragraph delimiter that closes a line and cannot merge with its
neighbours: `\n`, `\r\n` or U+2029. -/
def is_terminator (T : List Char) : Bool :=
  T == ['\n'] || T == ['\r', '\n'] || T == ['\u2029']

/-- A row is the text of a line and the delimiter that closes it. -/
def row_ok (r : List Char × List Char) : Bool := plain r.1 && is_terminator r.2

/-- The text made of consecutive rows. -/
def flat : List (List Char × List Char) → List Char
  | [] => []
  | r :: rows => r.1 ++ r.2 ++ flat rows

/-- How a mark at `m` moves to `m'` when the line that starts at `P` changes its
length from `l` to `l'`: marks before the line stay, marks on the line stay on
it, marks from the line end on move with the text behind the line. -/
def mark_moved (P l l' m m' : Nat) : Prop :=
  (m < P → m' = m) ∧ (P ≤ m → m ≤ P + l → P ≤ m' ∧ m' ≤ P + l') ∧
    (P + l ≤ m → m' + l = m + l')

/-- The buffer `b'` differs from `b` by an edit of the line `L` of
`pre ++ L ++ post` into `L'`. -/
structure line_edit (b b' : GtkTextBuffer) (pre L L' post : List Char) : Prop where
  text : b'.text = pre ++ (L' ++ post)
  plain : plain L' = true
  ins : mark_moved pre.length L.length L'.length b.insert_mark b'.insert_mark
  bound : mark_moved pre.length L.length L'.length b.selection_bound b'.selection_bound
  visits : visits b'.log = visits b.log

/-- All markers that are present are markers in the sense of `is_marker`. -/
def markers_ok (d : Delims) : Bool :=
  d.line_comment_start.all is_marker && d.block_comment_start.all is_marker &&
    d.block_comment_end.all is_marker

/-- Delimiters that are supported, are made of markers, and have a block end
marker whenever they have a block start marker. -/
def well_formed (d : Delims) : Bool :=
  supported d && markers_ok d && (d.block_comment_start.isNone || d.block_comment_end.isSome)

/-- What a line mutator does when it is entered on a line: it returns a buffer
that differs by an edit of that line, and the visit is recorded. -/
def step_ok (step : GtkTextBuffer → Nat → Except Fault GtkTextBuffer) : Prop :=
  ∀ (b : GtkTextBuffer) (pre L post : List Char) (c : Nat),
    b.text = pre ++ (L ++ post) → opens_line pre = true → plain L = true →
    closes_line post = true → c ≤ L.length →
    ∃ b' L', step b (pre.length + c) = .ok b' ∧
      line_edit (record_visit b (pre.length + c)) b' pre L L' post

/-- The loop shared by `line_comment_loop` and `line_uncomment_loop`, with the
line mutator as a parameter. -/
def visit_loop (step : GtkTextBuffer → Nat → Except Fault GtkTextBuffer) :
    Nat → GtkTextBuffer → Nat → Nat → Except Fault GtkTextBuffer
  | 0, b, _, _ => .error (Fault.out_of_fuel b)
  | fuel + 1, b, start_iter, i =>
    match step b start_iter with
    | .error f => .error f
    | .ok b =>
      let bounds := gtk_text_buffer_get_selection_bounds b
      let start_iter := gtk_text_iter_forward_lines b.text bounds.2.1 (i + 1)
      let end_iter := bounds.2.2
      if end_iter ≥ start_iter then visit_loop step fuel b start_iter (i + 1)
      else .ok b

/-- The markers that the mode of `d` puts on a line: the line prefix when it is
present, else the block markers. -/
def mode_markers (d : Delims) : List (List Char) :=
  match d.line_comment_start with
  | some p => [p]
  | none => d.block_comment_start.toList ++ d.block_comment_end.toList

/-- The detector of the specification (`isLineCommented`), made of the bounded
checks of `check_text_between_iters` on the windows that
`remove_actual_comment_on_line` uses: the prefix window at column 0 when a line
prefix is present; else the start window at column 0 and the end window that
ends at the line end. -/
def is_line_commented (b : GtkTextBuffer) (itr : Nat) (d : Delims) : Bool :=
  let ls := line_start b.text itr
  match d.line_comment_start with
  | some p =>
    check_text_between_iters b ls (gtk_text_iter_forward_chars b.text ls (strlen p)) (strlen p) p
  | none =>
    match d.block_comment_start, d.block_comment_end with
    | some S, some E =>
      let le := gtk_text_iter_go_to_line_end b.text ls
      check_text_between_iters b ls (gtk_text_iter_forward_chars b.text ls (strlen S))
          (strlen S) S &&
        check_text_between_iters b (gtk_text_iter_backward_chars le (strlen E)) le
          (strlen E) E
    | _, _ => false

/-- GTK `gtk_text_buffer_get_line_count`: the number of lines of a text. -/
def gtk_text_buffer_get_line_count (t : List Char) : Nat :=
  gtk_text_iter_get_line t t.length + 1

/-- Depth of the nested user actions after the calls of a log, from the depth
`n`; `none` when an `end_user_action` has no `begin_user_action` before it. -/
def user_action_depth : Nat → List Event → Option Nat
  | n, [] => some n
  | n, Event.begin_user_action :: rest => user_action_depth (n + 1) rest
  | n, Event.end_user_action :: rest => if 0 < n then user_action_depth (n - 1) rest else none
  | n, Event.insert_text _ _ :: rest => user_action_depth n rest
  | n, Event.delete_range _ _ :: rest => user_action_depth n rest
  | n, Event.visit_line _ :: rest => user_action_depth n rest

/-- The depth of `user_action_depth`, with every insertion and deletion
required to be made inside a user action: `none` also when a text is inserted
or a range deleted at depth 0. -/
def scoped_depth : Nat → List Event → Option Nat
  | n, [] => some n
  | n, Event.begin_user_action :: rest => scoped_depth (n + 1) rest
  | n, Event.end_user_action :: rest => if 0 < n then scoped_depth (n - 1) rest else none
  | n, Event.insert_text _ _ :: rest => if 0 < n then scoped_depth n rest else none
  | n, Event.delete_range _ _ :: rest => if 0 < n then scoped_depth n rest else none
  | n, Event.visit_line _ :: rest => scoped_depth n rest

/-- Calls that keep the depth and are allowed inside a user action. -/
def inner_calls (ev : List Event) : Prop :=
  ∀ n, scoped_depth (n + 1) ev = some (n + 1) ∧ user_action_depth n ev = some n

/-- Calls that keep the depth and are allowed anywhere. -/
def outer_calls (ev : List Event) : Prop :=
  ∀ n, scoped_depth n ev = some n ∧ user_action_depth n ev = some n

/-- The line text carries a marker that removal looks for, as the specification
words it: in line mode the text begins with the line prefix or with a present
block start marker; in block mode it begins with the block start marker or ends
with the block end marker. -/
def carries_marker (d : Delims) (L : List Char) : Bool :=
  match d.line_comment_start with
  | some p => p.isPrefixOf L || d.block_comment_start.any (fun S => S.isPrefixOf L)
  | none =>
    d.block_comment_start.any (fun S => S.isPrefixOf L) ||
      d.block_comment_end.any (fun E => E.isSuffixOf L)

/-- The insertions and deletions of a log. -/
def edits : List Event → List Event
  | [] => []
  | Event.insert_text p t :: rest => Event.insert_text p t :: edits rest
  | Event.delete_range lo hi :: rest => Event.delete_range lo hi :: edits rest
  | _ :: rest => edits rest

/-- The line text after removal, as the specification words it: block markers
are stripped in block mode and, with precedence, on a line that begins with a
non-empty block start marker; else the line prefix is stripped. -/
def uncommented (d : Delims) (L : List Char) : List Char :=
  match d.line_comment_start, d.block_comment_start, d.block_comment_end with
  | some p, some S, some E =>
    if !S.isEmpty && S.isPrefixOf L then strip_marker_at_end E (strip_marker_at_start S L)
    else strip_marker_at_start p L
  | some p, _, _ => strip_marker_at_start p L
  | none, some S, some E => strip_marker_at_end E (strip_marker_at_start S L)
  | none, _, _ => L

/-- A line mutator that edits the line `L` it is entered on into `g L`. -/
def step_fn (step : GtkTextBuffer → Nat → Except Fault GtkTextBuffer)
    (g : List Char → List Char) : Prop :=
  ∀ (b : GtkTextBuffer) (pre L post : List Char) (c : Nat),
    b.text = pre ++ (L ++ post) → opens_line pre = true → plain L = true →
    closes_line post = true → c ≤ L.length →
    ∃ b', step b (pre.length + c) = .ok b' ∧
      line_edit (record_visit b (pre.length + c)) b' pre L (g L) post

/-! ## Lines inside a text

A line of a text is given by a splitting `pre ++ (L ++ post)`: `pre` is empty or
ends with a `\n` or U+2029, `L` has no delimiter character and `post` is empty
or starts with a delimiter character. -/

theorem plain_iff {l : List Char} : plain l = true ↔ ∀ c ∈ l, is_delimiter c = false := by
  simp [plain, List.all_eq_true]

theorem plain_nil : plain [] = true := rfl

theorem plain_cons {c : Char} {l : List Char} :
    plain (c :: l) = true ↔ is_delimiter c = false ∧ plain l = true := by
  simp [plain]

theorem plain_append {l₁ l₂ : List Char} :
    plain (l₁ ++ l₂) = true ↔ plain l₁ = true ∧ plain l₂ = true := by
  simp [plain, List.all_append]

theorem plain_drop {l : List Char} (n : Nat) (h : plain l = true) : plain (l.drop n) = true := by
  rw [plain_iff] at *
  exact fun c hc => h c (List.mem_of_mem_drop hc)

theorem plain_take {l : List Char} (n : Nat) (h : plain l = true) : plain (l.take n) = true := by
  rw [plain_iff] at *
  exact fun c hc => h c (List.mem_of_mem_take hc)

theorem not_delimiter {c : Char} (h : is_delimiter c = false) :
    c ≠ '\n' ∧ c ≠ '\r' ∧ c ≠ '\u2029' := by
  simp [is_delimiter] at h
  exact ⟨h.1.1, h.1.2, h.2⟩

theorem starts_with_break_plain {c : Char} (rest : List Char) (h : is_delimiter c = false) :
    starts_with_break (c :: rest) = false := by
  obtain ⟨h1, h2, h3⟩ := not_delimiter h
  simp [starts_with_break, h1, h2, h3]

theorem para_len_plain_append (L post : List Char) (h : plain L = true) :
    para_len (L ++ post) = L.length + para_len post := by
  induction L with
  | nil => simp
  | cons c L ih =>
    rw [plain_cons] at h
    simp only [List.cons_append, para_len, starts_with_break_plain _ h.1, List.length_cons]
    rw [List.append_eq, ih h.2]
    simp
    omega

theorem delimiter_offset_plain_append (L post : List Char) (h : plain L = true) :
    delimiter_offset (L ++ post) = L.length + delimiter_offset post := by
  induction L with
  | nil => simp
  | cons c L ih =>
    rw [plain_cons] at h
    simp only [List.cons_append, delimiter_offset, h.1, List.length_cons]
    rw [List.append_eq, ih h.2]
    simp
    omega

theorem delimiter_offset_closes {post : List Char} (h : closes_line post = true) :
    delimiter_offset post = 0 := by
  cases post with
  | nil => rfl
  | cons c rest => simp [closes_line] at h; simp [delimiter_offset, h]

theorem breaks_after_inside (pre L post : List Char) (h : plain L = true) (c : Nat)
    (hc : c < L.length) : breaks_after (pre ++ (L ++ post)) (pre.length + c) = false := by
  unfold breaks_after
  rw [List.drop_append, List.drop_append_of_le_length (le_of_lt hc),
    List.drop_eq_getElem_cons hc]
  exact starts_with_break_plain _ (plain_iff.1 h _ (List.getElem_mem _))

theorem breaks_after_opens (pre' : List Char) (x : Char) (rest : List Char)
    (h : opens_line (pre' ++ [x]) = true) :
    breaks_after ((pre' ++ [x]) ++ rest) pre'.length = true := by
  unfold breaks_after
  simp [opens_line] at h
  rw [List.append_assoc, List.drop_left]
  rcases h with h | h <;> simp [starts_with_break, h]

theorem line_start_at (pre rest : List Char) (h : opens_line pre = true) :
    line_start (pre ++ rest) pre.length = pre.length := by
  rcases List.eq_nil_or_concat pre with rfl | ⟨pre', x, rfl⟩
  · rfl
  · rw [List.concat_eq_append] at h ⊢
    simp only [List.length_append, List.length_singleton, line_start,
      breaks_after_opens pre' x rest h, if_true]

theorem line_start_inside (pre L post : List Char) (ho : opens_line pre = true)
    (h : plain L = true) (c : Nat) (hc : c ≤ L.length) :
    line_start (pre ++ (L ++ post)) (pre.length + c) = pre.length := by
  induction c with
  | zero => exact line_start_at pre _ ho
  | succ c ih =>
    rw [← Nat.add_assoc, line_start, breaks_after_inside pre L post h c (by omega)]
    simpa using ih (by omega)

theorem get_line_inside (pre L post : List Char)
    (h : plain L = true) (c : Nat) (hc : c ≤ L.length) :
    gtk_text_iter_get_line (pre ++ (L ++ post)) (pre.length + c) =
      gtk_text_iter_get_line (pre ++ (L ++ post)) pre.length := by
  induction c with
  | zero => rfl
  | succ c ih =>
    rw [← Nat.add_assoc, gtk_text_iter_get_line, breaks_after_inside pre L post h c (by omega)]
    simpa using ih (by omega)

theorem char_before_line_end (pre L rest : List Char) (ho : opens_line pre = true)
    (h : plain L = true) (hp : 0 < pre.length + L.length) :
    ((pre ++ (L ++ rest)).drop (pre.length + L.length - 1)).head? ≠ some '\r' := by
  rcases List.eq_nil_or_concat L with rfl | ⟨L', y, rfl⟩
  · rcases List.eq_nil_or_concat pre with rfl | ⟨pre', x, rfl⟩
    · simp at hp
    · rw [List.concat_eq_append] at ho ⊢
      simp [opens_line] at ho
      have e : (pre' ++ [x]).length + ([] : List Char).length - 1 = pre'.length := by
        simp only [List.length_append, List.length_singleton, List.length_nil]; omega
      rw [e, List.append_assoc, List.drop_left]
      rcases ho with ho | ho <;> subst ho <;> simp
  · rw [List.concat_eq_append] at h ⊢
    have hy : is_delimiter y = false := by
      rw [plain_append] at h
      simpa [plain] using h.2
    have e : pre.length + (L' ++ [y]).length - 1 = pre.length + L'.length := by
      simp only [List.length_append, List.length_singleton]; omega
    rw [e, List.drop_append, List.append_assoc, List.drop_left]
    simp [(not_delimiter hy).2.1]

theorem ends_line_at (pre L post : List Char) (ho : opens_line pre = true)
    (h : plain L = true) (hc : closes_line post = true) :
    gtk_text_iter_ends_line (pre ++ (L ++ post)) (pre.length + L.length) = true := by
  have hne := char_before_line_end pre L post ho h
  unfold gtk_text_iter_ends_line
  have hd : (pre ++ (L ++ post)).drop (pre.length + L.length) = post := by
    rw [List.drop_append, List.drop_left]
  rw [hd]
  cases post with
  | nil => rfl
  | cons c rest =>
    simp only [closes_line, is_delimiter, Bool.or_eq_true, beq_iff_eq] at hc
    by_cases h0 : pre.length + L.length = 0
    · rcases hc with (hc | hc) | hc <;> simp [hc, h0]
    · have := hne (by omega)
      rw [List.head?_drop] at this
      rcases hc with (hc | hc) | hc <;> subst hc <;> simp [this]

theorem ends_line_inside (pre L post : List Char) (h : plain L = true) (c : Nat)
    (hc : c < L.length) :
    gtk_text_iter_ends_line (pre ++ (L ++ post)) (pre.length + c) = false := by
  unfold gtk_text_iter_ends_line
  rw [List.drop_append, List.drop_append_of_le_length (le_of_lt hc),
    List.drop_eq_getElem_cons hc]
  obtain ⟨h1, h2, h3⟩ := not_delimiter (plain_iff.1 h _ (List.getElem_mem hc))
  simp only [List.cons_append]
  simp [h1, h2, h3]

theorem forward_to_line_end_inside (pre L post : List Char) (ho : opens_line pre = true)
    (h : plain L = true) (hcl : closes_line post = true) (c : Nat) (hc : c < L.length) :
    gtk_text_iter_forward_to_line_end (pre ++ (L ++ post)) (pre.length + c) =
      pre.length + L.length := by
  unfold gtk_text_iter_forward_to_line_end
  simp only [line_start_inside pre L post ho h c (le_of_lt hc), List.drop_left,
    delimiter_offset_plain_append L post h, delimiter_offset_closes hcl]
  rw [if_pos (by omega)]
  rfl

theorem go_to_line_end_inside (pre L post : List Char) (ho : opens_line pre = true)
    (h : plain L = true) (hcl : closes_line post = true) (c : Nat) (hc : c ≤ L.length) :
    gtk_text_iter_go_to_line_end (pre ++ (L ++ post)) (pre.length + c) =
      pre.length + L.length := by
  unfold gtk_text_iter_go_to_line_end
  rcases Nat.lt_or_ge c L.length with hlt | hge
  · simp [ends_line_inside pre L post h c hlt,
      forward_to_line_end_inside pre L post ho h hcl c hlt]
  · have : c = L.length := by omega
    subst this
    simp [ends_line_at pre L post ho h hcl]

theorem get_line_length_inside (b : GtkTextBuffer) (pre L post : List Char)
    (hb : b.text = pre ++ (L ++ post)) (ho : opens_line pre = true)
    (h : plain L = true) (hcl : closes_line post = true) (c : Nat) (hc : c ≤ L.length) :
    get_line_length b (pre.length + c) = L.length := by
  unfold get_line_length
  simp only [hb, line_start_inside pre L post ho h c hc]
  have := go_to_line_end_inside pre L post ho h hcl 0 (Nat.zero_le _)
  simp only [Nat.add_zero] at this
  rw [this]
  omega

theorem forward_line_inside (pre L post : List Char) (h : plain L = true) (c : Nat)
    (hc : c ≤ L.length) :
    gtk_text_iter_forward_line (pre ++ (L ++ post)) (pre.length + c) =
      pre.length + L.length + para_len post := by
  unfold gtk_text_iter_forward_line
  rw [List.drop_append, List.drop_append_of_le_length hc,
    para_len_plain_append _ _ (plain_drop c h), List.length_drop]
  omega

/-! ## The search -/

theorem strstr_of_isPrefix {hay needle : List Char} (h : needle <+: hay) :
    strstr hay needle = some 0 := by
  cases hay with
  | nil => simp [strstr, List.isPrefixOf_iff_prefix.2 h]
  | cons c hay => simp [strstr, List.isPrefixOf_iff_prefix.2 h]

theorem strstr_sound {hay needle : List Char} {o : Nat} (h : strstr hay needle = some o) :
    needle <+: hay.drop o := by
  induction hay generalizing o with
  | nil =>
    simp only [strstr] at h
    split at h
    · rename_i hp
      cases h
      exact List.isPrefixOf_iff_prefix.1 hp
    · cases h
  | cons c hay ih =>
    simp only [strstr] at h
    split at h
    · rename_i hp
      cases h
      exact List.isPrefixOf_iff_prefix.1 hp
    · cases hs : strstr hay needle with
      | none => simp [hs] at h
      | some o' =>
        simp [hs] at h
        subst h
        simpa using ih hs

theorem strbreakup_plain {m : List Char} (hm : plain m = true) (hne : m ≠ []) :
    strbreakup m = [m] := by
  induction m with
  | nil => exact absurd rfl hne
  | cons c rest ih =>
    rw [plain_cons] at hm
    have hc : (c == '\n') = false := by simpa using (not_delimiter hm.1).1
    cases rest with
    | nil => simp [strbreakup, hc]
    | cons c' rest' =>
      have := ih hm.2 (by simp)
      rw [strbreakup, this]
      simp [hc]

theorem lines_match_single_sound (t m : List Char) (start e : Nat)
    (h : lines_match t [m] start true = some e) :
    ∃ p, start ≤ p ∧ p + m.length = e ∧ m <+: t.drop p := by
  simp only [lines_match] at h
  split at h
  · cases h
  · simp only [if_true] at h
    cases hs : strstr (List.take (gtk_text_iter_forward_line t start - start) (List.drop start t)) m with
    | none => simp [hs] at h
    | some o =>
      simp only [hs, Option.some.injEq] at h
      refine ⟨start + o, by omega, h, ?_⟩
      have := strstr_sound hs
      rw [List.drop_take, List.drop_drop] at this
      exact this.trans (List.take_prefix _ _)

theorem forward_search_loop_sound (t m : List Char) (limit : Nat) (fuel search : Nat)
    (h : forward_search_loop t [m] limit fuel search = true) :
    ∃ p, search ≤ p ∧ p + m.length ≤ limit ∧ m <+: t.drop p := by
  induction fuel generalizing search with
  | zero => simp [forward_search_loop] at h
  | succ fuel ih =>
    simp only [forward_search_loop] at h
    split at h
    · cases h
    · cases hl : lines_match t [m] search true with
      | some e =>
        simp only [hl, decide_eq_true_eq] at h
        obtain ⟨p, hp1, hp2, hp3⟩ := lines_match_single_sound t m search e hl
        exact ⟨p, hp1, by omega, hp3⟩
      | none =>
        simp only [hl] at h
        split at h
        · obtain ⟨p, hp1, hp2, hp3⟩ := ih _ h
          exact ⟨p, le_trans (by unfold gtk_text_iter_forward_line; omega) hp1, hp2, hp3⟩
        · cases h

/-- A successful search for a delimiter-free string found it inside the window. -/
theorem forward_search_sound (t m : List Char) (iter limit : Nat) (hm : plain m = true)
    (hne : m ≠ []) (h : gtk_text_iter_forward_search t iter m limit = true) :
    ∃ p, iter ≤ p ∧ p + m.length ≤ limit ∧ m <+: t.drop p := by
  unfold gtk_text_iter_forward_search at h
  split at h
  · cases h
  · simp only [hne, if_false, strbreakup_plain hm hne] at h
    exact forward_search_loop_sound t m limit _ iter h

/-- The search fails on an empty window. -/
theorem forward_search_empty_window (t m : List Char) (iter limit : Nat) (h : limit ≤ iter) :
    gtk_text_iter_forward_search t iter m limit = false := by
  unfold gtk_text_iter_forward_search
  rw [if_pos h]

/-- The search finds a delimiter-free string that stands at the start of the window. -/
theorem forward_search_complete (t m : List Char) (iter limit : Nat) (hm : plain m = true)
    (hne : m ≠ []) (hp : m <+: t.drop iter) (hl : iter + m.length ≤ limit) :
    gtk_text_iter_forward_search t iter m limit = true := by
  have hpos : 0 < m.length := List.length_pos.2 hne
  obtain ⟨rest, hrest⟩ := hp
  have hlim : ¬ limit ≤ iter := by omega
  unfold gtk_text_iter_forward_search
  rw [if_neg hlim, if_neg hne, strbreakup_plain hm hne]
  have hpl : para_len (t.drop iter) = m.length + para_len rest := by
    rw [← hrest, para_len_plain_append _ _ hm]
  have hlm : lines_match t [m] iter true = some (iter + m.length) := by
    have hnext : ¬ (iter == iter + (m.length + para_len rest)) = true := by
      simp only [beq_iff_eq]; omega
    have hpre : m <+: List.take (m.length + para_len rest) (List.drop iter t) := by
      rw [← hrest, List.take_append]
      exact List.prefix_append _ _
    simp only [lines_match, gtk_text_iter_forward_line, hpl, hnext, if_false, if_true,
      Nat.add_sub_cancel_left, strstr_of_isPrefix hpre, Nat.add_zero]
    rfl
  simp only [forward_search_loop, hlim, if_false, hlm, decide_eq_true_eq]
  exact hl

theorem isPrefix_of_plain {m L post : List Char} (hm : plain m = true)
    (hcl : closes_line post = true) (h : m <+: L ++ post) : m <+: L := by
  rcases Nat.lt_or_ge L.length m.length with hlt | hle
  case inr => exact List.prefix_of_prefix_length_le h (List.prefix_append _ _) hle
  case inl =>
    exfalso
    obtain ⟨r, hr⟩ := h
    have h1 : (m ++ r)[L.length]? = m[L.length]? := List.getElem?_append_left hlt
    have h2 : (L ++ post)[L.length]? = post[0]? := by
      rw [List.getElem?_append_right (le_refl _)]; simp
    rw [hr, h2] at h1
    have h3 : m[L.length]? = some m[L.length] := List.getElem?_eq_getElem hlt
    rw [h3] at h1
    cases post with
    | nil => simp at h1
    | cons c rest =>
      simp at h1
      simp only [closes_line] at hcl
      have := plain_iff.1 hm _ (List.getElem_mem hlt)
      rw [← h1] at this
      simp [this] at hcl

/-! ## The bounded check on a line -/

theorem check_at_line_start (b : GtkTextBuffer) (pre L post : List Char)
    (hb : b.text = pre ++ (L ++ post)) (ho : opens_line pre = true)
    (h : plain L = true) (hcl : closes_line post = true) (m : List Char)
    (hm : plain m = true) (hs : strlen m = m.length) :
    check_text_between_iters b pre.length
      (gtk_text_iter_forward_chars b.text pre.length (strlen m)) (strlen m) m =
      (!m.isEmpty && m.isPrefixOf L) := by
  rw [Bool.eq_iff_iff]
  simp only [Bool.and_eq_true, Bool.not_eq_true', List.isEmpty_eq_false, ne_eq,
    List.isPrefixOf_iff_prefix]
  unfold check_text_between_iters gtk_text_iter_forward_chars
  rw [hs, hb]
  constructor
  · intro hchk
    simp only [ge_iff_le] at hchk
    split at hchk
    · by_cases hne : m = []
      · subst hne
        rw [forward_search_empty_window _ _ _ _ (by simp)] at hchk
        cases hchk
      · obtain ⟨p, hp1, hp2, hp3⟩ := forward_search_sound _ _ _ _ hm hne hchk
        have : p = pre.length := by
          have := Nat.min_le_left (pre.length + m.length) (pre ++ (L ++ post)).length
          omega
        subst this
        rw [List.drop_left] at hp3
        exact ⟨hne, isPrefix_of_plain hm hcl hp3⟩
    · cases hchk
  · rintro ⟨hne, hp⟩
    have hle := hp.length_le
    have hmin : min (pre.length + m.length) (pre ++ (L ++ post)).length =
        pre.length + m.length := by
      simp only [List.length_append]; omega
    rw [hmin, get_line_length_inside b pre L post hb ho h hcl m.length hle]
    simp only [ge_iff_le, hle, if_true]
    apply forward_search_complete _ _ _ _ hm hne _ (le_refl _)
    rw [List.drop_left]
    exact hp.trans (List.prefix_append _ _)

theorem check_at_line_end (b : GtkTextBuffer) (pre L post : List Char)
    (hb : b.text = pre ++ (L ++ post)) (ho : opens_line pre = true)
    (h : plain L = true) (hcl : closes_line post = true) (m : List Char)
    (hm : plain m = true) (hs : strlen m = m.length) :
    check_text_between_iters b
      (gtk_text_iter_backward_chars (pre.length + L.length) (strlen m))
      (pre.length + L.length) (strlen m) m =
      (!m.isEmpty && m.isSuffixOf L) := by
  rw [Bool.eq_iff_iff]
  simp only [Bool.and_eq_true, Bool.not_eq_true', List.isEmpty_eq_false, ne_eq,
    List.isSuffixOf_iff_suffix]
  unfold check_text_between_iters gtk_text_iter_backward_chars
  rw [hs, get_line_length_inside b pre L post hb ho h hcl L.length (le_refl _), hb]
  constructor
  · intro hchk
    simp only [ge_iff_le] at hchk
    split at hchk
    · rename_i hle
      by_cases hne : m = []
      · subst hne
        rw [forward_search_empty_window _ _ _ _ (by simp)] at hchk
        cases hchk
      · obtain ⟨p, hp1, hp2, hp3⟩ := forward_search_sound _ _ _ _ hm hne hchk
        have : p = pre.length + (L.length - m.length) := by omega
        subst this
        rw [List.drop_append, List.drop_append_of_le_length (by omega)] at hp3
        have hp4 := isPrefix_of_plain hm hcl hp3
        have hlen : (L.drop (L.length - m.length)).length = m.length := by
          rw [List.length_drop]; omega
        have := hp4.eq_of_length hlen.symm
        exact ⟨hne, this ▸ List.drop_suffix _ _⟩
    · cases hchk
  · rintro ⟨hne, hp⟩
    have hle := hp.length_le
    simp only [ge_iff_le, hle, if_true]
    have hpos : 0 < m.length := List.length_pos.2 hne
    apply forward_search_complete _ _ _ _ hm hne _ (by omega)
    have : pre.length + L.length - m.length = pre.length + (L.length - m.length) := by omega
    rw [this, List.drop_append, List.drop_append_of_le_length (by omega),
      ← List.suffix_iff_eq_drop.1 hp]
    exact List.prefix_append _ _

/-! ## Text after an edit -/

theorem insert_text (b : GtkTextBuffer) (pre rest txt : List Char) (hb : b.text = pre ++ rest) :
    (gtk_text_buffer_insert b pre.length txt).1.text = pre ++ (txt ++ rest) ∧
      (gtk_text_buffer_insert b pre.length txt).2 = pre.length + txt.length := by
  unfold gtk_text_buffer_insert
  split
  · rename_i h
    subst h
    simp [hb]
  · simp [hb]

theorem delete_text (b : GtkTextBuffer) (pre m rest : List Char)
    (hb : b.text = pre ++ (m ++ rest)) :
    (gtk_text_buffer_delete b pre.length (pre.length + m.length)).1.text = pre ++ rest ∧
      (gtk_text_buffer_delete b pre.length (pre.length + m.length)).2 = pre.length := by
  unfold gtk_text_buffer_delete
  simp only [Nat.le_add_right, min_eq_left, max_eq_right]
  split
  · rename_i h
    have : m = [] := List.length_eq_zero.1 (by omega)
    subst this
    simp [hb]
  · simp [hb]

@[simp] theorem record_visit_text (b : GtkTextBuffer) (i : Nat) :
    (record_visit b i).text = b.text := rfl

@[simp] theorem begin_user_action_text (b : GtkTextBuffer) :
    (gtk_text_buffer_begin_user_action b).text = b.text := rfl

@[simp] theorem end_user_action_text (b : GtkTextBuffer) :
    (gtk_text_buffer_end_user_action b).text = b.text := rfl

theorem strip_marker_at_start_length (m L : List Char) :
    (strip_marker_at_start m L).length ≤ L.length := by
  unfold strip_marker_at_start
  split <;> simp

theorem plain_strip_start (m L : List Char) (h : plain L = true) :
    plain (strip_marker_at_start m L) = true := by
  unfold strip_marker_at_start
  split
  · exact plain_drop _ h
  · exact h

theorem plain_strip_end (m L : List Char) (h : plain L = true) :
    plain (strip_marker_at_end m L) = true := by
  unfold strip_marker_at_end
  split
  · exact plain_take _ h
  · exact h

theorem remove_at_line_start (b : GtkTextBuffer) (pre L post : List Char)
    (hb : b.text = pre ++ (L ++ post)) (ho : opens_line pre = true)
    (h : plain L = true) (hcl : closes_line post = true) (m : List Char)
    (hm : plain m = true) (hs : strlen m = m.length) :
    (remove_comment_if_exists b pre.length
      (gtk_text_iter_forward_chars b.text pre.length (strlen m)) (strlen m) m).1.text =
      pre ++ (strip_marker_at_start m L ++ post) ∧
    (remove_comment_if_exists b pre.length
      (gtk_text_iter_forward_chars b.text pre.length (strlen m)) (strlen m) m).2.1 =
      pre.length := by
  unfold remove_comment_if_exists
  rw [check_at_line_start b pre L post hb ho h hcl m hm hs]
  unfold strip_marker_at_start
  by_cases hp : m.isPrefixOf L = true
  · by_cases hne : m = []
    · subst hne
      simp [hb]
    · obtain ⟨R, rfl⟩ := List.isPrefixOf_iff_prefix.1 hp
      have hfc : gtk_text_iter_forward_chars b.text pre.length (strlen m) =
          pre.length + m.length := by
        unfold gtk_text_iter_forward_chars
        rw [hs, hb]
        simp only [List.length_append]; omega
      have hcond : (!m.isEmpty && m.isPrefixOf (m ++ R)) = true := by
        simp [hne]
      rw [hfc]
      simp only [hcond, if_true, hp]
      rw [List.append_assoc] at hb
      simpa [hne] using delete_text b pre m (R ++ post) hb
  · simp [hp, hb]

theorem remove_at_line_end (b : GtkTextBuffer) (pre L post : List Char)
    (hb : b.text = pre ++ (L ++ post)) (ho : opens_line pre = true)
    (h : plain L = true) (hcl : closes_line post = true) (m : List Char)
    (hm : plain m = true) (hs : strlen m = m.length) :
    (remove_comment_if_exists b
      (gtk_text_iter_backward_chars (pre.length + L.length) (strlen m))
      (pre.length + L.length) (strlen m) m).1.text =
      pre ++ (strip_marker_at_end m L ++ post) := by
  unfold remove_comment_if_exists
  rw [check_at_line_end b pre L post hb ho h hcl m hm hs]
  unfold strip_marker_at_end
  by_cases hp : m.isSuffixOf L = true
  · by_cases hne : m = []
    · subst hne
      simp [hb]
    · obtain ⟨R, rfl⟩ := List.isSuffixOf_iff_suffix.1 hp
      have hcond : (!m.isEmpty && m.isSuffixOf (R ++ m)) = true := by
        simp [hne]
      have hbc : gtk_text_iter_backward_chars (pre.length + (R ++ m).length) (strlen m) =
          (pre ++ R).length := by
        unfold gtk_text_iter_backward_chars
        rw [hs]
        simp only [List.length_append]; omega
      have hend : pre.length + (R ++ m).length = (pre ++ R).length + m.length := by
        simp only [List.length_append]; omega
      rw [hbc, hend]
      simp only [hcond, if_true, hp]
      have hb' : b.text = (pre ++ R) ++ (m ++ post) := by simp [hb]
      have := (delete_text b (pre ++ R) m post hb').1
      simpa [hne] using this
  · simp [hp, hb]

/-! ## The line mutators on a line -/

/-- Line mode: the prefix is inserted at column 0 of the line of the iterator. -/
theorem add_line_mode (b : GtkTextBuffer) (pre L post : List Char)
    (hb : b.text = pre ++ (L ++ post)) (ho : opens_line pre = true) (h : plain L = true)
    (c : Nat) (hc : c ≤ L.length) (d : Delims) (p : List Char)
    (hd : d.line_comment_start = some p) :
    add_actual_comment_on_line b (pre.length + c) d =
      .ok (gtk_text_buffer_insert (record_visit b (pre.length + c)) pre.length p).1 := by
  unfold add_actual_comment_on_line
  simp only [hd, record_visit_text, hb, line_start_inside pre L post ho h c hc]

/-- Block mode: the start marker goes to column 0, the end marker to the end of
the same line. -/
theorem add_block_mode (b : GtkTextBuffer) (pre L post : List Char)
    (hb : b.text = pre ++ (L ++ post)) (ho : opens_line pre = true) (h : plain L = true)
    (hcl : closes_line post = true) (c : Nat) (hc : c ≤ L.length) (d : Delims)
    (S E : List Char) (hl : d.line_comment_start = none)
    (hS : d.block_comment_start = some S) (hE : d.block_comment_end = some E)
    (hpS : plain S = true) :
    add_actual_comment_on_line b (pre.length + c) d =
      .ok (gtk_text_buffer_end_user_action
        (gtk_text_buffer_insert
          (gtk_text_buffer_insert
            (gtk_text_buffer_begin_user_action (record_visit b (pre.length + c)))
            pre.length S).1
          (pre.length + (S ++ L).length) E).1) := by
  unfold add_actual_comment_on_line
  simp only [hl, hS, hE, record_visit_text, hb, line_start_inside pre L post ho h c hc]
  have hi := insert_text (gtk_text_buffer_begin_user_action (record_visit b (pre.length + c)))
    pre (L ++ post) S (by simp [hb])
  have hg := go_to_line_end_inside pre (S ++ L) post ho (plain_append.2 ⟨hpS, h⟩) hcl
    S.length (by simp)
  rw [hi.2, hi.1, ← List.append_assoc S L post, hg]

theorem add_block_mode_text (b : GtkTextBuffer) (pre L post : List Char)
    (hb : b.text = pre ++ (L ++ post)) (S E : List Char) (c : Nat) :
    (gtk_text_buffer_end_user_action
        (gtk_text_buffer_insert
          (gtk_text_buffer_insert
            (gtk_text_buffer_begin_user_action (record_visit b (pre.length + c)))
            pre.length S).1
          (pre.length + (S ++ L).length) E).1).text = pre ++ (S ++ L ++ E ++ post) := by
  have hi := insert_text (gtk_text_buffer_begin_user_action (record_visit b (pre.length + c)))
    pre (L ++ post) S (by simp [hb])
  have hi2 := insert_text (gtk_text_buffer_insert
      (gtk_text_buffer_begin_user_action (record_visit b (pre.length + c))) pre.length S).1
    (pre ++ (S ++ L)) post E (by rw [hi.1]; simp)
  rw [List.length_append] at hi2
  rw [end_user_action_text, hi2.1]
  simp

/-- The line branch: taken when the bounded check for the block start marker
fails, or when there is no block start marker. -/
theorem remove_line_path (b : GtkTextBuffer) (pre L post : List Char)
    (hb : b.text = pre ++ (L ++ post)) (ho : opens_line pre = true) (h : plain L = true)
    (hcl : closes_line post = true) (c : Nat) (hc : c ≤ L.length) (d : Delims)
    (p : List Char) (hd : d.line_comment_start = some p)
    (hS : ∀ S, d.block_comment_start = some S →
      plain S = true ∧ strlen S = S.length ∧ (!S.isEmpty && S.isPrefixOf L) = false) :
    remove_actual_comment_on_line b (pre.length + c) d =
      .ok (remove_comment_if_exists (record_visit b (pre.length + c)) pre.length
        (gtk_text_iter_forward_chars b.text pre.length (strlen p)) (strlen p) p).1 := by
  unfold remove_actual_comment_on_line
  simp only [hd, record_visit_text, hb, line_start_inside pre L post ho h c hc]
  cases hbs : d.block_comment_start with
  | none => simp
  | some S =>
    obtain ⟨h1, h2, h3⟩ := hS S hbs
    have := check_at_line_start (record_visit b (pre.length + c)) pre L post (by simp [hb])
      ho h hcl S h1 h2
    simp only [record_visit_text, hb] at this
    simp only [this, h3]

theorem remove_block_path_eq (b : GtkTextBuffer) (pre L post : List Char)
    (hb : b.text = pre ++ (L ++ post)) (ho : opens_line pre = true) (h : plain L = true)
    (hcl : closes_line post = true) (c : Nat) (hc : c ≤ L.length) (d : Delims)
    (S E : List Char) (hS : d.block_comment_start = some S)
    (hE : d.block_comment_end = some E)
    (hpS : plain S = true) (hsS : strlen S = S.length)
    (hmode : d.line_comment_start = none ∨ (!S.isEmpty && S.isPrefixOf L) = true) :
    remove_actual_comment_on_line b (pre.length + c) d =
      .ok (gtk_text_buffer_end_user_action
        (remove_comment_if_exists
          (remove_comment_if_exists
            (gtk_text_buffer_begin_user_action (record_visit b (pre.length + c)))
            pre.length (gtk_text_iter_forward_chars (pre ++ (L ++ post)) pre.length (strlen S))
            (strlen S) S).1
          (gtk_text_iter_backward_chars (pre.length + (strip_marker_at_start S L).length)
            (strlen E))
          (pre.length + (strip_marker_at_start S L).length) (strlen E) E).1) := by
  have hchk := check_at_line_start (record_visit b (pre.length + c)) pre L post (by simp [hb])
    ho h hcl S hpS hsS
  simp only [record_visit_text, hb] at hchk
  have hr := remove_at_line_start
    (gtk_text_buffer_begin_user_action (record_visit b (pre.length + c))) pre L post
    (by simp [hb]) ho h hcl S hpS hsS
  simp only [begin_user_action_text, record_visit_text, hb] at hr
  have hpl := plain_strip_start S L h
  have hg := go_to_line_end_inside pre (strip_marker_at_start S L) post ho hpl hcl 0
    (Nat.zero_le _)
  simp only [Nat.add_zero] at hg
  unfold remove_actual_comment_on_line
  simp only [hS, hE, record_visit_text, begin_user_action_text, hb,
    line_start_inside pre L post ho h c hc, hchk]
  rcases hmode with hl | hm
  · simp only [hl, hr.1, hr.2, hg]
  · cases hl : d.line_comment_start with
    | none =>
      simp only [hr.1, hr.2, hg]
    | some p =>
      simp only [hr.1, hr.2, hg]
      rw [hchk, hm]

theorem remove_block_path (b : GtkTextBuffer) (pre L post : List Char)
    (hb : b.text = pre ++ (L ++ post)) (ho : opens_line pre = true) (h : plain L = true)
    (hcl : closes_line post = true) (c : Nat) (hc : c ≤ L.length) (d : Delims)
    (S E : List Char) (hS : d.block_comment_start = some S)
    (hE : d.block_comment_end = some E)
    (hpS : plain S = true) (hsS : strlen S = S.length)
    (hpE : plain E = true) (hsE : strlen E = E.length)
    (hmode : d.line_comment_start = none ∨ (!S.isEmpty && S.isPrefixOf L) = true) :
    ∃ b', remove_actual_comment_on_line b (pre.length + c) d = .ok b' ∧
      b'.text = pre ++ (strip_marker_at_end E (strip_marker_at_start S L) ++ post) := by
  have hr := remove_at_line_start
    (gtk_text_buffer_begin_user_action (record_visit b (pre.length + c))) pre L post
    (by simp [hb]) ho h hcl S hpS hsS
  simp only [begin_user_action_text, record_visit_text, hb] at hr
  have hr2 := remove_at_line_end _ pre (strip_marker_at_start S L) post hr.1 ho
    (plain_strip_start S L h) hcl E hpE hsE
  exact ⟨_, remove_block_path_eq b pre L post hb ho h hcl c hc d S E hS hE hpS hsS hmode,
    by rw [end_user_action_text, hr2]⟩

theorem is_line_iff {pre L post : List Char} :
    is_line pre L post = true ↔
      opens_line pre = true ∧ plain L = true ∧ closes_line post = true := by
  simp [is_line, and_assoc]

theorem is_marker_iff {m : List Char} :
    is_marker m = true ↔ plain m = true ∧ strlen m = m.length := by
  simp [is_marker]

theorem strip_start_append (m L : List Char) : strip_marker_at_start m (m ++ L) = L := by
  simp [strip_marker_at_start]

theorem strip_end_append (m L : List Char) : strip_marker_at_end m (L ++ m) = L := by
  simp [strip_marker_at_end]

theorem strip_start_of_isPrefix {m L : List Char} (h : m <+: L) :
    strip_marker_at_start m L = L.drop m.length := by
  simp [strip_marker_at_start, List.isPrefixOf_iff_prefix.2 h]

/-- C10: with a line prefix `p` present, `add_actual_comment_on_line` turns the
line `L` of the cursor into `p ++ L`, whatever the cursor column `c`, and leaves
the rest of the text unchanged; the block markers play no part, the result is the
one obtained without them. -/
theorem line_mode_inserts_at_column_zero (b : GtkTextBuffer) (pre L post p : List Char)
    (c : Nat) (d : Delims) (hb : b.text = pre ++ L ++ post)
    (hline : is_line pre L post = true) (hc : c ≤ L.length)
    (hd : d.line_comment_start = some p) :
    (∃ b', add_actual_comment_on_line b (pre.length + c) d = .ok b' ∧
      b'.text = pre ++ (p ++ L) ++ post) ∧
    add_actual_comment_on_line b (pre.length + c) d =
      add_actual_comment_on_line b (pre.length + c) ⟨none, none, some p⟩ := by
  obtain ⟨ho, h, _⟩ := is_line_iff.1 hline
  rw [List.append_assoc] at hb
  rw [add_line_mode b pre L post hb ho h c hc d p hd,
    add_line_mode b pre L post hb ho h c hc ⟨none, none, some p⟩ p rfl]
  refine ⟨⟨_, rfl, ?_⟩, rfl⟩
  rw [(insert_text (record_visit b (pre.length + c)) pre (L ++ post) p (by simp [hb])).1]
  simp

theorem line_mode_inserts_at_column_zero_witness :
    (buffer_at "print(1)".toList 5).text = [] ++ "print(1)".toList ++ [] ∧
    is_line [] "print(1)".toList [] = true ∧ 5 ≤ "print(1)".toList.length ∧
    (∃ b', add_actual_comment_on_line (buffer_at "print(1)".toList 5) 5
        ⟨none, none, some "#".toList⟩ = .ok b' ∧ b'.text = "#print(1)".toList) := by
  refine ⟨rfl, by decide, by decide, ?_⟩
  simpa using (line_mode_inserts_at_column_zero (buffer_at "print(1)".toList 5) []
    "print(1)".toList [] "#".toList 5 ⟨none, none, some "#".toList⟩ rfl (by decide)
    (by decide) rfl).1

/-- C9: in block mode (no line prefix, both block markers present, the start
marker free of paragraph delimiters) the line `L` of the cursor becomes
`start ++ L ++ end`, the end marker standing at the end of the same line and the
rest of the text unchanged; `L` may be empty and may be the last line. -/
theorem block_mode_wraps_the_line (b : GtkTextBuffer) (pre L post S E : List Char) (c : Nat)
    (hb : b.text = pre ++ L ++ post) (hline : is_line pre L post = true)
    (hc : c ≤ L.length) (hS : plain S = true) :
    ∃ b', add_actual_comment_on_line b (pre.length + c) ⟨some S, some E, none⟩ = .ok b' ∧
      b'.text = pre ++ (S ++ L ++ E) ++ post := by
  obtain ⟨ho, h, hcl⟩ := is_line_iff.1 hline
  rw [List.append_assoc] at hb
  refine ⟨_, add_block_mode b pre L post hb ho h hcl c hc _ S E rfl rfl rfl hS, ?_⟩
  rw [add_block_mode_text b pre L post hb S E c]
  simp

theorem block_mode_wraps_the_line_witness :
    (buffer_at "<div>\n</div>".toList 8).text = "<div>\n".toList ++ "</div>".toList ++ [] ∧
    is_line "<div>\n".toList "</div>".toList [] = true ∧ 2 ≤ "</div>".toList.length ∧
    plain "<!--".toList = true ∧
    (∃ b', add_actual_comment_on_line (buffer_at "<div>\n</div>".toList 8) 8
        ⟨some "<!--".toList, some "-->".toList, none⟩ = .ok b' ∧
      b'.text = "<div>\n<!--</div>-->".toList) ∧
    (∃ b', add_actual_comment_on_line (buffer_at "<div>\n</div>".toList 0) 0
        ⟨some "<!--".toList, some "-->".toList, none⟩ = .ok b' ∧
      b'.text = "<!--<div>-->\n</div>".toList) ∧
    (∃ b', add_actual_comment_on_line (buffer_at "x\n\ny".toList 2) 2
        ⟨some "<!--".toList, some "-->".toList, none⟩ = .ok b' ∧
      b'.text = "x\n<!---->\ny".toList) := by
  refine ⟨rfl, by decide, by decide, by decide, ?_, ?_, ?_⟩
  · simpa using block_mode_wraps_the_line (buffer_at "<div>\n</div>".toList 8)
      "<div>\n".toList "</div>".toList [] "<!--".toList "-->".toList 2 rfl (by decide)
      (by decide) (by decide)
  · simpa using block_mode_wraps_the_line (buffer_at "<div>\n</div>".toList 0) []
      "<div>".toList "\n</div>".toList "<!--".toList "-->".toList 0 rfl (by decide)
      (by decide) (by decide)
  · simpa using block_mode_wraps_the_line (buffer_at "x\n\ny".toList 2) "x\n".toList
      [] "\ny".toList "<!--".toList "-->".toList 0 rfl (by decide) (by decide) (by decide)

/-- For block markers of one byte per character:
in block mode (no line prefix, both block markers present and markers in
the sense of `is_marker`) the line `L` becomes
`strip_marker_at_end end (strip_marker_at_start start L)`: each marker is removed
only when the text matches it, and the end marker is tested on the line left
after the start marker was handled. -/
theorem block_mode_removes_markers_independently (b : GtkTextBuffer)
    (pre L post S E : List Char) (c : Nat)
    (hb : b.text = pre ++ L ++ post) (hline : is_line pre L post = true)
    (hc : c ≤ L.length) (hS : is_marker S = true) (hE : is_marker E = true) :
    ∃ b', remove_actual_comment_on_line b (pre.length + c) ⟨some S, some E, none⟩ = .ok b' ∧
      b'.text = pre ++ strip_marker_at_end E (strip_marker_at_start S L) ++ post := by
  obtain ⟨ho, h, hcl⟩ := is_line_iff.1 hline
  obtain ⟨hpS, hsS⟩ := is_marker_iff.1 hS
  obtain ⟨hpE, hsE⟩ := is_marker_iff.1 hE
  rw [List.append_assoc] at hb
  obtain ⟨b', h1, h2⟩ := remove_block_path b pre L post hb ho h hcl c hc
    ⟨some S, some E, none⟩ S E rfl rfl hpS hsS hpE hsE (Or.inl rfl)
  exact ⟨b', h1, by rw [h2, List.append_assoc]⟩

theorem block_mode_removes_markers_independently_witness :
    (buffer_at "<!--<div>".toList 0).text = [] ++ "<!--<div>".toList ++ [] ∧
    is_line [] "<!--<div>".toList [] = true ∧ 0 ≤ "<!--<div>".toList.length ∧
    is_marker "<!--".toList = true ∧ is_marker "-->".toList = true ∧
    (∃ b', remove_actual_comment_on_line (buffer_at "<!--<div>".toList 0) 0
        ⟨some "<!--".toList, some "-->".toList, none⟩ = .ok b' ∧
      b'.text = "<div>".toList) := by
  refine ⟨rfl, by decide, by decide, by decide, by decide, ?_⟩
  obtain ⟨b', h1, h2⟩ := block_mode_removes_markers_independently
    (buffer_at "<!--<div>".toList 0) [] "<!--<div>".toList [] "<!--".toList "-->".toList 0
    rfl (by decide) (by decide) (by decide) (by decide)
  exact ⟨b', h1, h2.trans (by decide)⟩

/-- For block markers of one byte per character:
with all three strings present (the block markers being markers in the
sense of `is_marker`, the start marker non-empty), a line that begins with the
block start marker is handled by the block branch: the start marker is deleted,
the end marker is deleted when the rest of the line ends with it, and no line
prefix is looked for: the result is the one obtained without any line prefix. -/
theorem block_start_has_precedence (b : GtkTextBuffer)
    (pre L post S E p : List Char) (c : Nat)
    (hb : b.text = pre ++ L ++ post) (hline : is_line pre L post = true)
    (hc : c ≤ L.length) (hS : is_marker S = true) (hE : is_marker E = true)
    (hne : S ≠ []) (hbegins : S <+: L) :
    (∃ b', remove_actual_comment_on_line b (pre.length + c) ⟨some S, some E, some p⟩ = .ok b' ∧
      b'.text = pre ++ strip_marker_at_end E (L.drop S.length) ++ post) ∧
    remove_actual_comment_on_line b (pre.length + c) ⟨some S, some E, some p⟩ =
      remove_actual_comment_on_line b (pre.length + c) ⟨some S, some E, none⟩ := by
  obtain ⟨ho, h, hcl⟩ := is_line_iff.1 hline
  obtain ⟨hpS, hsS⟩ := is_marker_iff.1 hS
  obtain ⟨hpE, hsE⟩ := is_marker_iff.1 hE
  rw [List.append_assoc] at hb
  have hcond : (!S.isEmpty && S.isPrefixOf L) = true := by
    simp [hne, List.isPrefixOf_iff_prefix.2 hbegins]
  constructor
  · obtain ⟨b', h1, h2⟩ := remove_block_path b pre L post hb ho h hcl c hc
      ⟨some S, some E, some p⟩ S E rfl rfl hpS hsS hpE hsE (Or.inr hcond)
    exact ⟨b', h1, by rw [h2, strip_start_of_isPrefix hbegins, List.append_assoc]⟩
  · have hchk := check_at_line_start (record_visit b (pre.length + c)) pre L post
      (by simp [hb]) ho h hcl S hpS hsS
    simp only [record_visit_text, hb] at hchk
    unfold remove_actual_comment_on_line
    simp only [record_visit_text, hb, line_start_inside pre L post ho h c hc, hchk, hcond]

theorem block_start_has_precedence_witness :
    (buffer_at "/* text */".toList 4).text = [] ++ "/* text */".toList ++ [] ∧
    is_line [] "/* text */".toList [] = true ∧ 4 ≤ "/* text */".toList.length ∧
    is_marker "/*".toList = true ∧ is_marker "*/".toList = true ∧ "/*".toList ≠ [] ∧
    "/*".toList <+: "/* text */".toList ∧
    (∃ b', remove_actual_comment_on_line (buffer_at "/* text */".toList 4) 4
        ⟨some "/*".toList, some "*/".toList, some "//".toList⟩ = .ok b' ∧
      b'.text = " text ".toList) := by
  refine ⟨rfl, by decide, by decide, by decide, by decide, by decide, by decide, ?_⟩
  obtain ⟨b', h1, h2⟩ := (block_start_has_precedence
    (buffer_at "/* text */".toList 4) [] "/* text */".toList [] "/*".toList "*/".toList
    "//".toList 4 rfl (by decide) (by decide) (by decide) (by decide) (by decide)
    (by decide)).1
  exact ⟨b', h1, h2.trans (by decide)⟩

/-- C6: on unsupported delimiters `comment_code` returns the buffer as it was
(text, marks and call log), whatever function it was given to call. -/
theorem unsupported_is_a_no_op (language : Option Delims) (com_funct : Comment_function)
    (buffer : GtkTextBuffer) (h : unsupported language = true) :
    comment_code language com_funct buffer = .ok buffer := by
  unfold comment_code get_comment_definitions
  cases language with
  | none => rfl
  | some d =>
    obtain ⟨s, e, l⟩ := d
    cases l <;> cases s <;> cases e <;> simp_all [unsupported]

theorem unsupported_is_a_no_op_witness :
    unsupported none = true ∧
    comment_code none (line_comment_code 5) (buffer_sel "a\nb".toList 0 3) =
      .ok (buffer_sel "a\nb".toList 0 3) ∧
    unsupported (some ⟨some "/*".toList, none, none⟩) = true ∧
    comment_code (some ⟨some "/*".toList, none, none⟩) (line_uncomment_code 5)
      (buffer_at "/*a".toList 1) = .ok (buffer_at "/*a".toList 1) :=
  ⟨rfl, unsupported_is_a_no_op none (line_comment_code 5) _ rfl, rfl,
    unsupported_is_a_no_op _ (line_uncomment_code 5) _ rfl⟩

/-- C1 (counterexample): with prefix `--` and block markers `--[[`, `]]`, the line
`[[foo]]` is commented to `--[[foo]]` and uncommented to `foo`. -/
theorem round_trip_fails_on_block_start_collision :
    uncomment_after_comment (buffer_at "[[foo]]".toList 0) 0 0
        ⟨some "--[[".toList, some "]]".toList, some "--".toList⟩ = .ok "foo".toList ∧
    "foo".toList ≠ "[[foo]]".toList := by
  constructor
  · rfl
  · decide

/-- C1 (amended): uncommenting a line that was just commented gives the line
back, for supported delimiters made of markers, unless both styles are present
and the prefixed line begins with the (non-empty) block start marker. -/
theorem round_trip_without_collision (b : GtkTextBuffer) (pre L post : List Char)
    (c c' : Nat) (d : Delims)
    (hb : b.text = pre ++ L ++ post) (hline : is_line pre L post = true)
    (hc : c ≤ L.length) (hc' : c' ≤ (commented d L).length)
    (hsup : supported d = true)
    (hl : ∀ p, d.line_comment_start = some p → is_marker p = true)
    (hS : ∀ S, d.block_comment_start = some S → is_marker S = true)
    (hE : ∀ E, d.block_comment_end = some E → is_marker E = true)
    (hno : ∀ p S, d.line_comment_start = some p → d.block_comment_start = some S →
      S = [] ∨ ¬ S <+: p ++ L) :
    uncomment_after_comment b (pre.length + c) (pre.length + c') d =
      .ok (pre ++ L ++ post) := by
  obtain ⟨ho, h, hcl⟩ := is_line_iff.1 hline
  rw [List.append_assoc] at hb
  obtain ⟨s, e, l⟩ := d
  unfold uncomment_after_comment
  cases l with
  | some p =>
    obtain ⟨hpp, hsp⟩ := is_marker_iff.1 (hl p rfl)
    simp only [commented] at hc'
    rw [add_line_mode b pre L post hb ho h c hc _ p rfl]
    have hi := insert_text (record_visit b (pre.length + c)) pre (L ++ post) p (by simp [hb])
    have hb1 : (gtk_text_buffer_insert (record_visit b (pre.length + c)) pre.length p).1.text =
        pre ++ ((p ++ L) ++ post) := by rw [hi.1]; simp
    have hpl : plain (p ++ L) = true := plain_append.2 ⟨hpp, h⟩
    simp only []
    rw [remove_line_path _ pre (p ++ L) post hb1 ho hpl hcl c' hc' _ p rfl]
    · simp only []
      have hr := remove_at_line_start
        (record_visit (gtk_text_buffer_insert (record_visit b (pre.length + c)) pre.length p).1
          (pre.length + c')) pre (p ++ L) post (by simp [hb1]) ho hpl hcl p hpp hsp
      simp only [record_visit_text] at hr
      rw [hr.1, strip_start_append, List.append_assoc]
    · intro S hS'
      simp only at hS'
      obtain ⟨hpS, hsS⟩ := is_marker_iff.1 (hS S hS')
      refine ⟨hpS, hsS, ?_⟩
      rcases hno p S rfl hS' with h0 | h0
      · simp [h0]
      · have : S.isPrefixOf (p ++ L) = false := by
          rw [← Bool.not_eq_true, List.isPrefixOf_iff_prefix]; exact h0
        simp [this]
  | none =>
    cases s with
    | none => simp [supported] at hsup
    | some S =>
      cases e with
      | none => simp [supported] at hsup
      | some E =>
        obtain ⟨hpS, hsS⟩ := is_marker_iff.1 (hS S rfl)
        obtain ⟨hpE, hsE⟩ := is_marker_iff.1 (hE E rfl)
        simp only [commented] at hc'
        rw [add_block_mode b pre L post hb ho h hcl c hc _ S E rfl rfl rfl hpS]
        have hb1 := add_block_mode_text b pre L post hb S E c
        have hpl : plain (S ++ L ++ E) = true :=
          plain_append.2 ⟨plain_append.2 ⟨hpS, h⟩, hpE⟩
        obtain ⟨b2, h1, h2⟩ := remove_block_path _ pre (S ++ L ++ E) post hb1 ho hpl hcl c' hc'
          ⟨some S, some E, none⟩ S E rfl rfl hpS hsS hpE hsE (Or.inl rfl)
        simp only []
        rw [h1]
        simp only []
        rw [h2, List.append_assoc S L E, strip_start_append, strip_end_append, List.append_assoc]

theorem round_trip_without_collision_witness :
    (buffer_at "a\nfoo\nb".toList 3).text = "a\n".toList ++ "foo".toList ++ "\nb".toList ∧
    uncomment_after_comment (buffer_at "a\nfoo\nb".toList 3) ("a\n".toList.length + 1)
        ("a\n".toList.length + 4) ⟨some "--[[".toList, some "]]".toList, some "--".toList⟩ =
      .ok ("a\n".toList ++ "foo".toList ++ "\nb".toList) :=
  ⟨rfl, round_trip_without_collision (buffer_at "a\nfoo\nb".toList 3) "a\n".toList
    "foo".toList "\nb".toList 1 4 ⟨some "--[[".toList, some "]]".toList, some "--".toList⟩
    rfl (by decide) (by decide) (by decide) (by decide)
    (by intro p hp; cases hp; decide) (by intro p hp; cases hp; decide)
    (by intro p hp; cases hp; decide)
    (by intro p S hp hS; cases hp; cases hS; exact Or.inr (by decide))⟩

theorem forward_line_plain (t : List Char) (h : plain t = true) (p : Nat) (hp : p ≤ t.length) :
    gtk_text_iter_forward_line t p = t.length := by
  have := forward_line_inside [] t [] h p hp
  simpa [para_len] using this

theorem forward_lines_plain (t : List Char) (h : plain t = true) (p : Nat) (hp : p ≤ t.length)
    (n : Nat) : gtk_text_iter_forward_lines t p (n + 1) = t.length := by
  induction n generalizing p with
  | zero => simp [gtk_text_iter_forward_lines, forward_line_plain t h p hp]
  | succ n ih =>
    rw [gtk_text_iter_forward_lines, forward_line_plain t h p hp]
    exact ih _ (le_refl _)

/-- C3 (the code at the failing input): two lines `#a` and `#b`, the selection
running from column 1 of line 0 to column 2 of line 1, which is the end of the
buffer; four rounds of the loop visit line 1 three times and the loop has not
stopped. -/
theorem last_line_is_visited_again :
    ∃ reached, line_uncomment_code 4 (buffer_sel "#a\n#b".toList 1 5) 1 (some 5)
        ⟨none, none, some "#".toList⟩ = .error (Fault.out_of_fuel reached) ∧
      visits reached.log = [0, 1, 1, 1] ∧ reached.text = "a\nb".toList :=
  ⟨_, rfl, rfl, rfl⟩

/-! ## Several lines -/

theorem flat_append (R₁ R₂ : List (List Char × List Char)) :
    flat (R₁ ++ R₂) = flat R₁ ++ flat R₂ := by
  induction R₁ with
  | nil => rfl
  | cons r R ih => simp [flat, ih]

theorem is_terminator_cases {T : List Char} (h : is_terminator T = true) :
    T = ['\n'] ∨ T = ['\r', '\n'] ∨ T = ['\u2029'] := by
  simpa [is_terminator, or_assoc] using h

theorem terminator_length_pos {T : List Char} (h : is_terminator T = true) : 0 < T.length := by
  rcases is_terminator_cases h with rfl | rfl | rfl <;> simp

theorem closes_line_terminator {T : List Char} (h : is_terminator T = true) (rest : List Char) :
    closes_line (T ++ rest) = true := by
  rcases is_terminator_cases h with rfl | rfl | rfl <;> rfl

theorem para_len_terminator {T : List Char} (h : is_terminator T = true) (rest : List Char) :
    para_len (T ++ rest) = T.length := by
  rcases is_terminator_cases h with rfl | rfl | rfl <;> simp [para_len, starts_with_break]

theorem opens_line_append_terminator (pre L T : List Char) (h : is_terminator T = true) :
    opens_line (pre ++ (L ++ T)) = true := by
  rcases is_terminator_cases h with rfl | rfl | rfl
  · simp [opens_line, ← List.append_assoc]
  · have : pre ++ (L ++ ['\r', '\n']) = (pre ++ L ++ ['\r']) ++ ['\n'] := by simp
    rw [this]
    simp only [opens_line, List.getLast?_concat]
    rfl
  · simp [opens_line, ← List.append_assoc]

theorem row_ok_iff {r : List Char × List Char} :
    row_ok r = true ↔ plain r.1 = true ∧ is_terminator r.2 = true := by
  simp [row_ok]

theorem opens_line_flat (pre : List Char) (R : List (List Char × List Char))
    (ho : opens_line pre = true) (hR : ∀ r ∈ R, row_ok r = true) :
    opens_line (pre ++ flat R) = true := by
  induction R generalizing pre with
  | nil => simpa [flat] using ho
  | cons r R ih =>
    have hr := row_ok_iff.1 (hR r (List.mem_cons_self _ _))
    have := ih (pre ++ (r.1 ++ r.2)) (opens_line_append_terminator pre r.1 r.2 hr.2)
      (fun x hx => hR x (List.mem_cons_of_mem _ hx))
    simpa [flat] using this

/-- From a column of a row, `gtk_text_iter_forward_line` reaches the start of
the next row. -/
theorem forward_line_row (pre L T rest : List Char) (h : plain L = true)
    (hT : is_terminator T = true) (c : Nat) (hc : c ≤ L.length) :
    gtk_text_iter_forward_line (pre ++ (L ++ (T ++ rest))) (pre.length + c) =
      pre.length + (L ++ T).length := by
  rw [forward_line_inside pre L (T ++ rest) h c hc, para_len_terminator hT]
  simp only [List.length_append]; omega

/-- From a column of the first of `n + 1` rows, `n + 1` lines forward is the
start of the text after these rows. -/
theorem forward_lines_rows (pre : List Char) (R : List (List Char × List Char))
    (rest : List Char) (hR : ∀ r ∈ R, row_ok r = true) (r0 : List Char × List Char)
    (h0 : row_ok r0 = true) (c : Nat) (hc : c ≤ r0.1.length) :
    gtk_text_iter_forward_lines (pre ++ (flat (r0 :: R) ++ rest)) (pre.length + c)
      (R.length + 1) = pre.length + (flat (r0 :: R)).length := by
  induction R generalizing pre r0 c with
  | nil =>
    have hr := row_ok_iff.1 h0
    simp only [flat, List.append_nil, List.length_nil, Nat.zero_add,
      gtk_text_iter_forward_lines, List.append_assoc]
    exact forward_line_row pre r0.1 r0.2 rest hr.1 hr.2 c hc
  | cons r1 R ih =>
    have hr := row_ok_iff.1 h0
    have h1 := hR r1 (List.mem_cons_self _ _)
    rw [List.length_cons, gtk_text_iter_forward_lines]
    have e1 : pre ++ (flat (r0 :: r1 :: R) ++ rest) =
        pre ++ (r0.1 ++ (r0.2 ++ (flat (r1 :: R) ++ rest))) := by simp [flat]
    rw [e1, forward_line_row pre r0.1 r0.2 _ hr.1 hr.2 c hc]
    have e2 : pre ++ (r0.1 ++ (r0.2 ++ (flat (r1 :: R) ++ rest))) =
        (pre ++ (r0.1 ++ r0.2)) ++ (flat (r1 :: R) ++ rest) := by simp
    have e3 : pre.length + (r0.1 ++ r0.2).length = (pre ++ (r0.1 ++ r0.2)).length + 0 := by simp
    rw [e2, e3, ih (pre ++ (r0.1 ++ r0.2)) (fun x hx => hR x (List.mem_cons_of_mem _ hx)) r1 h1 0
      (Nat.zero_le _)]
    simp [flat]
    omega

theorem breaks_after_before (pre X Y : List Char) (ho : opens_line pre = true) (j : Nat)
    (hj : j < pre.length) : breaks_after (pre ++ X) j = breaks_after (pre ++ Y) j := by
  unfold breaks_after
  rw [List.drop_append_of_le_length (le_of_lt hj), List.drop_append_of_le_length (le_of_lt hj)]
  rcases Nat.lt_or_ge (j + 1) pre.length with h1 | h1
  · rw [List.drop_eq_getElem_cons hj, List.drop_eq_getElem_cons h1]
    simp only [List.cons_append, starts_with_break, List.head?_cons]
  · have hlast : pre.drop j = [pre[j]] := by
      rw [List.drop_eq_getElem_cons hj, List.drop_eq_nil_of_le h1]
    have hpre : pre = pre.take j ++ [pre[j]] := by
      rw [← hlast, List.take_append_drop]
    rw [hlast]
    rw [hpre] at ho
    simp only [opens_line, List.getLast?_concat, Bool.or_eq_true, beq_iff_eq] at ho
    rcases ho with h | h <;> simp [starts_with_break, h]

theorem get_line_before (pre X Y : List Char) (ho : opens_line pre = true) (p : Nat)
    (hp : p ≤ pre.length) :
    gtk_text_iter_get_line (pre ++ X) p = gtk_text_iter_get_line (pre ++ Y) p := by
  induction p with
  | zero => rfl
  | succ p ih =>
    rw [gtk_text_iter_get_line, gtk_text_iter_get_line,
      breaks_after_before pre X Y ho p (by omega), ih (by omega)]

theorem get_line_row (pre L T rest : List Char) (h : plain L = true)
    (hT : is_terminator T = true) :
    gtk_text_iter_get_line (pre ++ (L ++ (T ++ rest))) (pre.length + (L ++ T).length) =
      gtk_text_iter_get_line (pre ++ (L ++ (T ++ rest))) pre.length + 1 := by
  have hin := get_line_inside pre L (T ++ rest) h L.length (le_refl _)
  have hd : ∀ k, (pre ++ (L ++ (T ++ rest))).drop (pre.length + L.length + k) =
      (T ++ rest).drop k := by
    intro k
    rw [Nat.add_assoc, List.drop_append, List.drop_append]
  rcases is_terminator_cases hT with rfl | rfl | rfl
  · have e : pre.length + (L ++ ['\n']).length = pre.length + L.length + 1 := by
      simp only [List.length_append, List.length_singleton]; omega
    rw [e, gtk_text_iter_get_line, hin]
    have := hd 0
    simp only [Nat.add_zero, List.drop_zero] at this
    simp [breaks_after, this, starts_with_break]
    omega
  · have e : pre.length + (L ++ ['\r', '\n']).length = pre.length + L.length + 1 + 1 := by
      simp only [List.length_append, List.length_cons, List.length_nil]; omega
    rw [e, gtk_text_iter_get_line, gtk_text_iter_get_line, hin]
    have h0 := hd 0
    have h1 := hd 1
    simp only [Nat.add_zero, List.drop_zero] at h0
    unfold breaks_after
    rw [h0, h1]
    simp [starts_with_break]
    omega
  · have e : pre.length + (L ++ ['\u2029']).length = pre.length + L.length + 1 := by
      simp only [List.length_append, List.length_singleton]; omega
    rw [e, gtk_text_iter_get_line, hin]
    have := hd 0
    simp only [Nat.add_zero, List.drop_zero] at this
    simp [breaks_after, this, starts_with_break]
    omega

/-- The start of the text after `D` rows lies `D.length` lines below the start
of the rows. -/
theorem get_line_rows (pre : List Char) (D : List (List Char × List Char)) (X Y : List Char)
    (ho : opens_line pre = true) (hD : ∀ r ∈ D, row_ok r = true) :
    gtk_text_iter_get_line (pre ++ (flat D ++ X)) (pre.length + (flat D).length) =
      gtk_text_iter_get_line (pre ++ Y) pre.length + D.length := by
  induction D generalizing pre Y with
  | nil =>
    simp only [flat, List.length_nil, Nat.add_zero, List.nil_append]
    exact get_line_before pre X Y ho _ (le_refl _)
  | cons r D ih =>
    have hr := row_ok_iff.1 (hD r (List.mem_cons_self _ _))
    have ho' := opens_line_append_terminator pre r.1 r.2 hr.2
    have h1 := ih (pre ++ (r.1 ++ r.2)) [] ho' (fun x hx => hD x (List.mem_cons_of_mem _ hx))
    have e1 : pre ++ (flat (r :: D) ++ X) = (pre ++ (r.1 ++ r.2)) ++ (flat D ++ X) := by
      simp [flat]
    have e2 : pre.length + (flat (r :: D)).length =
        (pre ++ (r.1 ++ r.2)).length + (flat D).length := by
      simp [flat]; omega
    rw [e1, e2, h1]
    have h2 := get_line_row pre r.1 r.2 [] hr.1 hr.2
    have e3 : (pre ++ (r.1 ++ r.2) ++ []) = pre ++ (r.1 ++ (r.2 ++ [])) := by simp
    have e4 : (pre ++ (r.1 ++ r.2)).length = pre.length + (r.1 ++ r.2).length := by simp
    rw [e3, e4, h2, get_line_before pre _ Y ho _ (le_refl _)]
    simp only [List.length_cons]
    omega

/-! ## Effect of an edit inside one line -/

theorem visits_append (l₁ l₂ : List Event) : visits (l₁ ++ l₂) = visits l₁ ++ visits l₂ := by
  induction l₁ with
  | nil => rfl
  | cons e l ih => cases e <;> simp [visits, ih]

theorem mark_moved_refl (P l m : Nat) : mark_moved P l l m m := by
  unfold mark_moved; omega

theorem mark_moved_trans {P l l₁ l₂ m m₁ m₂ : Nat} (h₁ : mark_moved P l l₁ m m₁)
    (h₂ : mark_moved P l₁ l₂ m₁ m₂) : mark_moved P l l₂ m m₂ := by
  unfold mark_moved at *; omega

theorem mark_moved_insert (P l c n m : Nat) (hc : c ≤ l) :
    mark_moved P l (l + n) m (mark_after_insert (P + c) n m) := by
  unfold mark_moved mark_after_insert
  split <;> omega

theorem mark_moved_delete (P l a n m : Nat) (ha : a + n ≤ l) :
    mark_moved P l (l - n) m (mark_after_delete (P + a) (P + a + n) m) := by
  unfold mark_moved mark_after_delete
  split
  · omega
  · split <;> omega

theorem mark_moved_min_max {P l l' x x' y y' : Nat} (hx : mark_moved P l l' x x')
    (hy : mark_moved P l l' y y') :
    mark_moved P l l' (min x y) (min x' y') ∧ mark_moved P l l' (max x y) (max x' y') := by
  unfold mark_moved at *
  omega

theorem line_edit_refl (b : GtkTextBuffer) (pre L post : List Char)
    (hb : b.text = pre ++ (L ++ post)) (h : plain L = true) : line_edit b b pre L L post :=
  ⟨hb, h, mark_moved_refl _ _ _, mark_moved_refl _ _ _, rfl⟩

theorem line_edit_trans {b b₁ b₂ : GtkTextBuffer} {pre L L₁ L₂ post : List Char}
    (h₁ : line_edit b b₁ pre L L₁ post) (h₂ : line_edit b₁ b₂ pre L₁ L₂ post) :
    line_edit b b₂ pre L L₂ post :=
  ⟨h₂.text, h₂.plain, mark_moved_trans h₁.ins h₂.ins, mark_moved_trans h₁.bound h₂.bound,
    h₂.visits.trans h₁.visits⟩

theorem line_edit_begin (b : GtkTextBuffer) (pre L post : List Char)
    (hb : b.text = pre ++ (L ++ post)) (h : plain L = true) :
    line_edit b (gtk_text_buffer_begin_user_action b) pre L L post :=
  ⟨hb, h, mark_moved_refl _ _ _, mark_moved_refl _ _ _, by
    simp [gtk_text_buffer_begin_user_action, visits_append, visits]⟩

theorem line_edit_end (b : GtkTextBuffer) (pre L post : List Char)
    (hb : b.text = pre ++ (L ++ post)) (h : plain L = true) :
    line_edit b (gtk_text_buffer_end_user_action b) pre L L post :=
  ⟨hb, h, mark_moved_refl _ _ _, mark_moved_refl _ _ _, by
    simp [gtk_text_buffer_end_user_action, visits_append, visits]⟩

/-- Insertion of a delimiter-free text inside the line, at column `c`. -/
theorem line_edit_insert (b : GtkTextBuffer) (pre A B post txt : List Char)
    (hb : b.text = pre ++ (A ++ B ++ post)) (h : plain (A ++ B) = true)
    (ht : plain txt = true) :
    line_edit b (gtk_text_buffer_insert b (pre.length + A.length) txt).1 pre (A ++ B)
      (A ++ txt ++ B) post := by
  have hpl : plain (A ++ txt ++ B) = true := by
    rw [plain_append] at h
    exact plain_append.2 ⟨plain_append.2 ⟨h.1, ht⟩, h.2⟩
  unfold gtk_text_buffer_insert
  split
  · rename_i h0
    subst h0
    simpa using line_edit_refl b pre (A ++ B) post (by simpa using hb) h
  · have hb' : b.text = (pre ++ A) ++ (B ++ post) := by simp [hb]
    refine ⟨?_, hpl, ?_, ?_, ?_⟩
    · simp only []
      rw [← List.length_append, hb', List.take_left, List.drop_left]
      simp
    · have := mark_moved_insert pre.length (A ++ B).length A.length txt.length b.insert_mark
        (by simp)
      simpa [Nat.add_assoc, Nat.add_comm, Nat.add_left_comm] using this
    · have := mark_moved_insert pre.length (A ++ B).length A.length txt.length
        b.selection_bound (by simp)
      simpa [Nat.add_assoc, Nat.add_comm, Nat.add_left_comm] using this
    · simp [visits_append, visits]

/-- Deletion of the part `M` of the line. -/
theorem line_edit_delete (b : GtkTextBuffer) (pre A M B post : List Char)
    (hb : b.text = pre ++ (A ++ M ++ B ++ post)) (h : plain (A ++ M ++ B) = true) :
    line_edit b (gtk_text_buffer_delete b (pre.length + A.length)
      (pre.length + A.length + M.length)).1 pre (A ++ M ++ B) (A ++ B) post := by
  have hpl : plain (A ++ B) = true := by
    simp only [plain_append] at h ⊢
    exact ⟨h.1.1, h.2⟩
  unfold gtk_text_buffer_delete
  simp only [Nat.le_add_right, min_eq_left, max_eq_right]
  split
  · rename_i h0
    have : M = [] := List.length_eq_zero.1 (by omega)
    subst this
    simpa using line_edit_refl b pre (A ++ B) post (by simpa using hb) hpl
  · have hb' : b.text = (pre ++ A) ++ (M ++ (B ++ post)) := by simp [hb]
    refine ⟨?_, hpl, ?_, ?_, ?_⟩
    · simp only []
      have e : pre.length + A.length + M.length = (pre ++ A ++ M).length := by
        simp only [List.length_append]
      have e0 : pre.length + A.length = (pre ++ A).length := by
        simp only [List.length_append]
      have hb'' : b.text = (pre ++ A ++ M) ++ (B ++ post) := by simp [hb]
      rw [e, e0]
      conv_lhs => rw [hb']
      rw [List.take_left]
      rw [← hb', hb'', List.drop_left]
      simp
    · have := mark_moved_delete pre.length (A ++ M ++ B).length A.length M.length
        b.insert_mark (by simp)
      have e : (A ++ M ++ B).length - M.length = (A ++ B).length := by
        simp only [List.length_append]; omega
      rw [e] at this
      exact this
    · have := mark_moved_delete pre.length (A ++ M ++ B).length A.length M.length
        b.selection_bound (by simp)
      have e : (A ++ M ++ B).length - M.length = (A ++ B).length := by
        simp only [List.length_append]; omega
      rw [e] at this
      exact this
    · simp [visits_append, visits]

theorem rcie_start_edit (b : GtkTextBuffer) (pre L post : List Char)
    (hb : b.text = pre ++ (L ++ post)) (ho : opens_line pre = true)
    (h : plain L = true) (hcl : closes_line post = true) (m : List Char)
    (hm : plain m = true) (hs : strlen m = m.length) :
    line_edit b (remove_comment_if_exists b pre.length
      (gtk_text_iter_forward_chars b.text pre.length (strlen m)) (strlen m) m).1
      pre L (strip_marker_at_start m L) post := by
  unfold remove_comment_if_exists
  rw [check_at_line_start b pre L post hb ho h hcl m hm hs]
  by_cases hcond : (!m.isEmpty && m.isPrefixOf L) = true
  · simp only [Bool.and_eq_true, Bool.not_eq_true', List.isEmpty_eq_false,
      List.isPrefixOf_iff_prefix] at hcond
    obtain ⟨hne, R, rfl⟩ := hcond
    have hfc : gtk_text_iter_forward_chars b.text pre.length (strlen m) =
        pre.length + m.length := by
      unfold gtk_text_iter_forward_chars
      rw [hs, hb]
      simp only [List.length_append]; omega
    have hcond' : (!m.isEmpty && m.isPrefixOf (m ++ R)) = true := by simp [hne]
    rw [hfc, strip_start_append]
    simp only [hcond', if_true]
    have := line_edit_delete b pre [] m R post (by simpa using hb) (by simpa using h)
    simpa using this
  · have hs' : strip_marker_at_start m L = L := by
      unfold strip_marker_at_start
      split
      · rename_i hp
        have : m = [] := by simpa [hp] using hcond
        subst this; rfl
      · rfl
    rw [hs']
    simp only [hcond]
    exact line_edit_refl b pre L post hb h

theorem rcie_end_edit (b : GtkTextBuffer) (pre L post : List Char)
    (hb : b.text = pre ++ (L ++ post)) (ho : opens_line pre = true)
    (h : plain L = true) (hcl : closes_line post = true) (m : List Char)
    (hm : plain m = true) (hs : strlen m = m.length) :
    line_edit b (remove_comment_if_exists b
      (gtk_text_iter_backward_chars (pre.length + L.length) (strlen m))
      (pre.length + L.length) (strlen m) m).1
      pre L (strip_marker_at_end m L) post := by
  unfold remove_comment_if_exists
  rw [check_at_line_end b pre L post hb ho h hcl m hm hs]
  by_cases hcond : (!m.isEmpty && m.isSuffixOf L) = true
  · simp only [Bool.and_eq_true, Bool.not_eq_true', List.isEmpty_eq_false,
      List.isSuffixOf_iff_suffix] at hcond
    obtain ⟨hne, R, rfl⟩ := hcond
    have hcond' : (!m.isEmpty && m.isSuffixOf (R ++ m)) = true := by simp [hne]
    have hbc : gtk_text_iter_backward_chars (pre.length + (R ++ m).length) (strlen m) =
        pre.length + R.length := by
      unfold gtk_text_iter_backward_chars
      rw [hs]
      simp only [List.length_append]; omega
    have hend : pre.length + (R ++ m).length = pre.length + R.length + m.length := by
      simp only [List.length_append]; omega
    rw [hbc, hend, strip_end_append]
    simp only [hcond', if_true]
    have := line_edit_delete b pre R m [] post (by simpa using hb) (by simpa using h)
    simpa using this
  · have hs' : strip_marker_at_end m L = L := by
      unfold strip_marker_at_end
      split
      · rename_i hp
        have : m = [] := by simpa [hp] using hcond
        subst this; simp
      · rfl
    rw [hs']
    simp only [hcond]
    exact line_edit_refl b pre L post hb h

theorem markers_ok_iff {d : Delims} :
    markers_ok d = true ↔
      (∀ p, d.line_comment_start = some p → is_marker p = true) ∧
      (∀ S, d.block_comment_start = some S → is_marker S = true) ∧
      (∀ E, d.block_comment_end = some E → is_marker E = true) := by
  obtain ⟨s, e, l⟩ := d
  cases s <;> cases e <;> cases l <;> simp [markers_ok, and_assoc]

theorem add_step_ok (d : Delims) (hsup : supported d = true) (hmk : markers_ok d = true) :
    step_ok (fun b i => add_actual_comment_on_line b i d) := by
  intro b pre L post c hb ho h hcl hc
  obtain ⟨hl, hS, hE⟩ := markers_ok_iff.1 hmk
  have hb0 : (record_visit b (pre.length + c)).text = pre ++ (L ++ post) := by simp [hb]
  cases hd : d.line_comment_start with
  | some p =>
    refine ⟨_, p ++ L, add_line_mode b pre L post hb ho h c hc d p hd, ?_⟩
    have := line_edit_insert (record_visit b (pre.length + c)) pre [] L post p
      (by simpa using hb) (by simpa using h) (is_marker_iff.1 (hl p hd)).1
    simpa using this
  | none =>
    cases hs : d.block_comment_start with
    | none => simp [supported, hd, hs] at hsup
    | some S =>
      cases he : d.block_comment_end with
      | none => simp [supported, hd, he] at hsup
      | some E =>
        have hpS := (is_marker_iff.1 (hS S hs)).1
        have hpE := (is_marker_iff.1 (hE E he)).1
        refine ⟨_, S ++ L ++ E, add_block_mode b pre L post hb ho h hcl c hc d S E hd hs he hpS,
          ?_⟩
        have e0 := line_edit_begin _ pre L post hb0 h
        have e1 := line_edit_insert
          (gtk_text_buffer_begin_user_action (record_visit b (pre.length + c))) pre [] L post S
          (by simpa using hb) (by simpa using h) hpS
        simp only [List.nil_append, List.length_nil, Nat.add_zero] at e1
        have e2 := line_edit_insert _ pre (S ++ L) [] post E
          (by simpa using e1.text) (by simpa using e1.plain) hpE
        simp only [List.append_nil] at e2
        have e3 := line_edit_end _ pre (S ++ L ++ E) post e2.text e2.plain
        exact line_edit_trans (line_edit_trans (line_edit_trans e0 e1) e2) e3

theorem remove_step_ok (d : Delims) (hwf : well_formed d = true) :
    step_ok (fun b i => remove_actual_comment_on_line b i d) := by
  intro b pre L post c hb ho h hcl hc
  simp only [well_formed, Bool.and_eq_true, Bool.or_eq_true] at hwf
  obtain ⟨⟨hsup, hmk⟩, hpair⟩ := hwf
  obtain ⟨hl, hS, hE⟩ := markers_ok_iff.1 hmk
  have hb0 : (record_visit b (pre.length + c)).text = pre ++ (L ++ post) := by simp [hb]
  -- the block branch, once it is known to be taken
  have block : ∀ S, d.block_comment_start = some S →
      (d.line_comment_start = none ∨ (!S.isEmpty && S.isPrefixOf L) = true) →
      ∃ b' L', remove_actual_comment_on_line b (pre.length + c) d = .ok b' ∧
        line_edit (record_visit b (pre.length + c)) b' pre L L' post := by
    intro S hs hmode
    cases he : d.block_comment_end with
    | none => simp [hs, he] at hpair
    | some E =>
      obtain ⟨hpS, hsS⟩ := is_marker_iff.1 (hS S hs)
      obtain ⟨hpE, hsE⟩ := is_marker_iff.1 (hE E he)
      refine ⟨_, strip_marker_at_end E (strip_marker_at_start S L),
        remove_block_path_eq b pre L post hb ho h hcl c hc d S E hs he hpS hsS hmode, ?_⟩
      have e0 := line_edit_begin _ pre L post hb0 h
      have e1 := rcie_start_edit
        (gtk_text_buffer_begin_user_action (record_visit b (pre.length + c))) pre L post
        (by simp [hb]) ho h hcl S hpS hsS
      simp only [begin_user_action_text, record_visit_text, hb] at e1
      have e2 := rcie_end_edit _ pre (strip_marker_at_start S L) post e1.text ho e1.plain hcl
        E hpE hsE
      have e3 := line_edit_end _ pre _ post e2.text e2.plain
      exact line_edit_trans (line_edit_trans (line_edit_trans e0 e1) e2) e3
  cases hd : d.line_comment_start with
  | none =>
    cases hs : d.block_comment_start with
    | none => simp [supported, hd, hs] at hsup
    | some S => exact block S hs (Or.inl hd)
  | some p =>
    obtain ⟨hpp, hsp⟩ := is_marker_iff.1 (hl p hd)
    have line : (∀ S, d.block_comment_start = some S →
        plain S = true ∧ strlen S = S.length ∧ (!S.isEmpty && S.isPrefixOf L) = false) →
        ∃ b' L', remove_actual_comment_on_line b (pre.length + c) d = .ok b' ∧
          line_edit (record_visit b (pre.length + c)) b' pre L L' post := by
      intro hno
      refine ⟨_, strip_marker_at_start p L,
        remove_line_path b pre L post hb ho h hcl c hc d p hd hno, ?_⟩
      have e1 := rcie_start_edit (record_visit b (pre.length + c)) pre L post hb0 ho h hcl
        p hpp hsp
      simpa only [record_visit_text] using e1
    cases hs : d.block_comment_start with
    | none => exact line (by intro S hS'; rw [hs] at hS'; cases hS')
    | some S =>
      by_cases hcond : (!S.isEmpty && S.isPrefixOf L) = true
      · exact block S hs (Or.inr hcond)
      · apply line
        intro S' hS'
        rw [hs] at hS'
        cases hS'
        obtain ⟨hpS, hsS⟩ := is_marker_iff.1 (hS S hs)
        exact ⟨hpS, hsS, by simpa only [Bool.not_eq_true] using hcond⟩

theorem line_comment_loop_eq (d : Delims) (fuel : Nat) (b : GtkTextBuffer) (s i : Nat) :
    line_comment_loop d fuel b s i =
      visit_loop (fun b i => add_actual_comment_on_line b i d) fuel b s i := by
  induction fuel generalizing b s i with
  | zero => rfl
  | succ fuel ih =>
    simp only [line_comment_loop, visit_loop]
    cases h : add_actual_comment_on_line b s d with
    | error f => rfl
    | ok b1 => simp only [ih]

theorem line_uncomment_loop_eq (d : Delims) (fuel : Nat) (b : GtkTextBuffer) (s i : Nat) :
    line_uncomment_loop d fuel b s i =
      visit_loop (fun b i => remove_actual_comment_on_line b i d) fuel b s i := by
  induction fuel generalizing b s i with
  | zero => rfl
  | succ fuel ih =>
    simp only [line_uncomment_loop, visit_loop]
    cases h : remove_actual_comment_on_line b s d with
    | error f => rfl
    | ok b1 => simp only [ih]

/-- One visit of the row `cur` that follows the rows `D`. -/
theorem visit_step (step : GtkTextBuffer → Nat → Except Fault GtkTextBuffer)
    (hstep : step_ok step) (pre : List Char) (ho : opens_line pre = true)
    (D : List (List Char × List Char)) (hD : ∀ r ∈ D, row_ok r = true)
    (cur : List Char × List Char) (hcur : row_ok cur = true) (rest : List Char)
    (b : GtkTextBuffer) (c : Nat) (hc : c ≤ cur.1.length)
    (hb : b.text = pre ++ (flat D ++ (cur.1 ++ (cur.2 ++ rest)))) :
    ∃ b' L', step b (pre.length + (flat D).length + c) = .ok b' ∧ plain L' = true ∧
      b'.text = pre ++ (flat (D ++ [(L', cur.2)]) ++ rest) ∧
      visits b'.log = visits b.log ++ [gtk_text_iter_get_line pre pre.length + D.length] ∧
      mark_moved (pre.length + (flat D).length) cur.1.length L'.length
        (min b.insert_mark b.selection_bound) (min b'.insert_mark b'.selection_bound) ∧
      mark_moved (pre.length + (flat D).length) cur.1.length L'.length
        (max b.insert_mark b.selection_bound) (max b'.insert_mark b'.selection_bound) := by
  have hr := row_ok_iff.1 hcur
  have hb' : b.text = (pre ++ flat D) ++ (cur.1 ++ (cur.2 ++ rest)) := by simp [hb]
  obtain ⟨b', L', h1, h2⟩ := hstep b (pre ++ flat D) cur.1 (cur.2 ++ rest) c hb'
    (opens_line_flat pre D ho hD) hr.1 (closes_line_terminator hr.2 rest) hc
  rw [List.length_append] at h1
  refine ⟨b', L', h1, h2.plain, ?_, ?_, ?_⟩
  · rw [h2.text, flat_append]
    simp [flat]
  · rw [h2.visits]
    simp only [record_visit, visits_append, visits]
    have g1 := get_line_inside (pre ++ flat D) cur.1 (cur.2 ++ rest) hr.1 c hc
    have g2 := get_line_rows pre D (cur.1 ++ (cur.2 ++ rest)) [] ho hD
    rw [List.append_nil] at g2
    rw [hb', g1, List.length_append, List.append_assoc, g2]
  · have := mark_moved_min_max h2.ins h2.bound
    simpa only [List.length_append] using this

theorem forward_lines_after (pre : List Char) (D : List (List Char × List Char))
    (hD : ∀ r ∈ D, row_ok r = true) (rest : List Char) (first : List Char × List Char)
    (hfirst : D.head? = some first) (lo : Nat) (h1 : pre.length ≤ lo)
    (h2 : lo ≤ pre.length + first.1.length) :
    gtk_text_iter_forward_lines (pre ++ (flat D ++ rest)) lo D.length =
      pre.length + (flat D).length := by
  cases D with
  | nil => simp at hfirst
  | cons r0 R =>
    simp only [List.head?_cons, Option.some.injEq] at hfirst
    subst hfirst
    obtain ⟨c, rfl⟩ : ∃ c, lo = pre.length + c := ⟨lo - pre.length, by omega⟩
    exact forward_lines_rows pre R rest (fun x hx => hD x (List.mem_cons_of_mem _ hx)) r0
      (hD r0 (List.mem_cons_self _ _)) c (by omega)

theorem flat_length_ge_first (D : List (List Char × List Char))
    (hD : ∀ r ∈ D, row_ok r = true) (first : List Char × List Char)
    (hfirst : D.head? = some first) : first.1.length < (flat D).length := by
  cases D with
  | nil => simp at hfirst
  | cons r0 R =>
    simp only [List.head?_cons, Option.some.injEq] at hfirst
    subst hfirst
    have := terminator_length_pos (row_ok_iff.1 (hD r0 (List.mem_cons_self _ _))).2
    simp only [flat, List.length_append]
    omega

/-- One visit, with the position of the low bound and of the next line start
after it. -/
theorem visit_step_bounds (step : GtkTextBuffer → Nat → Except Fault GtkTextBuffer)
    (hstep : step_ok step) (pre : List Char) (ho : opens_line pre = true)
    (D : List (List Char × List Char)) (hD : ∀ r ∈ D, row_ok r = true)
    (cur : List Char × List Char) (hcur : row_ok cur = true) (rest : List Char)
    (b : GtkTextBuffer) (c : Nat) (hc : c ≤ cur.1.length)
    (hb : b.text = pre ++ (flat D ++ (cur.1 ++ (cur.2 ++ rest))))
    (first : List Char × List Char) (hfirst : (D ++ [cur]).head? = some first)
    (hlo1 : pre.length ≤ min b.insert_mark b.selection_bound)
    (hlo2 : min b.insert_mark b.selection_bound ≤ pre.length + first.1.length) :
    ∃ b' L' first', step b (pre.length + (flat D).length + c) = .ok b' ∧
      row_ok (L', cur.2) = true ∧
      b'.text = pre ++ (flat (D ++ [(L', cur.2)]) ++ rest) ∧
      visits b'.log = visits b.log ++ [gtk_text_iter_get_line pre pre.length + D.length] ∧
      (D ++ [(L', cur.2)]).head? = some first' ∧
      pre.length ≤ min b'.insert_mark b'.selection_bound ∧
      min b'.insert_mark b'.selection_bound ≤ pre.length + first'.1.length ∧
      mark_moved (pre.length + (flat D).length) cur.1.length L'.length
        (max b.insert_mark b.selection_bound) (max b'.insert_mark b'.selection_bound) ∧
      gtk_text_iter_forward_lines b'.text (min b'.insert_mark b'.selection_bound)
        (D.length + 1) = pre.length + (flat D).length + L'.length + cur.2.length := by
  obtain ⟨b', L', h1, h2, h3, h4, h5, h6⟩ :=
    visit_step step hstep pre ho D hD cur hcur rest b c hc hb
  have hrow : row_ok (L', cur.2) = true := row_ok_iff.2 ⟨h2, (row_ok_iff.1 hcur).2⟩
  have hD1 : ∀ r ∈ D ++ [(L', cur.2)], row_ok r = true := by
    intro r hr
    rcases List.mem_append.1 hr with hr | hr
    · exact hD r hr
    · rw [List.mem_singleton.1 hr]; exact hrow
  have key : ∃ first', (D ++ [(L', cur.2)]).head? = some first' ∧
      pre.length ≤ min b'.insert_mark b'.selection_bound ∧
      min b'.insert_mark b'.selection_bound ≤ pre.length + first'.1.length := by
    cases D with
    | nil =>
      simp only [List.nil_append, List.head?_cons, Option.some.injEq] at hfirst
      subst hfirst
      refine ⟨(L', cur.2), rfl, ?_⟩
      show pre.length ≤ _ ∧ _ ≤ pre.length + L'.length
      simp only [flat, List.length_nil, Nat.add_zero] at h5
      unfold mark_moved at h5
      omega
    | cons d0 D' =>
      simp only [List.cons_append, List.head?_cons, Option.some.injEq] at hfirst
      subst hfirst
      refine ⟨d0, rfl, ?_⟩
      have := flat_length_ge_first (d0 :: D') hD d0 rfl
      unfold mark_moved at h5
      omega
  obtain ⟨first', hf1, hf2, hf3⟩ := key
  refine ⟨b', L', first', h1, hrow, h3, h4, hf1, hf2, hf3, h6, ?_⟩
  have := forward_lines_after pre (D ++ [(L', cur.2)]) hD1 rest first' hf1 _ hf2 hf3
  rw [h3]
  simp only [List.length_append, List.length_singleton] at this
  rw [this, flat_append]
  simp only [flat, List.length_append, List.append_nil, List.length_nil]
  omega

/-- The walk over the rows `R` and the row `last`, when the high bound of the
selection lies in `last` at column `ch` and the rows `D` were visited before:
every row is visited once, in order, and the loop stops after `last`. -/
theorem visit_loop_rows (step : GtkTextBuffer → Nat → Except Fault GtkTextBuffer)
    (hstep : step_ok step) (pre post : List Char) (ho : opens_line pre = true)
    (last : List Char × List Char) (hlast : row_ok last = true) (ch : Nat)
    (hch : ch ≤ last.1.length) :
    ∀ (R D : List (List Char × List Char)) (first : List Char × List Char)
      (b : GtkTextBuffer) (fuel c : Nat),
      (∀ r ∈ D, row_ok r = true) → (∀ r ∈ R, row_ok r = true) →
      b.text = pre ++ (flat D ++ (flat (R ++ [last]) ++ post)) →
      (D ++ (R ++ [last])).head? = some first →
      c ≤ ((R ++ [last]).head (by simp)).1.length →
      R.length < fuel →
      pre.length ≤ min b.insert_mark b.selection_bound →
      min b.insert_mark b.selection_bound ≤ pre.length + first.1.length →
      max b.insert_mark b.selection_bound =
        pre.length + (flat D).length + (flat R).length + ch →
      ∃ b', visit_loop step fuel b (pre.length + (flat D).length + c) D.length = .ok b' ∧
        visits b'.log = visits b.log ++
          List.range' (gtk_text_iter_get_line pre pre.length + D.length) (R.length + 1) := by
  intro R
  induction R with
  | nil =>
    intro D first b fuel c hD _ hb hfirst hc hfuel hlo1 hlo2 hhi
    obtain ⟨fuel, rfl⟩ : ∃ f, fuel = f + 1 := ⟨fuel - 1, by simp at hfuel; omega⟩
    simp only [List.nil_append, List.head_cons] at hc
    have hb' : b.text = pre ++ (flat D ++ (last.1 ++ (last.2 ++ post))) := by
      simpa [flat] using hb
    obtain ⟨b', L', first', h1, h2, h3, h4, h5, h6, h7, h8, h9⟩ :=
      visit_step_bounds step hstep pre ho D hD last hlast post b c hc hb' first
        (by simpa using hfirst) hlo1 hlo2
    refine ⟨b', ?_, by simpa using h4⟩
    have hT := terminator_length_pos (row_ok_iff.1 hlast).2
    simp only [visit_loop, h1, gtk_text_buffer_get_selection_bounds, h9, ge_iff_le]
    rw [if_neg]
    simp only [flat, List.length_nil, Nat.add_zero] at hhi
    unfold mark_moved at h8
    omega
  | cons r R ih =>
    intro D first b fuel c hD hR hb hfirst hc hfuel hlo1 hlo2 hhi
    obtain ⟨fuel, rfl⟩ : ∃ f, fuel = f + 1 := ⟨fuel - 1, by simp at hfuel; omega⟩
    simp only [List.cons_append, List.head_cons] at hc
    have hr := hR r (List.mem_cons_self _ _)
    have hb' : b.text = pre ++ (flat D ++ (r.1 ++ (r.2 ++ (flat (R ++ [last]) ++ post)))) := by
      simpa [flat] using hb
    have hfirst' : (D ++ [r]).head? = some first := by
      cases D with
      | nil => simpa using hfirst
      | cons d0 D' => simpa using hfirst
    obtain ⟨b', L', first', h1, h2, h3, h4, h5, h6, h7, h8, h9⟩ :=
      visit_step_bounds step hstep pre ho D hD r hr (flat (R ++ [last]) ++ post) b c hc hb'
        first hfirst' hlo1 hlo2
    have hD1 : ∀ x ∈ D ++ [(L', r.2)], row_ok x = true := by
      intro x hx
      rcases List.mem_append.1 hx with hx | hx
      · exact hD x hx
      · rw [List.mem_singleton.1 hx]; exact h2
    have hlen : (flat (D ++ [(L', r.2)])).length = (flat D).length + L'.length + r.2.length := by
      rw [flat_append]
      simp only [flat, List.length_append, List.append_nil, List.length_nil]
      omega
    have hhi' : max b'.insert_mark b'.selection_bound =
        pre.length + (flat (D ++ [(L', r.2)])).length + (flat R).length + ch := by
      rw [hlen]
      simp only [flat, List.length_append] at hhi
      unfold mark_moved at h8
      omega
    have hfirst1 : (D ++ [(L', r.2)] ++ (R ++ [last])).head? = some first' := by
      cases D with
      | nil => simpa using h5
      | cons d0 D' => simpa using h5
    obtain ⟨b'', hb1, hb2⟩ := ih (D ++ [(L', r.2)]) first' b' fuel 0 hD1
      (fun x hx => hR x (List.mem_cons_of_mem _ hx)) h3 hfirst1 (Nat.zero_le _)
      (by simp at hfuel; omega) h6 h7 hhi'
    refine ⟨b'', ?_, ?_⟩
    · simp only [visit_loop, h1, gtk_text_buffer_get_selection_bounds, h9, ge_iff_le]
      rw [if_pos (by rw [hhi', hlen]; omega)]
      simp only [hlen, List.length_append, List.length_singleton, Nat.add_zero] at hb1
      rw [← hb1]
      congr 1
      omega
    · rw [hb2, h4, List.append_assoc]
      congr 1
      have e : gtk_text_iter_get_line pre pre.length + (D ++ [(L', r.2)]).length =
          gtk_text_iter_get_line pre pre.length + D.length + 1 := by
        simp only [List.length_append, List.length_singleton]; omega
      rw [e, List.length_cons, List.range'_succ (gtk_text_iter_get_line pre pre.length + D.length)]
      rfl

/-- The walk of `line_comment_code` or `line_uncomment_code` over a selection
that starts in the row `r0` and ends in the row `last`, at column `ch`, when
`last` is closed by a delimiter: the rows are visited once each, in order. -/
theorem walk_visits_rows (step : GtkTextBuffer → Nat → Except Fault GtkTextBuffer)
    (hstep : step_ok step) (fuel : Nat) (b : GtkTextBuffer) (pre post : List Char)
    (r0 : List Char × List Char) (rows : List (List Char × List Char))
    (last : List Char × List Char) (c ch : Nat)
    (ho : opens_line pre = true) (hrows : ∀ r ∈ r0 :: rows, row_ok r = true)
    (hlast : row_ok last = true)
    (hb : b.text = pre ++ flat (r0 :: rows) ++ flat [last] ++ post)
    (hlo : min b.insert_mark b.selection_bound = pre.length + c)
    (hhi : max b.insert_mark b.selection_bound = pre.length + (flat (r0 :: rows)).length + ch)
    (hc : c ≤ r0.1.length) (hch : ch ≤ last.1.length) (hfuel : rows.length + 1 < fuel) :
    ∃ b', visit_loop step fuel (gtk_text_buffer_begin_user_action b) (pre.length + c) 0 =
        .ok b' ∧
      visits b'.log = visits b.log ++
        List.range' (gtk_text_iter_get_line b.text (pre.length + c)) (rows.length + 2) := by
  have hr0 := row_ok_iff.1 (hrows r0 (List.mem_cons_self _ _))
  have hb' : (gtk_text_buffer_begin_user_action b).text =
      pre ++ (flat [] ++ (flat (r0 :: rows ++ [last]) ++ post)) := by
    simp [hb, flat, flat_append]
  obtain ⟨b', h1, h2⟩ := visit_loop_rows step hstep pre post ho last hlast ch hch (r0 :: rows) []
    r0 (gtk_text_buffer_begin_user_action b) fuel c (by simp) hrows hb' (by simp)
    (by simpa using hc) (by simpa using hfuel)
    (by simp only [gtk_text_buffer_begin_user_action]; omega)
    (by simp only [gtk_text_buffer_begin_user_action]; omega)
    (by
      show max b.insert_mark b.selection_bound =
        pre.length + (flat []).length + (flat (r0 :: rows)).length + ch
      rw [hhi]; simp [flat])
  refine ⟨b', by simpa [flat] using h1, ?_⟩
  have hline : gtk_text_iter_get_line b.text (pre.length + c) =
      gtk_text_iter_get_line pre pre.length := by
    have e : b.text = pre ++ (r0.1 ++ (r0.2 ++ flat rows ++ flat [last] ++ post)) := by
      simp [hb, flat]
    rw [e, get_line_inside pre r0.1 _ hr0.1 c hc]
    have := get_line_before pre (r0.1 ++ (r0.2 ++ flat rows ++ flat [last] ++ post)) [] ho
      pre.length (le_refl _)
    rw [List.append_nil] at this
    exact this
  rw [h2, hline]
  simp [gtk_text_buffer_begin_user_action, visits_append, visits]

/-- C4 (counterexample): the selection runs from line 0 to column 0 of line 1;
both walks stop after two visits and line 1 is one of the visited lines. -/
theorem line_at_column_zero_is_visited :
    (∃ b', line_comment_code 5 (buffer_sel "a\nb\nc".toList 0 2) 0 (some 2)
        ⟨none, none, some "#".toList⟩ = .ok b' ∧
      visits b'.log = [0, 1] ∧ b'.text = "#a\n#b\nc".toList) ∧
    (∃ b', line_uncomment_code 5 (buffer_sel "#a\n#b\n#c".toList 0 3) 0 (some 3)
        ⟨none, none, some "#".toList⟩ = .ok b' ∧
      visits b'.log = [0, 1] ∧ b'.text = "a\nb\n#c".toList) :=
  ⟨⟨_, rfl, rfl, rfl⟩, ⟨_, rfl, rfl, rfl⟩⟩

/-- C4 (amended): when the selection starts in line `s` (the row `r0`) and ends
at column 0 of a later line `t` (the row `last`) that is not the last line of
the buffer, both walks return and visit the lines `s`, ..., `t`, line `t`
included, once each and in this order. -/
theorem selection_ending_at_column_zero (d : Delims) (fuel : Nat) (b : GtkTextBuffer)
    (pre post : List Char) (r0 : List Char × List Char)
    (rows : List (List Char × List Char)) (last : List Char × List Char) (c : Nat)
    (hwf : well_formed d = true)
    (ho : opens_line pre = true) (hrows : ∀ r ∈ r0 :: rows, row_ok r = true)
    (hlast : row_ok last = true)
    (hb : b.text = pre ++ flat (r0 :: rows) ++ flat [last] ++ post)
    (hsel : gtk_text_buffer_get_selection_bounds b =
      (true, pre.length + c, pre.length + (flat (r0 :: rows)).length))
    (hc : c ≤ r0.1.length) (hfuel : rows.length + 1 < fuel) :
    (∃ b', line_comment_code fuel b (pre.length + c)
        (some (pre.length + (flat (r0 :: rows)).length)) d = .ok b' ∧
      visits b'.log = visits b.log ++
        List.range' (gtk_text_iter_get_line b.text (pre.length + c)) (rows.length + 2)) ∧
    (∃ b', line_uncomment_code fuel b (pre.length + c)
        (some (pre.length + (flat (r0 :: rows)).length)) d = .ok b' ∧
      visits b'.log = visits b.log ++
        List.range' (gtk_text_iter_get_line b.text (pre.length + c)) (rows.length + 2)) := by
  have hwf' := hwf
  simp only [well_formed, Bool.and_eq_true] at hwf'
  simp only [gtk_text_buffer_get_selection_bounds, Prod.mk.injEq] at hsel
  constructor
  · obtain ⟨b', h1, h2⟩ := walk_visits_rows _ (add_step_ok d hwf'.1.1 hwf'.1.2) fuel b pre post
      r0 rows last c 0 ho hrows hlast hb hsel.2.1 (by simpa using hsel.2.2) hc (Nat.zero_le _)
      hfuel
    refine ⟨gtk_text_buffer_end_user_action b', ?_, ?_⟩
    · simp only [line_comment_code, line_comment_loop_eq, h1]
    · simp [gtk_text_buffer_end_user_action, visits_append, visits, h2]
  · obtain ⟨b', h1, h2⟩ := walk_visits_rows _ (remove_step_ok d hwf) fuel b pre post
      r0 rows last c 0 ho hrows hlast hb hsel.2.1 (by simpa using hsel.2.2) hc (Nat.zero_le _)
      hfuel
    refine ⟨gtk_text_buffer_end_user_action b', ?_, ?_⟩
    · simp only [line_uncomment_code, line_uncomment_loop_eq, h1]
    · simp [gtk_text_buffer_end_user_action, visits_append, visits, h2]

theorem selection_ending_at_column_zero_witness :
    well_formed ⟨some "/*".toList, some "*/".toList, some "//".toList⟩ = true ∧
    (buffer_sel "x\n//a\r\n/*b*/\nc\nd".toList 4 13).text =
      "x\n".toList ++ flat [("//a".toList, "\r\n".toList), ("/*b*/".toList, "\n".toList)] ++
        flat [("c".toList, "\n".toList)] ++ "d".toList ∧
    (∃ b', line_uncomment_code 4 (buffer_sel "x\n//a\r\n/*b*/\nc\nd".toList 4 13)
        ("x\n".toList.length + 2) (some ("x\n".toList.length +
          (flat [("//a".toList, "\r\n".toList), ("/*b*/".toList, "\n".toList)]).length))
        ⟨some "/*".toList, some "*/".toList, some "//".toList⟩ = .ok b' ∧
      visits b'.log = [1, 2, 3]) := by
  refine ⟨by decide, by decide, ?_⟩
  obtain ⟨b', h1, h2⟩ := (selection_ending_at_column_zero
    ⟨some "/*".toList, some "*/".toList, some "//".toList⟩ 4
    (buffer_sel "x\n//a\r\n/*b*/\nc\nd".toList 4 13) "x\n".toList "d".toList
    ("//a".toList, "\r\n".toList) [("/*b*/".toList, "\n".toList)] ("c".toList, "\n".toList) 2
    (by decide) (by decide) (by decide) (by decide) (by decide) (by decide) (by decide)
    (by decide)).2
  exact ⟨b', h1, h2.trans (by decide)⟩

/-- On a buffer that is one line, with the high bound of the selection at the
end of the buffer, the walk does not stop: every visit leaves the high bound at
the end of the buffer, where the next line start is clamped too. -/
theorem one_line_loop_never_stops (step : GtkTextBuffer → Nat → Except Fault GtkTextBuffer)
    (hstep : step_ok step) (fuel : Nat) :
    ∀ (b : GtkTextBuffer) (itr i : Nat), plain b.text = true → itr ≤ b.text.length →
      max b.insert_mark b.selection_bound = b.text.length →
      ∃ reached, visit_loop step fuel b itr i = .error (Fault.out_of_fuel reached) := by
  induction fuel with
  | zero => intro b itr i _ _ _; exact ⟨_, rfl⟩
  | succ fuel ih =>
    intro b itr i hpl hitr hmax
    obtain ⟨b', L', h1, h2⟩ := hstep b [] b.text [] itr (by simp) rfl hpl rfl hitr
    simp only [List.length_nil, Nat.zero_add] at h1
    have htext : b'.text = L' := by simpa using h2.text
    have hmm := mark_moved_min_max h2.ins h2.bound
    have hmax' : max b'.insert_mark b'.selection_bound = b'.text.length := by
      have := hmm.2
      unfold mark_moved at this
      simp only [record_visit, List.length_nil] at this
      rw [htext]
      omega
    have hpl' : plain b'.text = true := by rw [htext]; exact h2.plain
    have hfl : gtk_text_iter_forward_lines b'.text
        (min b'.insert_mark b'.selection_bound) (i + 1) = b'.text.length :=
      forward_lines_plain _ hpl' _ (by omega) _
    simp only [visit_loop, h1, gtk_text_buffer_get_selection_bounds, hfl, hmax', ge_iff_le,
      le_refl, if_true]
    exact ih b' _ _ hpl' (le_refl _) hmax'

/-- C2 (the code at the failing input): on the one-line buffer `a` with
everything selected and the line prefix `#`, neither `line_comment_code` nor
`line_uncomment_code` returns, whatever the fuel. -/
theorem select_all_never_returns (fuel : Nat) :
    (∃ reached, line_comment_code fuel (buffer_sel ['a'] 0 1) 0 (some 1)
      ⟨none, none, some ['#']⟩ = .error (Fault.out_of_fuel reached)) ∧
    (∃ reached, line_uncomment_code fuel (buffer_sel ['a'] 0 1) 0 (some 1)
      ⟨none, none, some ['#']⟩ = .error (Fault.out_of_fuel reached)) := by
  constructor
  · obtain ⟨r, hr⟩ := one_line_loop_never_stops _
      (add_step_ok ⟨none, none, some ['#']⟩ (by decide) (by decide)) fuel
      (gtk_text_buffer_begin_user_action (buffer_sel ['a'] 0 1)) 0 0 (by decide) (by decide)
      (by decide)
    exact ⟨r, by simp only [line_comment_code, line_comment_loop_eq, hr]⟩
  · obtain ⟨r, hr⟩ := one_line_loop_never_stops _
      (remove_step_ok ⟨none, none, some ['#']⟩ (by decide)) fuel
      (gtk_text_buffer_begin_user_action (buffer_sel ['a'] 0 1)) 0 0 (by decide) (by decide)
      (by decide)
    exact ⟨r, by simp only [line_uncomment_code, line_uncomment_loop_eq, hr]⟩

/-- C7 (the code at the failing input): line prefix and block start present,
block end absent.  The delimiters pass the test of `comment_code`; on a line
that begins with the block start, `remove_actual_comment_on_line` enters the
block branch and takes `strlen` of the absent end marker. -/
theorem missing_block_end_is_dereferenced :
    supported ⟨some "/*".toList, none, some "#".toList⟩ = true ∧
    remove_actual_comment_on_line (buffer_at "/* x".toList 0) 0
      ⟨some "/*".toList, none, some "#".toList⟩ = .error Fault.null_pointer ∧
    comment_code (some ⟨some "/*".toList, none, some "#".toList⟩) (line_uncomment_code 3)
      (buffer_at "/* x".toList 0) = .error Fault.null_pointer :=
  ⟨rfl, rfl, rfl⟩

/-! ## Removal in line mode, and the length of a line -/

/-- For a prefix of one byte per character:
with a line prefix `p` present (a marker in the sense of `is_marker`), on
a line `p ++ R` that does not begin with a present block start marker,
`remove_actual_comment_on_line` leaves exactly `R` on the line: one occurrence
of `p` is removed at column 0 and nothing else changes. -/
theorem line_mode_strips_one_marker (b : GtkTextBuffer) (pre R post p : List Char)
    (c : Nat) (d : Delims) (hb : b.text = pre ++ (p ++ R) ++ post)
    (hline : is_line pre (p ++ R) post = true) (hc : c ≤ (p ++ R).length)
    (hd : d.line_comment_start = some p) (hp : is_marker p = true)
    (hS : ∀ S, d.block_comment_start = some S → is_marker S = true ∧ ¬ S <+: p ++ R) :
    ∃ b', remove_actual_comment_on_line b (pre.length + c) d = .ok b' ∧
      b'.text = pre ++ R ++ post := by
  obtain ⟨ho, h, hcl⟩ := is_line_iff.1 hline
  obtain ⟨hpp, hsp⟩ := is_marker_iff.1 hp
  rw [List.append_assoc] at hb
  refine ⟨_, remove_line_path b pre (p ++ R) post hb ho h hcl c hc d p hd ?_, ?_⟩
  · intro S hS'
    obtain ⟨hm, hno⟩ := hS S hS'
    obtain ⟨hpS, hsS⟩ := is_marker_iff.1 hm
    refine ⟨hpS, hsS, ?_⟩
    have : S.isPrefixOf (p ++ R) = false := by
      rw [← Bool.not_eq_true, List.isPrefixOf_iff_prefix]; exact hno
    simp [this]
  · have hr := remove_at_line_start (record_visit b (pre.length + c)) pre (p ++ R) post
      (by simp [hb]) ho h hcl p hpp hsp
    simp only [record_visit_text] at hr
    rw [hr.1, strip_start_append, List.append_assoc]

theorem line_mode_strips_one_marker_witness :
    (buffer_at "#print(1)".toList 4).text = [] ++ ("#".toList ++ "print(1)".toList) ++ [] ∧
    is_line [] ("#".toList ++ "print(1)".toList) [] = true ∧
    is_marker "#".toList = true ∧
    (∃ b', remove_actual_comment_on_line (buffer_at "#print(1)".toList 4) 4
        ⟨none, none, some "#".toList⟩ = .ok b' ∧ b'.text = "print(1)".toList) ∧
    (∃ b', remove_actual_comment_on_line (buffer_at "x\n##y\n".toList 3) 3
        ⟨some "/*".toList, some "*/".toList, some "#".toList⟩ = .ok b' ∧
      b'.text = "x\n#y\n".toList) := by
  refine ⟨rfl, by decide, by decide, ?_, ?_⟩
  · simpa using line_mode_strips_one_marker (buffer_at "#print(1)".toList 4) []
      "print(1)".toList [] "#".toList 4 ⟨none, none, some "#".toList⟩ rfl (by decide)
      (by decide) rfl (by decide) (by intro S hS; cases hS)
  · simpa using line_mode_strips_one_marker (buffer_at "x\n##y\n".toList 3) "x\n".toList
      "#y".toList "\n".toList "#".toList 1
      ⟨some "/*".toList, some "*/".toList, some "#".toList⟩ rfl (by decide)
      (by decide) rfl (by decide) (by intro S hS; cases hS; exact ⟨by decide, by decide⟩)

/-- In a text without `\r`, every position lies on a line: the text splits
into the text before the line, the line and the text after it. -/
theorem position_is_on_a_line (t : List Char) (hcr : '\r' ∉ t) (p : Nat) (hp : p ≤ t.length) :
    ∃ pre L post c, t = pre ++ L ++ post ∧ is_line pre L post = true ∧ c ≤ L.length ∧
      p = pre.length + c := by
  induction t generalizing p with
  | nil =>
    refine ⟨[], [], [], 0, rfl, by decide, le_refl _, ?_⟩
    simpa using hp
  | cons x t ih =>
    have hx : x ≠ '\r' := fun h => hcr (h ▸ List.mem_cons_self _ _)
    have ht : '\r' ∉ t := fun h => hcr (List.mem_cons_of_mem _ h)
    obtain ⟨pre, L, post, c, e, hl, hc, hpc⟩ := ih ht (p - 1) (by simp at hp; omega)
    obtain ⟨ho, hpl, hcl⟩ := is_line_iff.1 hl
    cases pre with
    | cons y pre' =>
      cases p with
      | zero =>
        simp only [List.length_cons] at hpc
        omega
      | succ p =>
        refine ⟨x :: y :: pre', L, post, c, by simp [e], is_line_iff.2 ⟨?_, hpl, hcl⟩, hc, ?_⟩
        · simpa [opens_line] using ho
        · simp at hpc ⊢
          omega
    | nil =>
      by_cases hd : is_delimiter x = true
      · cases p with
        | zero =>
          exact ⟨[], [], x :: t, 0, rfl, is_line_iff.2 ⟨rfl, rfl, by simpa [closes_line] using hd⟩,
            le_refl _, rfl⟩
        | succ p =>
          refine ⟨[x], L, post, c, by simp [e], is_line_iff.2 ⟨?_, hpl, hcl⟩, hc, ?_⟩
          · simp [is_delimiter, hx] at hd
            simpa [opens_line] using hd
          · simp at hpc ⊢
            omega
      · have hd' : is_delimiter x = false := by simpa using hd
        cases p with
        | zero =>
          refine ⟨[], x :: L, post, 0, by simp [e], is_line_iff.2 ⟨rfl, ?_, hcl⟩,
            Nat.zero_le _, rfl⟩
          exact plain_cons.2 ⟨hd', hpl⟩
        | succ p =>
          refine ⟨[], x :: L, post, c + 1, by simp [e], is_line_iff.2 ⟨rfl, ?_, hcl⟩, ?_, ?_⟩
          · exact plain_cons.2 ⟨hd', hpl⟩
          · simp; omega
          · simp at hpc ⊢
            omega

/-- C17: for a position on the line `L` of the buffer, `get_line_length` is the
number of characters of `L`, the delimiter left out: 0 on an empty line, and the
distance from the line start to the end of the buffer on the last line. -/
theorem line_length_counts_the_line (b : GtkTextBuffer) (pre L post : List Char) (c : Nat)
    (hb : b.text = pre ++ L ++ post) (hline : is_line pre L post = true)
    (hc : c ≤ L.length) :
    get_line_length b (pre.length + c) = L.length ∧
    (L = [] → get_line_length b (pre.length + c) = 0) ∧
    (post = [] → get_line_length b (pre.length + c) = b.text.length - pre.length) := by
  obtain ⟨ho, h, hcl⟩ := is_line_iff.1 hline
  have hb' := hb
  rw [List.append_assoc] at hb'
  have key := get_line_length_inside b pre L post hb' ho h hcl c hc
  refine ⟨key, ?_, ?_⟩
  · intro h0; rw [key, h0]; rfl
  · intro h0; rw [key, hb, h0]; simp

theorem line_length_counts_the_line_witness :
    (buffer_at "ab\n\ncde".toList 3).text = "ab\n".toList ++ [] ++ "\ncde".toList ∧
    is_line "ab\n".toList [] "\ncde".toList = true ∧
    get_line_length (buffer_at "ab\n\ncde".toList 3) 3 = 0 ∧
    get_line_length (buffer_at "ab\n\ncde".toList 3) 5 = 3 := by
  refine ⟨rfl, by decide, ?_, ?_⟩
  · exact (line_length_counts_the_line (buffer_at "ab\n\ncde".toList 3) "ab\n".toList []
      "\ncde".toList 0 rfl (by decide) (by decide)).1
  · exact (line_length_counts_the_line (buffer_at "ab\n\ncde".toList 3) "ab\n\n".toList
      "cde".toList [] 1 rfl (by decide) (by decide)).1

/-! ## Insertion, twice, and detection after it -/

/-- The text of the line after `add_actual_comment_on_line`, for supported
delimiters whose mode markers are free of paragraph delimiters. -/
theorem add_commented (b : GtkTextBuffer) (pre L post : List Char)
    (hb : b.text = pre ++ (L ++ post)) (ho : opens_line pre = true) (h : plain L = true)
    (hcl : closes_line post = true) (c : Nat) (hc : c ≤ L.length) (d : Delims)
    (hsup : supported d = true) (hpl : ∀ m ∈ mode_markers d, plain m = true) :
    ∃ b', add_actual_comment_on_line b (pre.length + c) d = .ok b' ∧
      b'.text = pre ++ (commented d L ++ post) ∧ plain (commented d L) = true := by
  obtain ⟨s, e, l⟩ := d
  cases l with
  | some p =>
    have hp : plain p = true := hpl p (by simp [mode_markers])
    refine ⟨_, add_line_mode b pre L post hb ho h c hc _ p rfl, ?_, ?_⟩
    · rw [(insert_text (record_visit b (pre.length + c)) pre (L ++ post) p (by simp [hb])).1]
      simp [commented]
    · simpa [commented] using plain_append.2 ⟨hp, h⟩
  | none =>
    cases s with
    | none => simp [supported] at hsup
    | some S =>
      cases e with
      | none => simp [supported] at hsup
      | some E =>
        have hS : plain S = true := hpl S (by simp [mode_markers])
        have hE : plain E = true := hpl E (by simp [mode_markers])
        refine ⟨_, add_block_mode b pre L post hb ho h hcl c hc _ S E rfl rfl rfl hS, ?_, ?_⟩
        · rw [add_block_mode_text b pre L post hb S E c]
          simp [commented]
        · simpa [commented] using plain_append.2 ⟨plain_append.2 ⟨hS, h⟩, hE⟩

theorem commented_length (d : Delims) (L : List Char) :
    (commented d L).length = L.length + (commented d []).length := by
  obtain ⟨s, e, l⟩ := d
  cases l <;> cases s <;> cases e <;> simp [commented] <;> omega

theorem commented_eq_self (d : Delims) (L : List Char) (h : (commented d []).length = 0) :
    commented d L = L := by
  obtain ⟨s, e, l⟩ := d
  cases l <;> cases s <;> cases e <;> simp_all [commented]

/-- C15: for supported delimiters whose mode markers are free of paragraph
delimiters, `add_actual_comment_on_line` applied twice to the line `L` wraps it
twice (`p ++ p ++ L`, or `start ++ start ++ L ++ end ++ end`): the second call
does not look at what the first one did, and the result differs from the one
of a single call as soon as a marker is non-empty. -/
theorem commenting_twice_wraps_twice (b : GtkTextBuffer) (pre L post : List Char)
    (c c' : Nat) (d : Delims) (hb : b.text = pre ++ L ++ post)
    (hline : is_line pre L post = true) (hc : c ≤ L.length)
    (hc' : c' ≤ (commented d L).length) (hsup : supported d = true)
    (hpl : ∀ m ∈ mode_markers d, plain m = true) :
    ∃ b₁ b₂, add_actual_comment_on_line b (pre.length + c) d = .ok b₁ ∧
      b₁.text = pre ++ commented d L ++ post ∧
      add_actual_comment_on_line b₁ (pre.length + c') d = .ok b₂ ∧
      b₂.text = pre ++ commented d (commented d L) ++ post ∧
      (commented d L ≠ L → b₂.text ≠ b₁.text) := by
  obtain ⟨ho, h, hcl⟩ := is_line_iff.1 hline
  rw [List.append_assoc] at hb
  obtain ⟨b₁, h1, h2, h3⟩ := add_commented b pre L post hb ho h hcl c hc d hsup hpl
  obtain ⟨b₂, h4, h5, _⟩ := add_commented b₁ pre (commented d L) post h2 ho h3 hcl c' hc' d
    hsup hpl
  refine ⟨b₁, b₂, h1, by rw [h2, List.append_assoc], h4, by rw [h5, List.append_assoc], ?_⟩
  intro hne heq
  have hk : (commented d []).length ≠ 0 := fun h0 => hne (commented_eq_self d L h0)
  have := congrArg List.length heq
  rw [h5, h2] at this
  simp only [List.length_append, commented_length d (commented d L)] at this
  omega

theorem commenting_twice_wraps_twice_witness :
    (buffer_at "x".toList 0).text = [] ++ "x".toList ++ [] ∧
    is_line [] "x".toList [] = true ∧
    supported ⟨none, none, some "#".toList⟩ = true ∧
    (∃ b₁ b₂, add_actual_comment_on_line (buffer_at "x".toList 0) 0
        ⟨none, none, some "#".toList⟩ = .ok b₁ ∧ b₁.text = "#x".toList ∧
      add_actual_comment_on_line b₁ 2 ⟨none, none, some "#".toList⟩ = .ok b₂ ∧
      b₂.text = "##x".toList) ∧
    (∃ b₁ b₂, add_actual_comment_on_line (buffer_at "x".toList 0) 0
        ⟨some "<!--".toList, some "-->".toList, none⟩ = .ok b₁ ∧
      b₁.text = "<!--x-->".toList ∧
      add_actual_comment_on_line b₁ 5 ⟨some "<!--".toList, some "-->".toList, none⟩ = .ok b₂ ∧
      b₂.text = "<!--<!--x-->-->".toList) := by
  refine ⟨rfl, by decide, by decide, ?_, ?_⟩
  · obtain ⟨b₁, b₂, h1, h2, h3, h4, _⟩ := commenting_twice_wraps_twice (buffer_at "x".toList 0)
      [] "x".toList [] 0 2 ⟨none, none, some "#".toList⟩ rfl (by decide) (by decide)
      (by decide) (by decide) (by decide)
    exact ⟨b₁, b₂, h1, h2.trans (by decide), h3, h4.trans (by decide)⟩
  · obtain ⟨b₁, b₂, h1, h2, h3, h4, _⟩ := commenting_twice_wraps_twice (buffer_at "x".toList 0)
      [] "x".toList [] 0 5 ⟨some "<!--".toList, some "-->".toList, none⟩ rfl (by decide)
      (by decide) (by decide) (by decide) (by decide)
    exact ⟨b₁, b₂, h1, h2.trans (by decide), h3, h4.trans (by decide)⟩

/-- For markers of one byte per character:
after `add_actual_comment_on_line`, for supported delimiters whose mode
markers are non-empty markers in the sense of `is_marker`, the bounded checks
find the line commented: in line mode the prefix window at column 0 matches the
prefix; in block mode the window at column 0 matches the start marker and the
window that ends at the line end matches the end marker. -/
theorem inserted_markers_are_detected (b : GtkTextBuffer) (pre L post : List Char)
    (c c' : Nat) (d : Delims) (hb : b.text = pre ++ L ++ post)
    (hline : is_line pre L post = true) (hc : c ≤ L.length)
    (hc' : c' ≤ (commented d L).length) (hsup : supported d = true)
    (hmk : ∀ m ∈ mode_markers d, is_marker m = true ∧ m ≠ []) :
    ∃ b', add_actual_comment_on_line b (pre.length + c) d = .ok b' ∧
      b'.text = pre ++ commented d L ++ post ∧
      is_line_commented b' (pre.length + c') d = true := by
  obtain ⟨ho, h, hcl⟩ := is_line_iff.1 hline
  rw [List.append_assoc] at hb
  obtain ⟨b', h1, h2, h3⟩ := add_commented b pre L post hb ho h hcl c hc d hsup
    (fun m hm => (is_marker_iff.1 (hmk m hm).1).1)
  refine ⟨b', h1, by rw [h2, List.append_assoc], ?_⟩
  have hls := line_start_inside pre (commented d L) post ho h3 c' hc'
  obtain ⟨s, e, l⟩ := d
  cases l with
  | some p =>
    obtain ⟨hm, hne⟩ := hmk p (by simp [mode_markers])
    obtain ⟨hpp, hsp⟩ := is_marker_iff.1 hm
    have hchk := check_at_line_start b' pre (commented ⟨s, e, some p⟩ L) post h2 ho h3 hcl p
      hpp hsp
    simp only [is_line_commented, h2, hls]
    rw [h2] at hchk
    rw [hchk]
    simp [commented, hne]
  | none =>
    cases s with
    | none => simp [supported] at hsup
    | some S =>
      cases e with
      | none => simp [supported] at hsup
      | some E =>
        obtain ⟨hmS, hneS⟩ := hmk S (by simp [mode_markers])
        obtain ⟨hmE, hneE⟩ := hmk E (by simp [mode_markers])
        obtain ⟨hpS, hsS⟩ := is_marker_iff.1 hmS
        obtain ⟨hpE, hsE⟩ := is_marker_iff.1 hmE
        have hchk := check_at_line_start b' pre (commented ⟨some S, some E, none⟩ L) post h2 ho
          h3 hcl S hpS hsS
        have hchk2 := check_at_line_end b' pre (commented ⟨some S, some E, none⟩ L) post h2 ho
          h3 hcl E hpE hsE
        have hg := go_to_line_end_inside pre (commented ⟨some S, some E, none⟩ L) post ho h3
          hcl 0 (Nat.zero_le _)
        simp only [Nat.add_zero] at hg
        simp only [is_line_commented, h2, hls, hg]
        rw [h2] at hchk
        rw [hchk, hchk2]
        have hsuf : E <:+ S ++ (L ++ E) := ⟨S ++ L, by simp⟩
        simp [commented, hneS, hneE, hsuf]

theorem inserted_markers_are_detected_witness :
    (buffer_at "a\nbc".toList 3).text = "a\n".toList ++ "bc".toList ++ [] ∧
    is_line "a\n".toList "bc".toList [] = true ∧
    (∃ b', add_actual_comment_on_line (buffer_at "a\nbc".toList 3) 3
        ⟨some "/*".toList, some "*/".toList, none⟩ = .ok b' ∧
      b'.text = "a\n/*bc*/".toList ∧
      is_line_commented b' 4 ⟨some "/*".toList, some "*/".toList, none⟩ = true) := by
  refine ⟨rfl, by decide, ?_⟩
  obtain ⟨b', h1, h2, h3⟩ := inserted_markers_are_detected (buffer_at "a\nbc".toList 3)
    "a\n".toList "bc".toList [] 1 2 ⟨some "/*".toList, some "*/".toList, none⟩ rfl
    (by decide) (by decide) (by decide) (by decide) (by decide)
  exact ⟨b', h1, h2.trans (by decide), h3⟩

/-! ## Markers of several bytes, and the lines around the edited line -/

/-- C16: with the three-byte marker `⍝` the window is three characters wide, not
one.  On the line `ab⍝` the check answers true although the line does not start
with the marker, and on the line `⍝ab` the removal deletes the whole line text,
not the marker alone. -/
theorem multibyte_marker_window_is_too_wide :
    strlen "⍝".toList = 3 ∧ "⍝".toList.length = 1 ∧
    check_text_between_iters (buffer_at "ab⍝".toList 0) 0
      (gtk_text_iter_forward_chars "ab⍝".toList 0 (strlen "⍝".toList))
      (strlen "⍝".toList) "⍝".toList = true ∧
    "ab⍝".toList.take "⍝".toList.length ≠ "⍝".toList ∧
    (∃ b', remove_actual_comment_on_line (buffer_at "⍝ab".toList 0) 0
        ⟨none, none, some "⍝".toList⟩ = .ok b' ∧ b'.text = [] ∧
      b'.log = [Event.visit_line 0, Event.delete_range 0 3]) :=
  ⟨by decide, by decide, by decide, by decide, _, rfl, rfl, rfl⟩

theorem get_line_after (pre L post : List Char) (h : plain L = true) (k : Nat) :
    gtk_text_iter_get_line (pre ++ (L ++ post)) (pre.length + L.length + k) =
      gtk_text_iter_get_line (pre ++ (L ++ post)) pre.length + gtk_text_iter_get_line post k := by
  induction k with
  | zero => simpa [gtk_text_iter_get_line] using get_line_inside pre L post h L.length (le_refl _)
  | succ k ih =>
    have hd : breaks_after (pre ++ (L ++ post)) (pre.length + L.length + k) =
        breaks_after post k := by
      unfold breaks_after
      rw [Nat.add_assoc, List.drop_append, List.drop_append]
    rw [← Nat.add_assoc, gtk_text_iter_get_line, gtk_text_iter_get_line, hd, ih]
    omega

/-- The number of lines does not depend on the text of a line. -/
theorem line_count_of_line (pre L L' post : List Char) (ho : opens_line pre = true)
    (h : plain L = true) (h' : plain L' = true) :
    gtk_text_buffer_get_line_count (pre ++ (L' ++ post)) =
      gtk_text_buffer_get_line_count (pre ++ (L ++ post)) := by
  have e : ∀ X : List Char, (pre ++ (X ++ post)).length = pre.length + X.length + post.length := by
    intro X; simp only [List.length_append]; omega
  unfold gtk_text_buffer_get_line_count
  rw [e L, e L', get_line_after pre L post h, get_line_after pre L' post h',
    get_line_before pre (L' ++ post) (L ++ post) ho pre.length (le_refl _)]

/-- For well-formed delimiters (markers of one byte per character):
`add_actual_comment_on_line` and `remove_actual_comment_on_line` run on
the line `L` of `pre ++ L ++ post` leave a text `pre ++ L' ++ post` in which `L'`
is again one line: the text before and after the line is kept, no delimiter is
inserted or deleted, and the number of lines is the same.  This holds for every
line, the empty line and lines shorter than a marker included. -/
theorem only_the_target_line_changes (b : GtkTextBuffer) (pre L post : List Char) (c : Nat)
    (d : Delims) (hb : b.text = pre ++ L ++ post) (hline : is_line pre L post = true)
    (hc : c ≤ L.length) (hwf : well_formed d = true) :
    (∃ b' L', add_actual_comment_on_line b (pre.length + c) d = .ok b' ∧
      b'.text = pre ++ L' ++ post ∧ is_line pre L' post = true ∧
      gtk_text_buffer_get_line_count b'.text = gtk_text_buffer_get_line_count b.text) ∧
    (∃ b' L', remove_actual_comment_on_line b (pre.length + c) d = .ok b' ∧
      b'.text = pre ++ L' ++ post ∧ is_line pre L' post = true ∧
      gtk_text_buffer_get_line_count b'.text = gtk_text_buffer_get_line_count b.text) := by
  obtain ⟨ho, h, hcl⟩ := is_line_iff.1 hline
  rw [List.append_assoc] at hb
  have hwf' := hwf
  simp only [well_formed, Bool.and_eq_true] at hwf'
  constructor
  · obtain ⟨b', L', h1, h2⟩ := add_step_ok d hwf'.1.1 hwf'.1.2 b pre L post c hb ho h hcl hc
    refine ⟨b', L', h1, by rw [h2.text, List.append_assoc], is_line_iff.2 ⟨ho, h2.plain, hcl⟩, ?_⟩
    rw [h2.text, hb]
    exact line_count_of_line pre L L' post ho h h2.plain
  · obtain ⟨b', L', h1, h2⟩ := remove_step_ok d hwf b pre L post c hb ho h hcl hc
    refine ⟨b', L', h1, by rw [h2.text, List.append_assoc], is_line_iff.2 ⟨ho, h2.plain, hcl⟩, ?_⟩
    rw [h2.text, hb]
    exact line_count_of_line pre L L' post ho h h2.plain

theorem only_the_target_line_changes_witness :
    (buffer_at "x-->\n\ny".toList 5).text = "x-->\n".toList ++ [] ++ "\ny".toList ∧
    is_line "x-->\n".toList [] "\ny".toList = true ∧
    well_formed ⟨some "<!--".toList, some "-->".toList, none⟩ = true ∧
    (∃ b' L', remove_actual_comment_on_line (buffer_at "x-->\n\ny".toList 5)
        ("x-->\n".toList.length + 0) ⟨some "<!--".toList, some "-->".toList, none⟩ = .ok b' ∧
      b'.text = "x-->\n".toList ++ L' ++ "\ny".toList ∧
      is_line "x-->\n".toList L' "\ny".toList = true ∧
      gtk_text_buffer_get_line_count b'.text =
        gtk_text_buffer_get_line_count (buffer_at "x-->\n\ny".toList 5).text) ∧
    gtk_text_buffer_get_line_count "x-->\n\ny".toList = 3 :=
  ⟨rfl, by decide, by decide,
    (only_the_target_line_changes (buffer_at "x-->\n\ny".toList 5) "x-->\n".toList []
      "\ny".toList 0 ⟨some "<!--".toList, some "-->".toList, none⟩ rfl (by decide) (by decide)
      (by decide)).2, by decide⟩

/-! ## User actions in the call log -/

theorem user_action_depth_append (l₁ l₂ : List Event) (n : Nat) :
    user_action_depth n (l₁ ++ l₂) =
      (user_action_depth n l₁).bind (fun m => user_action_depth m l₂) := by
  induction l₁ generalizing n with
  | nil => simp [user_action_depth]
  | cons e l ih =>
    cases e with
    | end_user_action => cases n <;> simp [user_action_depth, ih]
    | _ => simp [user_action_depth, ih]

theorem scoped_depth_append (l₁ l₂ : List Event) (n : Nat) :
    scoped_depth n (l₁ ++ l₂) = (scoped_depth n l₁).bind (fun m => scoped_depth m l₂) := by
  induction l₁ generalizing n with
  | nil => simp [scoped_depth]
  | cons e l ih =>
    cases e with
    | end_user_action => cases n <;> simp [scoped_depth, ih]
    | insert_text p t => cases n <;> simp [scoped_depth, ih]
    | delete_range lo hi => cases n <;> simp [scoped_depth, ih]
    | _ => simp [scoped_depth, ih]

theorem inner_calls_nil : inner_calls [] := fun _ => ⟨by simp [scoped_depth], by simp [user_action_depth]⟩

theorem inner_calls_append {a c : List Event} (ha : inner_calls a) (hc : inner_calls c) :
    inner_calls (a ++ c) := by
  intro n
  rw [scoped_depth_append, user_action_depth_append, (ha n).1, (ha n).2]
  exact hc n

theorem outer_calls_append {a c : List Event} (ha : outer_calls a) (hc : outer_calls c) :
    outer_calls (a ++ c) := by
  intro n
  rw [scoped_depth_append, user_action_depth_append, (ha n).1, (ha n).2]
  exact hc n

theorem outer_calls_inner {a : List Event} (ha : outer_calls a) : inner_calls a :=
  fun n => ⟨(ha (n + 1)).1, (ha n).2⟩

theorem outer_calls_visit (k : Nat) : outer_calls [Event.visit_line k] :=
  fun _ => ⟨by simp [scoped_depth], by simp [user_action_depth]⟩

/-- A user action around inner calls is allowed anywhere. -/
theorem outer_calls_action {a : List Event} (ha : inner_calls a) :
    outer_calls ([Event.begin_user_action] ++ a ++ [Event.end_user_action]) := by
  intro n
  rw [scoped_depth_append, scoped_depth_append, user_action_depth_append,
    user_action_depth_append]
  simp [scoped_depth, user_action_depth, (ha n).1, (ha (n + 1)).2]

theorem insert_calls (b : GtkTextBuffer) (i : Nat) (txt : List Char) :
    ∃ ev, (gtk_text_buffer_insert b i txt).1.log = b.log ++ ev ∧ inner_calls ev := by
  unfold gtk_text_buffer_insert
  split
  · exact ⟨[], by simp, inner_calls_nil⟩
  · exact ⟨[Event.insert_text i txt], rfl, fun n => ⟨by simp [scoped_depth], by simp [user_action_depth]⟩⟩

theorem delete_calls (b : GtkTextBuffer) (s e : Nat) :
    ∃ ev, (gtk_text_buffer_delete b s e).1.log = b.log ++ ev ∧ inner_calls ev := by
  unfold gtk_text_buffer_delete
  simp only
  split
  · exact ⟨[], by simp, inner_calls_nil⟩
  · exact ⟨[Event.delete_range (min s e) (max s e)], rfl,
      fun n => ⟨by simp [scoped_depth], by simp [user_action_depth]⟩⟩

theorem remove_comment_if_exists_calls (b : GtkTextBuffer) (s e n : Nat) (m : List Char) :
    ∃ ev, (remove_comment_if_exists b s e n m).1.log = b.log ++ ev ∧ inner_calls ev := by
  unfold remove_comment_if_exists
  simp only
  split
  · exact delete_calls b s e
  · exact ⟨[], by simp, inner_calls_nil⟩

theorem record_visit_calls (b : GtkTextBuffer) (itr : Nat) :
    ∃ ev, (record_visit b itr).log = b.log ++ ev ∧ outer_calls ev :=
  ⟨_, rfl, outer_calls_visit _⟩

/-- The calls of `add_actual_comment_on_line`: allowed inside a user action, and
allowed anywhere when there is no line prefix. -/
theorem add_calls (b b' : GtkTextBuffer) (itr : Nat) (d : Delims)
    (h : add_actual_comment_on_line b itr d = .ok b') :
    ∃ ev, b'.log = b.log ++ ev ∧ inner_calls ev ∧
      (d.line_comment_start = none → outer_calls ev) := by
  unfold add_actual_comment_on_line at h
  obtain ⟨s, e, l⟩ := d
  cases l with
  | some p =>
    simp only [Except.ok.injEq] at h
    subst h
    obtain ⟨ev, h1, h2⟩ := insert_calls (record_visit b itr)
      (line_start (record_visit b itr).text itr) p
    refine ⟨[Event.visit_line (gtk_text_iter_get_line b.text itr)] ++ ev, ?_, ?_, ?_⟩
    · rw [h1]; simp [record_visit]
    · exact inner_calls_append (outer_calls_inner (outer_calls_visit _)) h2
    · intro hd; cases hd
  | none =>
    cases s with
    | none => cases h
    | some S =>
      cases e with
      | none => cases h
      | some E =>
        simp only [Except.ok.injEq] at h
        subst h
        obtain ⟨ev1, h1, h2⟩ := insert_calls
          (gtk_text_buffer_begin_user_action (record_visit b itr))
          (line_start (record_visit b itr).text itr) S
        obtain ⟨ev2, h3, h4⟩ := insert_calls
          (gtk_text_buffer_insert (gtk_text_buffer_begin_user_action (record_visit b itr))
            (line_start (record_visit b itr).text itr) S).1
          (gtk_text_iter_go_to_line_end
            (gtk_text_buffer_insert (gtk_text_buffer_begin_user_action (record_visit b itr))
              (line_start (record_visit b itr).text itr) S).1.text
            (gtk_text_buffer_insert (gtk_text_buffer_begin_user_action (record_visit b itr))
              (line_start (record_visit b itr).text itr) S).2) E
        have hout : outer_calls ([Event.visit_line (gtk_text_iter_get_line b.text itr)] ++
            ([Event.begin_user_action] ++ (ev1 ++ ev2) ++ [Event.end_user_action])) :=
          outer_calls_append (outer_calls_visit _) (outer_calls_action (inner_calls_append h2 h4))
        refine ⟨_, ?_, outer_calls_inner hout, fun _ => hout⟩
        simp only [gtk_text_buffer_end_user_action]
        rw [h3, h1]
        simp [record_visit, gtk_text_buffer_begin_user_action]

/-- The calls of `remove_actual_comment_on_line`: allowed inside a user action,
and allowed anywhere when there is no line prefix. -/
theorem remove_calls (b b' : GtkTextBuffer) (itr : Nat) (d : Delims)
    (h : remove_actual_comment_on_line b itr d = .ok b') :
    ∃ ev, b'.log = b.log ++ ev ∧ inner_calls ev ∧
      (d.line_comment_start = none → outer_calls ev) := by
  unfold remove_actual_comment_on_line at h
  simp only at h
  split at h
  · rename_i p hp _
    simp only [Except.ok.injEq] at h
    subst h
    obtain ⟨ev, h1, h2⟩ := remove_comment_if_exists_calls (record_visit b itr)
      (line_start (record_visit b itr).text itr)
      (gtk_text_iter_forward_chars (record_visit b itr).text
        (line_start (record_visit b itr).text itr) (strlen p)) (strlen p) p
    refine ⟨[Event.visit_line (gtk_text_iter_get_line b.text itr)] ++ ev, ?_, ?_, ?_⟩
    · rw [h1]; simp [record_visit]
    · exact inner_calls_append (outer_calls_inner (outer_calls_visit _)) h2
    · intro hd; rw [hd] at hp; cases hp
  · split at h
    · cases h
    · rename_i E hE
      simp only [Except.ok.injEq] at h
      subst h
      have key : ∀ r : GtkTextBuffer × Nat × Int,
          (∃ ev1, r.1.log = (gtk_text_buffer_begin_user_action (record_visit b itr)).log ++ ev1 ∧
            inner_calls ev1) →
          ∃ ev, (gtk_text_buffer_end_user_action
            (remove_comment_if_exists r.1
              (gtk_text_iter_backward_chars (gtk_text_iter_go_to_line_end r.1.text r.2.1)
                (strlen E))
              (gtk_text_iter_go_to_line_end r.1.text r.2.1) (strlen E) E).1).log =
              b.log ++ ev ∧ outer_calls ev := by
        rintro r ⟨ev1, h1, h2⟩
        obtain ⟨ev2, h3, h4⟩ := remove_comment_if_exists_calls r.1
          (gtk_text_iter_backward_chars (gtk_text_iter_go_to_line_end r.1.text r.2.1) (strlen E))
          (gtk_text_iter_go_to_line_end r.1.text r.2.1) (strlen E) E
        refine ⟨[Event.visit_line (gtk_text_iter_get_line b.text itr)] ++
            ([Event.begin_user_action] ++ (ev1 ++ ev2) ++ [Event.end_user_action]), ?_,
          outer_calls_append (outer_calls_visit _)
            (outer_calls_action (inner_calls_append h2 h4))⟩
        simp only [gtk_text_buffer_end_user_action]
        rw [h3, h1]
        simp [record_visit, gtk_text_buffer_begin_user_action]
      have fin : ∀ r : GtkTextBuffer × Nat × Int,
          (∃ ev1, r.1.log = (gtk_text_buffer_begin_user_action (record_visit b itr)).log ++ ev1 ∧
            inner_calls ev1) →
          ∃ ev, (gtk_text_buffer_end_user_action
            (remove_comment_if_exists r.1
              (gtk_text_iter_backward_chars (gtk_text_iter_go_to_line_end r.1.text r.2.1)
                (strlen E))
              (gtk_text_iter_go_to_line_end r.1.text r.2.1) (strlen E) E).1).log =
              b.log ++ ev ∧ inner_calls ev ∧ (d.line_comment_start = none → outer_calls ev) := by
        intro r hr
        obtain ⟨ev, h1, h2⟩ := key r hr
        exact ⟨ev, h1, outer_calls_inner h2, fun _ => h2⟩
      cases hs : d.block_comment_start with
      | none => exact fin _ ⟨[], by simp, inner_calls_nil⟩
      | some S => exact fin _ (remove_comment_if_exists_calls _ _ _ _ _)

/-- The calls of the walk are allowed inside a user action when the calls of
each visit are. -/
theorem visit_loop_calls (step : GtkTextBuffer → Nat → Except Fault GtkTextBuffer)
    (hstep : ∀ b i b', step b i = .ok b' → ∃ ev, b'.log = b.log ++ ev ∧ inner_calls ev)
    (fuel : Nat) (b b' : GtkTextBuffer) (s i : Nat) (h : visit_loop step fuel b s i = .ok b') :
    ∃ ev, b'.log = b.log ++ ev ∧ inner_calls ev := by
  induction fuel generalizing b s i with
  | zero => cases h
  | succ fuel ih =>
    simp only [visit_loop] at h
    cases hs : step b s with
    | error f => rw [hs] at h; cases h
    | ok b1 =>
      rw [hs] at h
      simp only at h
      obtain ⟨ev1, h1, h2⟩ := hstep b s b1 hs
      split at h
      · obtain ⟨ev2, h3, h4⟩ := ih b1 _ _ h
        exact ⟨ev1 ++ ev2, by rw [h3, h1, List.append_assoc], inner_calls_append h2 h4⟩
      · simp only [Except.ok.injEq] at h
        subst h
        exact ⟨ev1, h1, h2⟩

/-- The calls of `line_comment_code` and of `line_uncomment_code` keep the depth;
they are allowed anywhere on the selection path and when there is no line
prefix. -/
theorem walker_calls (fuel : Nat) (f : Comment_function)
    (hf : f = line_comment_code fuel ∨ f = line_uncomment_code fuel)
    (b b' : GtkTextBuffer) (start : Nat) (end_ : Option Nat) (d : Delims)
    (h : f b start end_ d = .ok b') :
    ∃ ev, b'.log = b.log ++ ev ∧ inner_calls ev ∧
      (end_.isSome = true ∨ d.line_comment_start = none → outer_calls ev) := by
  have sel : ∀ step : GtkTextBuffer → Nat → Except Fault GtkTextBuffer,
      (∀ b i b', step b i = .ok b' → ∃ ev, b'.log = b.log ++ ev ∧ inner_calls ev) →
      ∀ b1, visit_loop step fuel (gtk_text_buffer_begin_user_action b) start 0 = .ok b1 →
      ∃ ev, (gtk_text_buffer_end_user_action b1).log = b.log ++ ev ∧ outer_calls ev := by
    intro step hstep b1 h1
    obtain ⟨ev, h2, h3⟩ := visit_loop_calls step hstep fuel _ b1 start 0 h1
    refine ⟨[Event.begin_user_action] ++ ev ++ [Event.end_user_action], ?_,
      outer_calls_action h3⟩
    simp [gtk_text_buffer_end_user_action, h2, gtk_text_buffer_begin_user_action]
  cases end_ with
  | none =>
    rcases hf with rfl | rfl
    · obtain ⟨ev, h1, h2, h3⟩ := add_calls b b' start d h
      exact ⟨ev, h1, h2, fun hc => h3 (by simpa using hc)⟩
    · obtain ⟨ev, h1, h2, h3⟩ := remove_calls b b' start d h
      exact ⟨ev, h1, h2, fun hc => h3 (by simpa using hc)⟩
  | some e =>
    rcases hf with rfl | rfl
    · simp only [line_comment_code, line_comment_loop_eq] at h
      split at h
      · cases h
      · rename_i b1 h1
        simp only [Except.ok.injEq] at h
        subst h
        obtain ⟨ev, h2, h3⟩ := sel _
          (fun b i b' hb => by
            obtain ⟨ev, h1, h2, _⟩ := add_calls b b' i d hb
            exact ⟨ev, h1, h2⟩) b1 h1
        exact ⟨ev, h2, outer_calls_inner h3, fun _ => h3⟩
    · simp only [line_uncomment_code, line_uncomment_loop_eq] at h
      split at h
      · cases h
      · rename_i b1 h1
        simp only [Except.ok.injEq] at h
        subst h
        obtain ⟨ev, h2, h3⟩ := sel _
          (fun b i b' hb => by
            obtain ⟨ev, h1, h2, _⟩ := remove_calls b b' i d hb
            exact ⟨ev, h1, h2⟩) b1 h1
        exact ⟨ev, h2, outer_calls_inner h3, fun _ => h3⟩

/-- C14 (counterexample): with the prefix `#` and a bare cursor, `comment_code`
inserts `#`, and on `#print(1)` deletes it, with no user action open: the log
holds no `begin_user_action` at all. -/
theorem bare_cursor_edit_is_outside_user_actions :
    (∃ b', comment_code (some ⟨none, none, some "#".toList⟩) (line_comment_code 1)
        (buffer_at "print(1)".toList 0) = .ok b' ∧
      b'.log = [Event.visit_line 0, Event.insert_text 0 "#".toList] ∧
      scoped_depth 0 b'.log = none) ∧
    (∃ b', comment_code (some ⟨none, none, some "#".toList⟩) (line_uncomment_code 1)
        (buffer_at "#print(1)".toList 0) = .ok b' ∧
      b'.log = [Event.visit_line 0, Event.delete_range 0 1] ∧
      scoped_depth 0 b'.log = none) :=
  ⟨⟨_, rfl, rfl, rfl⟩, ⟨_, rfl, rfl, rfl⟩⟩

/-- C14 (amended): when `comment_code` returns, with `line_comment_code` or
`line_uncomment_code` as its function, the calls it has added to the log are
balanced (every `end_user_action` closes a `begin_user_action`, and none is left
open); on unsupported delimiters it adds no call; on the selection path, and on
the bare-cursor path when there is no line prefix, every insertion and deletion
is made inside a user action. -/
theorem user_actions_are_balanced (language : Option Delims) (fuel : Nat)
    (f : Comment_function) (hf : f = line_comment_code fuel ∨ f = line_uncomment_code fuel)
    (b b' : GtkTextBuffer) (h : comment_code language f b = .ok b') :
    ∃ ev, b'.log = b.log ++ ev ∧ user_action_depth 0 ev = some 0 ∧
      (unsupported language = true → ev = []) ∧
      (b.insert_mark ≠ b.selection_bound ∨
          (∀ d, language = some d → d.line_comment_start = none) →
        scoped_depth 0 ev = some 0) := by
  by_cases hu : unsupported language = true
  · have hb : comment_code language f b = .ok b := by
      unfold comment_code get_comment_definitions
      cases language with
      | none => rfl
      | some d =>
        obtain ⟨s, e, l⟩ := d
        cases l <;> cases s <;> cases e <;> simp_all [unsupported]
    rw [hb] at h
    simp only [Except.ok.injEq] at h
    subst h
    exact ⟨[], by simp, rfl, fun _ => rfl, fun _ => rfl⟩
  · cases language with
    | none => exact absurd rfl hu
    | some d =>
      unfold comment_code get_comment_definitions at h
      simp only at h
      split at h
      · split at h
        · rename_i hsel
          obtain ⟨ev, h1, h2, h3⟩ := walker_calls fuel f hf b b' _ _ d h
          have h4 := h3 (Or.inl rfl)
          exact ⟨ev, h1, (h4 0).2, fun hu' => absurd hu' hu, fun _ => (h4 0).1⟩
        · rename_i hsel
          obtain ⟨ev, h1, h2, h3⟩ := walker_calls fuel f hf b b' _ _ d h
          refine ⟨ev, h1, (h2 0).2, fun hu' => absurd hu' hu, ?_⟩
          rintro (hne | hd)
          · simp [gtk_text_buffer_get_selection_bounds, hne] at hsel
          · exact ((h3 (Or.inr (hd d rfl))) 0).1
      · simp only [Except.ok.injEq] at h
        subst h
        exact ⟨[], by simp, rfl, fun _ => rfl, fun _ => rfl⟩

theorem user_actions_are_balanced_witness :
    (∃ b', comment_code (some ⟨none, none, some "#".toList⟩) (line_uncomment_code 5)
        (buffer_sel "#a\n#b\nc".toList 0 4) = .ok b' ∧ b'.text = "a\nb\nc".toList ∧
      ∃ ev, b'.log = (buffer_sel "#a\n#b\nc".toList 0 4).log ++ ev ∧
        user_action_depth 0 ev = some 0 ∧ scoped_depth 0 ev = some 0) ∧
    (∃ b', comment_code (some ⟨some "/*".toList, some "*/".toList, none⟩) (line_comment_code 5)
        (buffer_at "a".toList 0) = .ok b' ∧ b'.text = "/*a*/".toList ∧
      ∃ ev, b'.log = (buffer_at "a".toList 0).log ++ ev ∧
        user_action_depth 0 ev = some 0 ∧ scoped_depth 0 ev = some 0) := by
  constructor
  · refine ⟨_, rfl, rfl, ?_⟩
    obtain ⟨ev, h1, h2, _, h4⟩ := user_actions_are_balanced
      (some ⟨none, none, some "#".toList⟩) 5 (line_uncomment_code 5) (Or.inr rfl)
      (buffer_sel "#a\n#b\nc".toList 0 4) _ rfl
    exact ⟨ev, h1, h2, h4 (Or.inl (by decide))⟩
  · refine ⟨_, rfl, rfl, ?_⟩
    obtain ⟨ev, h1, h2, _, h4⟩ := user_actions_are_balanced
      (some ⟨some "/*".toList, some "*/".toList, none⟩) 5 (line_comment_code 5) (Or.inl rfl)
      (buffer_at "a".toList 0) _ rfl
    exact ⟨ev, h1, h2, h4 (Or.inr (by intro d hd; cases hd; rfl))⟩

/-! ## Removal on a line without marker, and the text left by a walk -/

theorem edits_append (l₁ l₂ : List Event) : edits (l₁ ++ l₂) = edits l₁ ++ edits l₂ := by
  induction l₁ with
  | nil => rfl
  | cons e l ih => cases e <;> simp [edits, ih]

theorem remove_comment_if_exists_unchanged (b : GtkTextBuffer) (s e n : Nat) (m : List Char)
    (h : check_text_between_iters b s e n m = false) :
    remove_comment_if_exists b s e n m = (b, s, 1) := by
  unfold remove_comment_if_exists
  simp [h]

theorem strip_start_unmarked {m L : List Char} (h : m.isPrefixOf L = false) :
    strip_marker_at_start m L = L := by
  simp [strip_marker_at_start, h]

theorem strip_end_unmarked {m L : List Char} (h : m.isSuffixOf L = false) :
    strip_marker_at_end m L = L := by
  simp [strip_marker_at_end, h]

theorem uncommented_unmarked (d : Delims) (L : List Char) (h : carries_marker d L = false) :
    uncommented d L = L := by
  obtain ⟨s, e, l⟩ := d
  cases l <;> cases s <;> cases e <;>
    simp_all [carries_marker, uncommented, strip_marker_at_start, strip_marker_at_end]

/-- On a line that carries no marker, removal returns the buffer with the visit
recorded and, on the block branch, an empty user action. -/
theorem remove_unmarked (b : GtkTextBuffer) (pre L post : List Char)
    (hb : b.text = pre ++ (L ++ post)) (ho : opens_line pre = true) (h : plain L = true)
    (hcl : closes_line post = true) (c : Nat) (hc : c ≤ L.length) (d : Delims)
    (hsup : supported d = true) (hmk : markers_ok d = true)
    (hno : carries_marker d L = false) :
    remove_actual_comment_on_line b (pre.length + c) d =
      .ok (if d.line_comment_start.isSome then record_visit b (pre.length + c)
        else gtk_text_buffer_end_user_action
          (gtk_text_buffer_begin_user_action (record_visit b (pre.length + c)))) := by
  obtain ⟨hl, hS, hE⟩ := markers_ok_iff.1 hmk
  have hb0 : (record_visit b (pre.length + c)).text = pre ++ (L ++ post) := by simp [hb]
  cases hd : d.line_comment_start with
  | some p =>
    obtain ⟨hpp, hsp⟩ := is_marker_iff.1 (hl p hd)
    have hnp : p.isPrefixOf L = false := by
      simp [carries_marker, hd] at hno
      simpa using hno.1
    rw [remove_line_path b pre L post hb ho h hcl c hc d p hd ?_]
    · have hchk := check_at_line_start (record_visit b (pre.length + c)) pre L post hb0 ho h hcl
        p hpp hsp
      simp only [record_visit_text] at hchk
      rw [remove_comment_if_exists_unchanged _ _ _ _ _ (by rw [hchk, hnp]; simp)]
      simp
    · intro S hS'
      obtain ⟨hpS, hsS⟩ := is_marker_iff.1 (hS S hS')
      refine ⟨hpS, hsS, ?_⟩
      simp [carries_marker, hd, hS'] at hno
      have : S.isPrefixOf L = false := by simpa using hno.2
      simp [this]
  | none =>
    cases hs : d.block_comment_start with
    | none => simp [supported, hd, hs] at hsup
    | some S =>
      cases he : d.block_comment_end with
      | none => simp [supported, hd, he] at hsup
      | some E =>
        obtain ⟨hpS, hsS⟩ := is_marker_iff.1 (hS S hs)
        obtain ⟨hpE, hsE⟩ := is_marker_iff.1 (hE E he)
        simp [carries_marker, hd, hs, he] at hno
        have hnS : S.isPrefixOf L = false := by simpa using hno.1
        have hnE : E.isSuffixOf L = false := by simpa using hno.2
        rw [remove_block_path_eq b pre L post hb ho h hcl c hc d S E hs he hpS hsS (Or.inl hd)]
        have hchk := check_at_line_start
          (gtk_text_buffer_begin_user_action (record_visit b (pre.length + c))) pre L post
          (by simp [hb]) ho h hcl S hpS hsS
        simp only [begin_user_action_text, record_visit_text, hb] at hchk
        have e1 := remove_comment_if_exists_unchanged
          (gtk_text_buffer_begin_user_action (record_visit b (pre.length + c))) pre.length
          (gtk_text_iter_forward_chars (pre ++ (L ++ post)) pre.length (strlen S)) (strlen S) S
          (by rw [hchk, hnS]; simp)
        have hchk2 := check_at_line_end
          (gtk_text_buffer_begin_user_action (record_visit b (pre.length + c))) pre L post
          (by simp [hb]) ho h hcl E hpE hsE
        have e2 := remove_comment_if_exists_unchanged
          (gtk_text_buffer_begin_user_action (record_visit b (pre.length + c)))
          (gtk_text_iter_backward_chars (pre.length + L.length) (strlen E))
          (pre.length + L.length) (strlen E) E (by rw [hchk2, hnE]; simp)
        rw [e1, strip_start_unmarked hnS]
        simp only
        rw [e2]
        simp

/-- The text left by `remove_actual_comment_on_line` on the line `L`. -/
theorem remove_text (b : GtkTextBuffer) (pre L post : List Char)
    (hb : b.text = pre ++ (L ++ post)) (ho : opens_line pre = true) (h : plain L = true)
    (hcl : closes_line post = true) (c : Nat) (hc : c ≤ L.length) (d : Delims)
    (hwf : well_formed d = true) :
    ∃ b', remove_actual_comment_on_line b (pre.length + c) d = .ok b' ∧
      b'.text = pre ++ (uncommented d L ++ post) := by
  simp only [well_formed, Bool.and_eq_true, Bool.or_eq_true] at hwf
  obtain ⟨⟨hsup, hmk⟩, hpair⟩ := hwf
  obtain ⟨hl, hS, hE⟩ := markers_ok_iff.1 hmk
  have line : ∀ p, d.line_comment_start = some p →
      (∀ S, d.block_comment_start = some S → (!S.isEmpty && S.isPrefixOf L) = false) →
      ∃ b', remove_actual_comment_on_line b (pre.length + c) d = .ok b' ∧
        b'.text = pre ++ (strip_marker_at_start p L ++ post) := by
    intro p hd hno
    obtain ⟨hpp, hsp⟩ := is_marker_iff.1 (hl p hd)
    refine ⟨_, remove_line_path b pre L post hb ho h hcl c hc d p hd ?_, ?_⟩
    · intro S hS'
      obtain ⟨hpS, hsS⟩ := is_marker_iff.1 (hS S hS')
      exact ⟨hpS, hsS, hno S hS'⟩
    · have hr := remove_at_line_start (record_visit b (pre.length + c)) pre L post
        (by simp [hb]) ho h hcl p hpp hsp
      simp only [record_visit_text] at hr
      exact hr.1
  have block : ∀ S E, d.block_comment_start = some S → d.block_comment_end = some E →
      (d.line_comment_start = none ∨ (!S.isEmpty && S.isPrefixOf L) = true) →
      ∃ b', remove_actual_comment_on_line b (pre.length + c) d = .ok b' ∧
        b'.text = pre ++ (strip_marker_at_end E (strip_marker_at_start S L) ++ post) := by
    intro S E hs he hmode
    obtain ⟨hpS, hsS⟩ := is_marker_iff.1 (hS S hs)
    obtain ⟨hpE, hsE⟩ := is_marker_iff.1 (hE E he)
    exact remove_block_path b pre L post hb ho h hcl c hc d S E hs he hpS hsS hpE hsE hmode
  cases hd : d.line_comment_start with
  | none =>
    cases hs : d.block_comment_start with
    | none => simp [supported, hd, hs] at hsup
    | some S =>
      cases he : d.block_comment_end with
      | none => simp [supported, hd, he] at hsup
      | some E =>
        have := block S E hs he (Or.inl hd)
        simpa [uncommented, hd, hs, he] using this
  | some p =>
    cases hs : d.block_comment_start with
    | none =>
      have := line p hd (by intro S hS'; rw [hs] at hS'; cases hS')
      cases he : d.block_comment_end <;> simpa [uncommented, hd, hs, he] using this
    | some S =>
      cases he : d.block_comment_end with
      | none => simp [hs, he] at hpair
      | some E =>
        by_cases hcond : (!S.isEmpty && S.isPrefixOf L) = true
        · have := block S E hs he (Or.inr hcond)
          simp only [uncommented, hd, hs, he, hcond, if_true]
          exact this
        · have := line p hd (by
            intro S' hS'
            rw [hs] at hS'
            cases hS'
            simpa only [Bool.not_eq_true] using hcond)
          simp only [uncommented, hd, hs, he, hcond]
          exact this

theorem remove_step_fn (d : Delims) (hwf : well_formed d = true) :
    step_fn (fun b i => remove_actual_comment_on_line b i d) (uncommented d) := by
  intro b pre L post c hb ho h hcl hc
  obtain ⟨b', L', h1, h2⟩ := remove_step_ok d hwf b pre L post c hb ho h hcl hc
  obtain ⟨b'', h3, h4⟩ := remove_text b pre L post hb ho h hcl c hc d hwf
  simp only at h1
  rw [h1] at h3
  simp only [Except.ok.injEq] at h3
  subst h3
  have e : L' = uncommented d L := by
    have := h2.text.symm.trans h4
    exact List.append_cancel_right (List.append_cancel_left this)
  subst e
  exact ⟨b', h1, h2⟩

theorem step_fn_ok {step : GtkTextBuffer → Nat → Except Fault GtkTextBuffer}
    {g : List Char → List Char} (h : step_fn step g) : step_ok step := by
  intro b pre L post c hb ho hp hcl hc
  obtain ⟨b', h1, h2⟩ := h b pre L post c hb ho hp hcl hc
  exact ⟨b', g L, h1, h2⟩

/-- One visit by a line mutator that edits `L` into `g L`. -/
theorem visit_step_fn (step : GtkTextBuffer → Nat → Except Fault GtkTextBuffer)
    (g : List Char → List Char) (hstep : step_fn step g)
    (pre : List Char) (ho : opens_line pre = true)
    (D : List (List Char × List Char)) (hD : ∀ r ∈ D, row_ok r = true)
    (cur : List Char × List Char) (hcur : row_ok cur = true) (rest : List Char)
    (b : GtkTextBuffer) (c : Nat) (hc : c ≤ cur.1.length)
    (hb : b.text = pre ++ (flat D ++ (cur.1 ++ (cur.2 ++ rest))))
    (first : List Char × List Char) (hfirst : (D ++ [cur]).head? = some first)
    (hlo1 : pre.length ≤ min b.insert_mark b.selection_bound)
    (hlo2 : min b.insert_mark b.selection_bound ≤ pre.length + first.1.length) :
    ∃ b' first', step b (pre.length + (flat D).length + c) = .ok b' ∧
      row_ok (g cur.1, cur.2) = true ∧
      b'.text = pre ++ (flat (D ++ [(g cur.1, cur.2)]) ++ rest) ∧
      visits b'.log = visits b.log ++ [gtk_text_iter_get_line pre pre.length + D.length] ∧
      (D ++ [(g cur.1, cur.2)]).head? = some first' ∧
      pre.length ≤ min b'.insert_mark b'.selection_bound ∧
      min b'.insert_mark b'.selection_bound ≤ pre.length + first'.1.length ∧
      mark_moved (pre.length + (flat D).length) cur.1.length (g cur.1).length
        (max b.insert_mark b.selection_bound) (max b'.insert_mark b'.selection_bound) ∧
      gtk_text_iter_forward_lines b'.text (min b'.insert_mark b'.selection_bound)
        (D.length + 1) = pre.length + (flat D).length + (g cur.1).length + cur.2.length := by
  obtain ⟨b', L', first', h1, h2, h3, h4, h5, h6, h7, h8, h9⟩ :=
    visit_step_bounds step (step_fn_ok hstep) pre ho D hD cur hcur rest b c hc hb first hfirst
      hlo1 hlo2
  have hr := row_ok_iff.1 hcur
  obtain ⟨b'', k1, k2⟩ := hstep b (pre ++ flat D) cur.1 (cur.2 ++ rest) c (by simp [hb])
    (opens_line_flat pre D ho hD) hr.1 (closes_line_terminator hr.2 rest) hc
  rw [List.length_append, h1] at k1
  simp only [Except.ok.injEq] at k1
  subst k1
  have e : L' = g cur.1 := by
    have := h3.symm.trans k2.text
    rw [flat_append] at this
    simp only [flat, List.append_assoc, List.append_nil] at this
    exact List.append_cancel_right (List.append_cancel_left (List.append_cancel_left this))
  subst e
  exact ⟨b', first', h1, h2, h3, h4, h5, h6, h7, h8, h9⟩

/-- The walk of `visit_loop_rows`, with the text that it leaves: every row `r`
from the current one to `last` has become `g r.1`. -/
theorem visit_loop_rows_text (step : GtkTextBuffer → Nat → Except Fault GtkTextBuffer)
    (g : List Char → List Char) (hstep : step_fn step g)
    (pre post : List Char) (ho : opens_line pre = true)
    (last : List Char × List Char) (hlast : row_ok last = true) (ch : Nat)
    (hch : ch ≤ last.1.length) :
    ∀ (R D : List (List Char × List Char)) (first : List Char × List Char)
      (b : GtkTextBuffer) (fuel c : Nat),
      (∀ r ∈ D, row_ok r = true) → (∀ r ∈ R, row_ok r = true) →
      b.text = pre ++ (flat D ++ (flat (R ++ [last]) ++ post)) →
      (D ++ (R ++ [last])).head? = some first →
      c ≤ ((R ++ [last]).head (by simp)).1.length →
      R.length < fuel →
      pre.length ≤ min b.insert_mark b.selection_bound →
      min b.insert_mark b.selection_bound ≤ pre.length + first.1.length →
      max b.insert_mark b.selection_bound =
        pre.length + (flat D).length + (flat R).length + ch →
      ∃ b', visit_loop step fuel b (pre.length + (flat D).length + c) D.length = .ok b' ∧
        visits b'.log = visits b.log ++
          List.range' (gtk_text_iter_get_line pre pre.length + D.length) (R.length + 1) ∧
        b'.text = pre ++ (flat D ++
          (flat ((R ++ [last]).map (fun r => (g r.1, r.2))) ++ post)) := by
  intro R
  induction R with
  | nil =>
    intro D first b fuel c hD _ hb hfirst hc hfuel hlo1 hlo2 hhi
    obtain ⟨fuel, rfl⟩ : ∃ f, fuel = f + 1 := ⟨fuel - 1, by simp at hfuel; omega⟩
    simp only [List.nil_append, List.head_cons] at hc
    have hb' : b.text = pre ++ (flat D ++ (last.1 ++ (last.2 ++ post))) := by
      simpa [flat] using hb
    obtain ⟨b', first', h1, h2, h3, h4, h5, h6, h7, h8, h9⟩ :=
      visit_step_fn step g hstep pre ho D hD last hlast post b c hc hb' first
        (by simpa using hfirst) hlo1 hlo2
    refine ⟨b', ?_, by simpa using h4, ?_⟩
    · have hT := terminator_length_pos (row_ok_iff.1 hlast).2
      simp only [visit_loop, h1, gtk_text_buffer_get_selection_bounds, h9, ge_iff_le]
      rw [if_neg]
      simp only [flat, List.length_nil, Nat.add_zero] at hhi
      unfold mark_moved at h8
      omega
    · rw [h3, flat_append]
      simp [flat]
  | cons r R ih =>
    intro D first b fuel c hD hR hb hfirst hc hfuel hlo1 hlo2 hhi
    obtain ⟨fuel, rfl⟩ : ∃ f, fuel = f + 1 := ⟨fuel - 1, by simp at hfuel; omega⟩
    simp only [List.cons_append, List.head_cons] at hc
    have hr := hR r (List.mem_cons_self _ _)
    have hb' : b.text = pre ++ (flat D ++ (r.1 ++ (r.2 ++ (flat (R ++ [last]) ++ post)))) := by
      simpa [flat] using hb
    have hfirst' : (D ++ [r]).head? = some first := by
      cases D with
      | nil => simpa using hfirst
      | cons d0 D' => simpa using hfirst
    obtain ⟨b', first', h1, h2, h3, h4, h5, h6, h7, h8, h9⟩ :=
      visit_step_fn step g hstep pre ho D hD r hr (flat (R ++ [last]) ++ post) b c hc hb'
        first hfirst' hlo1 hlo2
    have hD1 : ∀ x ∈ D ++ [(g r.1, r.2)], row_ok x = true := by
      intro x hx
      rcases List.mem_append.1 hx with hx | hx
      · exact hD x hx
      · rw [List.mem_singleton.1 hx]; exact h2
    have hlen : (flat (D ++ [(g r.1, r.2)])).length =
        (flat D).length + (g r.1).length + r.2.length := by
      rw [flat_append]
      simp only [flat, List.length_append, List.append_nil, List.length_nil]
      omega
    have hhi' : max b'.insert_mark b'.selection_bound =
        pre.length + (flat (D ++ [(g r.1, r.2)])).length + (flat R).length + ch := by
      rw [hlen]
      simp only [flat, List.length_append] at hhi
      unfold mark_moved at h8
      omega
    have hfirst1 : (D ++ [(g r.1, r.2)] ++ (R ++ [last])).head? = some first' := by
      cases D with
      | nil => simpa using h5
      | cons d0 D' => simpa using h5
    obtain ⟨b'', hb1, hb2, hb3⟩ := ih (D ++ [(g r.1, r.2)]) first' b' fuel 0 hD1
      (fun x hx => hR x (List.mem_cons_of_mem _ hx)) h3 hfirst1 (Nat.zero_le _)
      (by simp at hfuel; omega) h6 h7 hhi'
    refine ⟨b'', ?_, ?_, ?_⟩
    · simp only [visit_loop, h1, gtk_text_buffer_get_selection_bounds, h9, ge_iff_le]
      rw [if_pos (by rw [hhi', hlen]; omega)]
      simp only [hlen, List.length_append, List.length_singleton, Nat.add_zero] at hb1
      rw [← hb1]
      congr 1
      omega
    · rw [hb2, h4, List.append_assoc]
      congr 1
      have e : gtk_text_iter_get_line pre pre.length + (D ++ [(g r.1, r.2)]).length =
          gtk_text_iter_get_line pre pre.length + D.length + 1 := by
        simp only [List.length_append, List.length_singleton]; omega
      rw [e, List.length_cons, List.range'_succ (gtk_text_iter_get_line pre pre.length + D.length)]
      rfl
    · rw [hb3, flat_append]
      simp [flat]

/-- The walk of `walk_visits_rows`, with the text that it leaves. -/
theorem walk_rows_text (step : GtkTextBuffer → Nat → Except Fault GtkTextBuffer)
    (g : List Char → List Char) (hstep : step_fn step g) (fuel : Nat) (b : GtkTextBuffer)
    (pre post : List Char) (r0 : List Char × List Char) (rows : List (List Char × List Char))
    (last : List Char × List Char) (c ch : Nat)
    (ho : opens_line pre = true) (hrows : ∀ r ∈ r0 :: rows, row_ok r = true)
    (hlast : row_ok last = true)
    (hb : b.text = pre ++ flat (r0 :: rows) ++ flat [last] ++ post)
    (hlo : min b.insert_mark b.selection_bound = pre.length + c)
    (hhi : max b.insert_mark b.selection_bound = pre.length + (flat (r0 :: rows)).length + ch)
    (hc : c ≤ r0.1.length) (hch : ch ≤ last.1.length) (hfuel : rows.length + 1 < fuel) :
    ∃ b', visit_loop step fuel (gtk_text_buffer_begin_user_action b) (pre.length + c) 0 =
        .ok b' ∧
      visits b'.log = visits b.log ++
        List.range' (gtk_text_iter_get_line b.text (pre.length + c)) (rows.length + 2) ∧
      b'.text = pre ++ flat ((r0 :: rows ++ [last]).map (fun r => (g r.1, r.2))) ++ post := by
  have hr0 := row_ok_iff.1 (hrows r0 (List.mem_cons_self _ _))
  have hb' : (gtk_text_buffer_begin_user_action b).text =
      pre ++ (flat [] ++ (flat (r0 :: rows ++ [last]) ++ post)) := by
    simp [hb, flat, flat_append]
  obtain ⟨b', h1, h2, h3⟩ := visit_loop_rows_text step g hstep pre post ho last hlast ch hch
    (r0 :: rows) [] r0 (gtk_text_buffer_begin_user_action b) fuel c (by simp) hrows hb'
    (by simp) (by simpa using hc) (by simpa using hfuel)
    (by simp only [gtk_text_buffer_begin_user_action]; omega)
    (by simp only [gtk_text_buffer_begin_user_action]; omega)
    (by
      show max b.insert_mark b.selection_bound =
        pre.length + (flat []).length + (flat (r0 :: rows)).length + ch
      rw [hhi]; simp [flat])
  refine ⟨b', by simpa [flat] using h1, ?_, by rw [h3]; simp [flat]⟩
  have hline : gtk_text_iter_get_line b.text (pre.length + c) =
      gtk_text_iter_get_line pre pre.length := by
    have e : b.text = pre ++ (r0.1 ++ (r0.2 ++ flat rows ++ flat [last] ++ post)) := by
      simp [hb, flat]
    rw [e, get_line_inside pre r0.1 _ hr0.1 c hc]
    have := get_line_before pre (r0.1 ++ (r0.2 ++ flat rows ++ flat [last] ++ post)) [] ho
      pre.length (le_refl _)
    rw [List.append_nil] at this
    exact this
  rw [h2, hline]
  simp [gtk_text_buffer_begin_user_action, visits_append, visits]

/-- For markers of one byte per character:
for well-formed delimiters, `remove_actual_comment_on_line` on a line
that carries no marker (the empty line and lines shorter than a marker
included) returns the buffer with its text and marks as they were and with no
insertion or deletion made; and `line_uncomment_code` over a selection whose last
line is closed by a delimiter returns after a visit of every selected line, in
order, with the lines that carry no marker left as they were and every other
line uncommented. -/
theorem unmarked_line_is_left_alone (d : Delims) (hwf : well_formed d = true) :
    (∀ (b : GtkTextBuffer) (pre L post : List Char) (c : Nat),
      b.text = pre ++ L ++ post → is_line pre L post = true → c ≤ L.length →
      carries_marker d L = false →
      ∃ b', remove_actual_comment_on_line b (pre.length + c) d = .ok b' ∧
        b'.text = b.text ∧ b'.insert_mark = b.insert_mark ∧
        b'.selection_bound = b.selection_bound ∧ edits b'.log = edits b.log) ∧
    (∀ (fuel : Nat) (b : GtkTextBuffer) (pre post : List Char) (r0 : List Char × List Char)
      (rows : List (List Char × List Char)) (last : List Char × List Char) (c ch : Nat),
      opens_line pre = true → (∀ r ∈ r0 :: rows, row_ok r = true) → row_ok last = true →
      b.text = pre ++ flat (r0 :: rows) ++ flat [last] ++ post →
      min b.insert_mark b.selection_bound = pre.length + c →
      max b.insert_mark b.selection_bound = pre.length + (flat (r0 :: rows)).length + ch →
      c ≤ r0.1.length → ch ≤ last.1.length → rows.length + 1 < fuel →
      ∃ b', line_uncomment_code fuel b (pre.length + c)
          (some (pre.length + (flat (r0 :: rows)).length + ch)) d = .ok b' ∧
        visits b'.log = visits b.log ++
          List.range' (gtk_text_iter_get_line b.text (pre.length + c)) (rows.length + 2) ∧
        b'.text = pre ++ flat ((r0 :: rows ++ [last]).map
          (fun r => (if carries_marker d r.1 then uncommented d r.1 else r.1, r.2))) ++ post) := by
  have hwf' := hwf
  simp only [well_formed, Bool.and_eq_true] at hwf'
  constructor
  · intro b pre L post c hb hline hc hno
    obtain ⟨ho, h, hcl⟩ := is_line_iff.1 hline
    rw [List.append_assoc] at hb
    refine ⟨_, remove_unmarked b pre L post hb ho h hcl c hc d hwf'.1.1 hwf'.1.2 hno, ?_⟩
    cases d.line_comment_start <;>
      simp [record_visit, gtk_text_buffer_begin_user_action, gtk_text_buffer_end_user_action,
        edits_append, edits]
  · intro fuel b pre post r0 rows last c ch ho hrows hlast hb hlo hhi hc hch hfuel
    have hg : (fun r : List Char × List Char =>
        (if carries_marker d r.1 then uncommented d r.1 else r.1, r.2)) =
        (fun r => (uncommented d r.1, r.2)) := by
      funext r
      cases hm : carries_marker d r.1
      · simp [uncommented_unmarked d r.1 hm]
      · simp
    obtain ⟨b', h1, h2, h3⟩ := walk_rows_text _ (uncommented d) (remove_step_fn d hwf) fuel b
      pre post r0 rows last c ch ho hrows hlast hb hlo hhi hc hch hfuel
    refine ⟨gtk_text_buffer_end_user_action b', ?_, ?_, ?_⟩
    · simp only [line_uncomment_code, line_uncomment_loop_eq, h1]
    · simp [gtk_text_buffer_end_user_action, visits_append, visits, h2]
    · rw [hg, end_user_action_text, h3]

theorem unmarked_line_is_left_alone_witness :
    well_formed ⟨none, none, some "#".toList⟩ = true ∧
    carries_marker ⟨none, none, some "#".toList⟩ "b".toList = false ∧
    (∃ b', remove_actual_comment_on_line (buffer_sel "#a\nb\n#c\nd".toList 1 7)
        ("#a\n".toList.length + 0) ⟨none, none, some "#".toList⟩ = .ok b' ∧
      b'.text = "#a\nb\n#c\nd".toList ∧ b'.insert_mark = 7 ∧ b'.selection_bound = 1 ∧
      edits b'.log = []) ∧
    (∃ b', line_uncomment_code 3 (buffer_sel "#a\nb\n#c\nd".toList 1 7) 1 (some 7)
        ⟨none, none, some "#".toList⟩ = .ok b' ∧
      visits b'.log = [0, 1, 2] ∧ b'.text = "a\nb\nc\nd".toList) := by
  have key := unmarked_line_is_left_alone ⟨none, none, some "#".toList⟩ (by decide)
  refine ⟨by decide, by decide, ?_, ?_⟩
  · exact key.1 (buffer_sel "#a\nb\n#c\nd".toList 1 7) "#a\n".toList "b".toList
      "\n#c\nd".toList 0 rfl (by decide) (by decide) (by decide)
  · obtain ⟨b', h1, h2, h3⟩ := key.2 3 (buffer_sel "#a\nb\n#c\nd".toList 1 7) [] "d".toList
      ("#a".toList, "\n".toList) [("b".toList, "\n".toList)] ("#c".toList, "\n".toList) 1 2
      (by decide) (by decide) (by decide) (by decide) (by decide) (by decide) (by decide)
      (by decide) (by decide)
    exact ⟨b', h1, h2.trans (by decide), h3.trans (by decide)⟩

/-! ## Markers of several bytes on the other paths

The windows of `remove_actual_comment_on_line` are `strlen` characters wide.
For a marker with a character of several bytes they are wider than the marker,
and what is deleted is the window. -/

/-- C5 (the code at the failing input): with the prefix `#` and the two-byte block markers `«` and `»`, the line
`«ab»` begins with the block start marker and the block branch is taken, but it
deletes the two-character windows `«a` and `b»`: the line is left empty, where
the deletion of the two markers leaves `ab`. -/
theorem block_branch_deletes_wide_windows :
    strlen "«".toList = 2 ∧ strlen "»".toList = 2 ∧
    (∃ b', remove_actual_comment_on_line (buffer_at "«ab»".toList 0) 0
        ⟨some "«".toList, some "»".toList, some "#".toList⟩ = .ok b' ∧ b'.text = [] ∧
      b'.log = [Event.visit_line 0, Event.begin_user_action, Event.delete_range 0 2,
        Event.delete_range 0 2, Event.end_user_action]) ∧
    strip_marker_at_end "»".toList (strip_marker_at_start "«".toList "«ab»".toList) =
      "ab".toList :=
  ⟨by decide, by decide, ⟨_, rfl, rfl, rfl⟩, by decide⟩

/-- C8 (the code at the failing input): in block mode with the two-byte markers `«` and `»`, the line `«ab»` is
left empty and the line `«ab` becomes `b`, where
`strip_marker_at_end end (strip_marker_at_start start L)` is `ab` for both. -/
theorem block_mode_deletes_wide_windows :
    (∃ b', remove_actual_comment_on_line (buffer_at "«ab»".toList 0) 0
        ⟨some "«".toList, some "»".toList, none⟩ = .ok b' ∧ b'.text = []) ∧
    strip_marker_at_end "»".toList (strip_marker_at_start "«".toList "«ab»".toList) =
      "ab".toList ∧
    (∃ b', remove_actual_comment_on_line (buffer_at "«ab".toList 0) 0
        ⟨some "«".toList, some "»".toList, none⟩ = .ok b' ∧ b'.text = "b".toList) ∧
    strip_marker_at_end "»".toList (strip_marker_at_start "«".toList "«ab".toList) =
      "ab".toList :=
  ⟨⟨_, rfl, rfl⟩, by decide, ⟨_, rfl, rfl⟩, by decide⟩

/-- C11 (the code at the failing input): with the three-byte prefix `⍝`, removal on the line `⍝ab` leaves the
empty line, not `ab`, and on the line `⍝⍝ab` it leaves `b`, not `⍝ab`: the
three-character window is deleted, not one occurrence of the prefix. -/
theorem line_mode_deletes_a_wide_window :
    (∃ b', remove_actual_comment_on_line (buffer_at "⍝ab".toList 0) 0
        ⟨none, none, some "⍝".toList⟩ = .ok b' ∧ b'.text = []) ∧
    (∃ b', remove_actual_comment_on_line (buffer_at "⍝⍝ab".toList 0) 0
        ⟨none, none, some "⍝".toList⟩ = .ok b' ∧ b'.text = "b".toList) :=
  ⟨⟨_, rfl, rfl⟩, ⟨_, rfl, rfl⟩⟩

/-- C12 (the code at the failing input): with the three-byte prefix `⍝`, `add_actual_comment_on_line` turns the
line `a` into `⍝a`, and the bounded check then answers false: the line has two
characters and `check_text_between_iters` asks for `strlen` = 3. -/
theorem inserted_multibyte_marker_is_not_detected :
    supported ⟨none, none, some "⍝".toList⟩ = true ∧
    (∃ b', add_actual_comment_on_line (buffer_at "a".toList 0) 0
        ⟨none, none, some "⍝".toList⟩ = .ok b' ∧ b'.text = "⍝a".toList ∧
      get_line_length b' 0 = 2 ∧ strlen "⍝".toList = 3 ∧
      is_line_commented b' 0 ⟨none, none, some "⍝".toList⟩ = false) :=
  ⟨by decide, _, rfl, rfl, by decide, by decide, by decide⟩

/-- C13 (the code at the failing input): with the three-byte prefix `⍝`, the line `ab⍝` carries no marker and is
wiped all the same; and on the empty first line of the buffer, removal deletes
the line break and two characters of the next line. -/
theorem unmarked_line_is_edited_with_a_multibyte_marker :
    supported ⟨none, none, some "⍝".toList⟩ = true ∧
    carries_marker ⟨none, none, some "⍝".toList⟩ "ab⍝".toList = false ∧
    (∃ b', remove_actual_comment_on_line (buffer_at "ab⍝".toList 0) 0
        ⟨none, none, some "⍝".toList⟩ = .ok b' ∧ b'.text = [] ∧
      edits b'.log = [Event.delete_range 0 3]) ∧
    carries_marker ⟨none, none, some "⍝".toList⟩ [] = false ∧
    is_line [] [] "\n⍝ab".toList = true ∧
    (∃ b', remove_actual_comment_on_line (buffer_at "\n⍝ab".toList 0) 0
        ⟨none, none, some "⍝".toList⟩ = .ok b' ∧ b'.text = "b".toList ∧
      edits b'.log = [Event.delete_range 0 3]) :=
  ⟨by decide, by decide, ⟨_, rfl, rfl, rfl⟩, by decide, by decide, ⟨_, rfl, rfl, rfl⟩⟩

/-- C18 (the code at the failing input): with the three-byte prefix `⍝`, removal on the first line of the buffer
`⍝`, line break, `abc` deletes the range 0..3: the line break and the `a` of the
next line go with the marker, and the two lines of the buffer become one. -/
theorem removal_deletes_the_line_break :
    supported ⟨none, none, some "⍝".toList⟩ = true ∧
    is_line [] "⍝".toList "\nabc".toList = true ∧
    gtk_text_buffer_get_line_count "⍝\nabc".toList = 2 ∧
    (∃ b', remove_actual_comment_on_line (buffer_at "⍝\nabc".toList 0) 0
        ⟨none, none, some "⍝".toList⟩ = .ok b' ∧ b'.text = "bc".toList ∧
      b'.log = [Event.visit_line 0, Event.delete_range 0 3] ∧
      gtk_text_buffer_get_line_count b'.text = 1) :=
  ⟨by decide, by decide, by decide, _, rfl, rfl, rfl, by decide⟩

end GeditCodeComment
